import Mathlib

/-!
# kml-speed-limit: the per-file statistics of `analyzeFile`

A shallow embedding of `src/main.go` and the properties of its result.

* Go's `float64` is the type `F64`: a finite value is the rational number it denotes, and
  every arithmetic operation rounds the exact result to the nearest representable value,
  ties to even (`rnd`), as IEEE 754 binary64 does.  The only zeros the program can produce
  are positive, so the sign of zero is not modelled.
* The input of `analyzeFile` is the sequence of lines that `scanner.Scan()` yields, and
  `scanLines` gives this sequence for the content of a file: a `bufio.Scanner` stops at the
  first line of `64 * 1024` bytes or more, and `analyzeFile` never reads its error.  A file
  is a text in UTF-8.
* The three regular expressions are the matchers `destRe`, `tableRe` and `speedRe`, which
  return the capture groups of the leftmost-first match (`FindStringSubmatch`), `none` when
  there is no match.
* `strconv.ParseFloat` is modelled on the tokens `speedRe` can capture.
* The conversion `int(f)` of a value outside the range of `int` is left to the
  implementation by the Go specification; the model takes the amd64 result.
* The order in which `range` visits a map is a parameter `trav` of `analyzeFile`.
* The library function `sort.Slice` is a parameter `sortSlice` of `main`; `sortSliceGo` is
  the function of the Go library, pattern-defeating quicksort.  An argument of `main` is a
  path with the lines that the scanner yields from its file, or with `none` when the file
  cannot be opened.
* A run-time panic (slice bounds out of range) is the result `none`.
-/

namespace KmlSpeed

/-! ## float64 -/

/-- A value of Go's `float64`: a finite value, an infinity with its sign, or NaN. -/
inductive F64 where
  | fin (q : ℚ)
  | inf (neg : Bool)
  | nan
  deriving DecidableEq

/-- The power `2 ^ e` as a rational, computed with natural-number powers. -/
def pow2 (e : ℤ) : ℚ :=
  if 0 ≤ e then ((2 ^ e.toNat : ℕ) : ℚ) else 1 / ((2 ^ (-e).toNat : ℕ) : ℚ)

/-- Worker of `natLog2`: at most `fuel` halvings. -/
def log2Fuel : ℕ → ℕ → ℕ
  | 0, _ => 0
  | fuel + 1, n => if n < 2 then 0 else log2Fuel fuel (n / 2) + 1

/-- For `n > 0`: the position of the leading bit of `n`, so `2^(natLog2 n) ≤ n < 2^(natLog2 n + 1)`. -/
def natLog2 (n : ℕ) : ℕ := log2Fuel n n

/-- For `q > 0`: the binary exponent of `q`, the integer `e` with `2^e ≤ q < 2^(e+1)`. -/
def ilog2 (q : ℚ) : ℤ :=
  let d : ℤ := (natLog2 q.num.natAbs : ℤ) - (natLog2 q.den : ℤ)
  if pow2 d ≤ q then d else d - 1

/-- Round to the nearest integer, ties to the even one. -/
def roundEven (q : ℚ) : ℤ :=
  let f := ⌊q⌋
  let r := q - f
  if r < 1 / 2 then f else if 1 / 2 < r then f + 1 else if f % 2 = 0 then f else f + 1

/-- Exponent of the unit in the last place of the binary64 format at `q > 0`:
53 significant bits, and the subnormal spacing `2^-1074` below `2^-1022`. -/
def ulpExp (q : ℚ) : ℤ := max (ilog2 q) (-1022) - 52

/-- For `q ≥ 0`: `q` rounded to 53 significant bits (subnormals included), the exponent
taken as unbounded above. -/
def rndUnbounded (q : ℚ) : ℚ :=
  if q = 0 then 0 else (roundEven (q / pow2 (ulpExp q)) : ℚ) * pow2 (ulpExp q)

/-- For `q ≥ 0`: the nearest binary64 value, `none` on overflow. -/
def rndAbs (q : ℚ) : Option ℚ :=
  if rndUnbounded q < pow2 1024 then some (rndUnbounded q) else none

/-- Round an exact result to `float64` (round to nearest, ties to even). -/
def rnd (q : ℚ) : F64 :=
  if q < 0 then
    match rndAbs (-q) with
    | some r => F64.fin (-r)
    | none => F64.inf true
  else
    match rndAbs q with
    | some r => F64.fin r
    | none => F64.inf false

/-- The rational `q` is a finite `float64` value. -/
def IsF64 (q : ℚ) : Prop := rnd q = F64.fin q

instance (q : ℚ) : Decidable (IsF64 q) := by unfold IsF64; infer_instance

/-- Go's `x + y` on `float64`. -/
def fadd : F64 → F64 → F64
  | F64.fin x, F64.fin y => rnd (x + y)
  | F64.nan, _ => F64.nan
  | _, F64.nan => F64.nan
  | F64.inf s, F64.inf t => if s = t then F64.inf s else F64.nan
  | F64.inf s, F64.fin _ => F64.inf s
  | F64.fin _, F64.inf t => F64.inf t

/-- Go's `x * y` on `float64`. -/
def fmul : F64 → F64 → F64
  | F64.fin x, F64.fin y => rnd (x * y)
  | F64.nan, _ => F64.nan
  | _, F64.nan => F64.nan
  | F64.inf s, F64.inf t => F64.inf (xor s t)
  | F64.inf s, F64.fin y => if y = 0 then F64.nan else F64.inf (xor s (decide (y < 0)))
  | F64.fin x, F64.inf t => if x = 0 then F64.nan else F64.inf (xor (decide (x < 0)) t)

/-- Go's `x / y` on `float64`: dividing by zero does not panic, it gives an infinity, or NaN
for `0 / 0`. -/
def fdiv : F64 → F64 → F64
  | F64.fin x, F64.fin y =>
    if y = 0 then (if x = 0 then F64.nan else F64.inf (decide (x < 0))) else rnd (x / y)
  | F64.nan, _ => F64.nan
  | _, F64.nan => F64.nan
  | F64.inf _, F64.inf _ => F64.nan
  | F64.inf s, F64.fin y => F64.inf (xor s (decide (y < 0)))
  | F64.fin _, F64.inf _ => F64.fin 0

/-- Go's `x <= y` on `float64`: false as soon as an operand is NaN. -/
def F64.le : F64 → F64 → Prop
  | F64.fin x, F64.fin y => x ≤ y
  | F64.nan, _ => False
  | _, F64.nan => False
  | F64.inf s, F64.inf t => s = true ∨ t = false
  | F64.inf s, F64.fin _ => s = true
  | F64.fin _, F64.inf t => t = false

instance (a b : F64) : Decidable (F64.le a b) := by
  cases a <;> cases b <;> unfold F64.le <;> infer_instance

/-- The conversion `float64(n)` of a length. -/
def ofNat (n : ℕ) : F64 := rnd (n : ℚ)

/-- The conversion `float64(k)` of an `int`. -/
def ofInt (k : ℤ) : F64 := rnd (k : ℚ)

/-- The smallest `int` (64 bits), which the amd64 conversion instruction returns for a
`float64` outside the range of `int`. -/
def minInt : ℤ := -(2 ^ 63)

/-- Truncation toward zero of a rational. -/
def truncZero (q : ℚ) : ℤ := if q < 0 then -⌊-q⌋ else ⌊q⌋

/-- The conversion `int(f)`: truncation toward zero.  For a value outside the range of
`int` the Go specification leaves the result to the implementation; the model takes the
amd64 result, `minInt`. -/
def toInt : F64 → ℤ
  | F64.fin q => if minInt ≤ truncZero q ∧ truncZero q < 2 ^ 63 then truncZero q else minInt
  | _ => minInt

/-- The variable `minAdjustedSpeed = 20.0`. -/
def minAdjustedSpeed : ℚ := 20

/-- The constant `0.1` converted to `float64`. -/
def tenth : F64 := rnd (1 / 10)

/-- The accumulation `total += s` over a sequence, from `0.00`, in order. -/
def fsum (xs : List ℚ) : F64 := xs.foldl (fun acc s => fadd acc (F64.fin s)) (F64.fin 0)

/-! ## Strings and the three patterns -/

/-- The text that follows the literal `lit` at the start of `s`, when `s` starts with it. -/
def dropLit : List Char → List Char → Option (List Char)
  | [], s => some s
  | _ :: _, [] => none
  | p :: ps, c :: cs => if p = c then dropLit ps cs else none

/-- Split at the first occurrence of `lit`: the text before it and the text after it. -/
def splitFirst (lit : List Char) : List Char → Option (List Char × List Char)
  | [] => (dropLit lit []).map (fun r => ([], r))
  | c :: cs =>
    match dropLit lit (c :: cs) with
    | some r => some ([], r)
    | none => (splitFirst lit cs).map (fun p => (c :: p.1, p.2))

/-- Split at the last occurrence of `lit`: the text before it and the text after it. -/
def splitLast (lit : List Char) : List Char → Option (List Char × List Char)
  | [] => (dropLit lit []).map (fun r => ([], r))
  | c :: cs =>
    match splitLast lit cs with
    | some p => some (c :: p.1, p.2)
    | none => (dropLit lit (c :: cs)).map (fun r => ([], r))

/-- The longest text a run of `.` can match at the start of `s`: `.` matches every
character but the line feed. -/
def dotRun (s : List Char) : List Char := s.takeWhile (fun c => c ≠ '\n')

/-- The leftmost position of `s` at which the anchored matcher `f` succeeds. -/
def leftmost {α : Type} (f : List Char → Option α) : List Char → Option α
  | [] => f []
  | c :: cs =>
    match f (c :: cs) with
    | some a => some a
    | none => leftmost f cs

/-- The pattern `destRe`, eight spaces and `<name>(.*)</name>` anchored at the start of the
line: the capture group of the match, the group being greedy. -/
def destRe (line : String) : Option String :=
  match dropLit "        <name>".toList line.toList with
  | none => none
  | some rest => (splitLast "</name>".toList (dotRun rest)).map (fun p => String.mk p.1)

/-- A match of `tableRe` that starts at the start of `s`; both groups are lazy. -/
def tableHere (s : List Char) : Option (String × String) :=
  match dropLit "<tr><td><b>".toList s with
  | none => none
  | some rest =>
    match splitFirst "</b>".toList (dotRun rest) with
    | none => none
    | some (k, r) =>
      match splitFirst "</td></tr>".toList r with
      | none => none
      | some (v, _) => some (String.mk k, String.mk v)

/-- The pattern `tableRe`, `<tr><td><b>(.*?)</b>(.*?)</td></tr>`: the two capture groups of
the leftmost match. -/
def tableRe (line : String) : Option (String × String) := leftmost tableHere line.toList

/-- The character class `[\d\.]`: an ASCII digit or a dot. -/
def isDigitDot (c : Char) : Bool := c.isDigit || c == '.'

/-- A match of `speedRe` that starts at the start of `s`. -/
def speedHere (s : List Char) : Option String :=
  match dropLit "Speed: ".toList s with
  | none => none
  | some rest =>
    let tok := rest.takeWhile isDigitDot
    if tok = [] then none
    else
      match dropLit " mph".toList (rest.dropWhile isDigitDot) with
      | none => none
      | some _ => some (String.mk tok)

/-- The pattern `speedRe`, `Speed: ([\d\.]+) mph`: the capture group of the leftmost match. -/
def speedRe (line : String) : Option String := leftmost speedHere line.toList

/-- Value of a string of decimal digits. -/
def decimalNat (ds : List Char) : ℕ := ds.foldl (fun a c => 10 * a + (c.toNat - 48)) 0

/-- The call `strconv.ParseFloat(tok, 64)` on a token of digits and dots, the only tokens
`speedRe` captures: digits with at most one dot and at least one digit denote a decimal
number, which is rounded to `float64`; `none` is a non-nil error (bad syntax, or a value
that rounds to infinity). -/
def parseFloat (tok : String) : Option ℚ :=
  let ip := tok.toList.takeWhile Char.isDigit
  let fp : Option (List Char) :=
    match tok.toList.dropWhile Char.isDigit with
    | [] => some []
    | c :: r => if c = '.' then some r else none
  match fp with
  | none => none
  | some fr =>
    if fr.all Char.isDigit ∧ (ip ≠ [] ∨ fr ≠ []) then
      match rnd ((decimalNat (ip ++ fr) : ℚ) / ((10 ^ fr.length : ℕ) : ℚ)) with
      | F64.fin q => some q
      | _ => none
    else none

/-- Go's `unicode.IsSpace`. -/
def isSpace (c : Char) : Bool :=
  (9 ≤ c.toNat && c.toNat ≤ 13) || c.toNat == 32 || c.toNat == 0x85 || c.toNat == 0xA0 ||
  c.toNat == 0x1680 || (0x2000 ≤ c.toNat && c.toNat ≤ 0x200A) || c.toNat == 0x2028 ||
  c.toNat == 0x2029 || c.toNat == 0x202F || c.toNat == 0x205F || c.toNat == 0x3000

/-- Go's `strings.TrimSpace`. -/
def trimSpace (s : String) : String :=
  String.mk ((s.toList.dropWhile isSpace).rdropWhile isSpace)

/-! ## The scanner -/

/-- The constant `bufio.MaxScanTokenSize`: the size up to which the buffer of a scanner
grows, `analyzeFile` leaving it as it is. -/
def maxScanTokenSize : ℕ := 64 * 1024

/-- The pieces of a text between its line feeds; there is always at least one. -/
def splitLF : List Char → List (List Char)
  | [] => [[]]
  | c :: cs =>
    if c = '\n' then [] :: splitLF cs
    else
      match splitLF cs with
      | [] => [[c]]
      | l :: ls => (c :: l) :: ls

/-- The function `dropCR` of `bufio`: a carriage return at the end of a line is dropped. -/
def dropCR (s : String) : String :=
  if s.toList.getLast? = some '\r' then String.mk s.toList.dropLast else s

/-- The lines that the split function `bufio.ScanLines` delimits in the content of a file,
before `dropCR`: the pieces between the line feeds, the last one only when it is not
empty. -/
def rawLines (content : String) : List String :=
  let ps := splitLF content.toList
  (if ps.getLast? = some [] then ps.dropLast else ps).map String.mk

/-- The line fits the buffer of the scanner: it has fewer than `maxScanTokenSize` bytes,
so that its line feed, or the end of the file, is found before the buffer is full. -/
def fitsScanner (l : String) : Bool := decide (l.utf8ByteSize < maxScanTokenSize)

/-- The texts that the loop `for scanner.Scan()` gets from `scanner.Text()` on a file of
the given content.  At the first line that does not fit the buffer `Scan` returns false
(the error is `bufio.ErrTooLong`, which `analyzeFile` never reads): that line and every
later one are not read. -/
def scanLines (content : String) : List String :=
  ((rawLines content).takeWhile fitsScanner).map dropCR

/-- The content of the file that has the given lines, each ended by a line feed. -/
def fileOf : List String → String
  | [] => ""
  | l :: ls => l ++ "\n" ++ fileOf ls

/-! ## Go maps -/

/-- The lookup `m[k]` with its presence flag; a map is a list of entries with distinct keys. -/
def mapGet {κ ν : Type} [DecidableEq κ] : List (κ × ν) → κ → Option ν
  | [], _ => none
  | (k1, v1) :: rest, k => if k1 = k then some v1 else mapGet rest k

/-- The assignment `m[k] = v`. -/
def mapSet {κ ν : Type} [DecidableEq κ] : List (κ × ν) → κ → ν → List (κ × ν)
  | [], k, v => [(k, v)]
  | (k1, v1) :: rest, k, v => if k1 = k then (k, v) :: rest else (k1, v1) :: mapSet rest k v

/-! ## analyzeFile -/

/-- The result record. -/
structure Result where
  Path : String
  Destination : String
  AverageSpeed : F64
  TravelSpeed : F64
  AdjustedTravelSpeed : F64
  MaxSpeed : F64
  ModeSpeed : F64
  Table : List (String × String)
  deriving DecidableEq

/-- The variables the scanning loop of `analyzeFile` updates. -/
structure State where
  speeds : List ℚ
  speedMode : List (ℤ × ℕ)
  table : List (String × String)
  dest : String
  sum : F64
  maxSpeed : ℚ
  deriving DecidableEq

/-- The variables before the first line. -/
def State.start : State :=
  { speeds := [], speedMode := [], table := [], dest := "", sum := F64.fin 0, maxSpeed := 0 }

/-- The loop body from the match against `speedRe` on: a sample that parses is appended and
enters the sum, the maximum and the occurrence counts. -/
def speedLine (st : State) (line : String) : State :=
  match speedRe line with
  | none => st
  | some tok =>
    match parseFloat tok with
    | none => st
    | some f =>
      { st with
        speeds := st.speeds ++ [f]
        sum := fadd st.sum (F64.fin f)
        maxSpeed := if f > st.maxSpeed then f else st.maxSpeed
        speedMode :=
          mapSet st.speedMode (toInt (F64.fin f))
            ((mapGet st.speedMode (toInt (F64.fin f))).getD 0 + 1) }

/-- The loop body from the match against `tableRe` on. -/
def tableLine (st : State) (line : String) : State :=
  match tableRe line with
  | some (k, v) => { st with table := mapSet st.table k (trimSpace v) }
  | none => speedLine st line

/-- One iteration of the scanning loop. -/
def step (st : State) (line : String) : State :=
  match destRe line with
  | some v => if st.dest = "" then { st with dest := v } else tableLine st line
  | none => tableLine st line

/-- The scanning loop over the lines that the scanner yields. -/
def scan (lines : List String) : State := lines.foldl step State.start

/-- The accumulator `maxSpeed` of the scanning loop on a sample sequence: it starts at `0`
and takes every sample above it. -/
def maxFold (fs : List ℚ) : ℚ := fs.foldl (fun m f => if f > m then f else m) 0

/-- The loop over the occurrence counts, in the order `entries` of the traversal: the pair
`(modeSpeed, modeSpeedOcc)`. -/
def modeLoop (entries : List (ℤ × ℕ)) : ℤ × ℕ :=
  entries.foldl (fun acc e => if e.2 > acc.2 then (e.1, e.2) else acc) (0, 0)

/-- The statement `travelBuffer := int(float64(len(speeds))*0.1) + 1` for `n = len(speeds)`. -/
def travelBuffer (n : ℕ) : ℤ := toInt (fmul (ofNat n) tenth) + 1

/-- The slice expression `xs[lo:hi]`: it panics (`none`) unless `0 ≤ lo ≤ hi ≤ cap(xs)`.
`analyzeFile` only takes `hi` below `len(xs)`, so the length stands for the capacity. -/
def slice {α : Type} (xs : List α) (lo hi : ℤ) : Option (List α) :=
  if 0 ≤ lo ∧ lo ≤ hi ∧ hi ≤ (xs.length : ℤ) then some ((xs.take hi.toNat).drop lo.toNat)
  else none

/-- The statement `midSection := speeds[travelBuffer : len(speeds)-travelBuffer]`. -/
def midSection (speeds : List ℚ) : Option (List ℚ) :=
  slice speeds (travelBuffer speeds.length) ((speeds.length : ℤ) - travelBuffer speeds.length)

/-- The variables the loop over the mid-section updates. -/
structure MidAcc where
  midSectionTotal : F64
  midSectionAdj : List ℚ
  midSectionAdjTotal : F64

/-- One iteration of the loop over the mid-section. -/
def midStep (a : MidAcc) (s : ℚ) : MidAcc :=
  if s < minAdjustedSpeed then
    { a with midSectionTotal := fadd a.midSectionTotal (F64.fin s) }
  else
    { midSectionTotal := fadd a.midSectionTotal (F64.fin s)
      midSectionAdjTotal := fadd a.midSectionAdjTotal (F64.fin s)
      midSectionAdj := a.midSectionAdj ++ [s] }

/-- The loop over the mid-section. -/
def midLoop (mid : List ℚ) : MidAcc :=
  mid.foldl midStep
    { midSectionTotal := F64.fin 0, midSectionAdj := [], midSectionAdjTotal := F64.fin 0 }

/-- The function `analyzeFile` on the lines that its scanner yields, `scanLines content`
for a file of content `content`.  The order in which `range` visits a map is not specified:
`trav` gives, for the map of occurrence counts, the order of its entries in the traversal.
`Path` is left empty, `main` fills it in. -/
def analyzeFile (trav : List (ℤ × ℕ) → List (ℤ × ℕ)) (lines : List String) : Option Result :=
  let st := scan lines
  let modeSpeed := (modeLoop (trav st.speedMode)).1
  match midSection st.speeds with
  | none => none
  | some mid =>
    let acc := midLoop mid
    some
      { Path := ""
        Destination := st.dest
        AverageSpeed := fdiv st.sum (ofNat st.speeds.length)
        TravelSpeed := fdiv acc.midSectionTotal (ofNat mid.length)
        AdjustedTravelSpeed := fdiv acc.midSectionAdjTotal (ofNat acc.midSectionAdj.length)
        MaxSpeed := F64.fin st.maxSpeed
        ModeSpeed := ofInt modeSpeed
        Table := st.table }

/-- The metadata row that the loop body handles on `line` when the variables are `st`: the
capture groups of `tableRe`, unless the line is consumed by the destination test. -/
def rowOf (st : State) (line : String) : Option (String × String) :=
  match destRe line with
  | some _ => if st.dest = "" then none else tableRe line
  | none => tableRe line

/-- The metadata rows that the scanning loop handles on `lines`, in file order, when it
starts from the variables `st`. -/
def rowsFrom : State → List String → List (String × String)
  | _, [] => []
  | st, l :: ls => (rowOf st l).toList ++ rowsFrom (step st l) ls

/-! ## main -/

/-- The way a run of `main` ends: the report of the results in the order printed (exit
code 0), the message of a file that cannot be opened (exit code 1), or a run-time panic. -/
inductive Outcome where
  | report (rs : List Result)
  | exitOne
  | panic
  deriving DecidableEq

/-- The value `r.Table["Start Time"]`: the empty string when the key is missing. -/
def startTime (r : Result) : String := (mapGet r.Table "Start Time").getD ""

/-- The comparison that `main` passes to `sort.Slice`.  Go compares strings byte by byte;
on the strings of the model, sequences of Unicode characters, this is the lexicographic
order of the code points. -/
def startTimeLess (a b : Result) : Bool := decide (startTime a < startTime b)

/-- The loop of `main` over the arguments, each a path with the lines that the scanner
yields from its file, or `none` when the file cannot be opened; `rs` holds the results so
far. -/
def collect (trav : List (ℤ × ℕ) → List (ℤ × ℕ)) :
    List (String × Option (List String)) → List Result → Outcome
  | [], rs => Outcome.report rs
  | (_, none) :: _, _ => Outcome.exitOne
  | (path, some lines) :: rest, rs =>
    match analyzeFile trav lines with
    | none => Outcome.panic
    | some r => collect trav rest (rs ++ [{ r with Path := path }])

/-- The result that the loop of `main` appends for an argument: that of `analyzeFile` with
the path filled in; `none` when the file cannot be opened or `analyzeFile` panics. -/
def resultOf (trav : List (ℤ × ℕ) → List (ℤ × ℕ)) (a : String × Option (List String)) :
    Option Result :=
  a.2.bind (fun lines => (analyzeFile trav lines).map (fun r => { r with Path := a.1 }))

/-- The function `main`.  The library function `sort.Slice` is the parameter `sortSlice`,
`sortSliceGo` for the function of the Go library; the report is the sequence of results in
the order of the printed blocks. -/
def main (trav : List (ℤ × ℕ) → List (ℤ × ℕ))
    (sortSlice : (Result → Result → Bool) → List Result → List Result)
    (args : List (String × Option (List String))) : Outcome :=
  match collect trav args [] with
  | Outcome.report rs => Outcome.report (sortSlice startTimeLess rs)
  | Outcome.exitOne => Outcome.exitOne
  | Outcome.panic => Outcome.panic

/-- The contract of `sort.Slice` for the comparison of `main`: the result is a permutation
of the slice in which no element is less than an earlier one. -/
def SortsByStartTime (sortSlice : (Result → Result → Bool) → List Result → List Result) :
    Prop :=
  ∀ rs : List Result, (sortSlice startTimeLess rs).Perm rs ∧
    (sortSlice startTimeLess rs).Pairwise (fun a b => startTimeLess b a = false)

/-- Sorting by insertion, which `sort.Slice` runs on a slice of at most twelve elements. -/
def insertionSortSlice (lt : Result → Result → Bool) (rs : List Result) : List Result :=
  rs.insertionSort (fun a b => lt b a = false)

/-! ## Example files -/

/-- A file of ten samples `10, 20, …, 100` after a destination line and a metadata row. -/
def tripTen : List String :=
  ["        <name>Lakeview Trail</name>", "<tr><td><b>Start Time</b>08:00</td></tr>",
    "Speed: 10 mph", "Speed: 20 mph", "Speed: 30 mph", "Speed: 40 mph", "Speed: 50 mph",
    "Speed: 60 mph", "Speed: 70 mph", "Speed: 80 mph", "Speed: 90 mph", "Speed: 100 mph"]

/-- The result of `analyzeFile` on `tripTen`. -/
def tripTenResult : Result :=
  { Path := ""
    Destination := "Lakeview Trail"
    AverageSpeed := F64.fin 55
    TravelSpeed := F64.fin 55
    AdjustedTravelSpeed := F64.fin 55
    MaxSpeed := F64.fin 100
    ModeSpeed := F64.fin 10
    Table := [("Start Time", "08:00")] }

/-- A file of four samples whose mid-section is `10, 30`. -/
def tripSlow : List String :=
  ["Speed: 0 mph", "Speed: 10 mph", "Speed: 30 mph", "Speed: 0 mph"]

/-- A file of eight samples whose six mid-section samples are within `2e-14` of `20`. -/
def tripNearTwenty : List String :=
  ["Speed: 0 mph", "Speed: 19.99999999999999 mph", "Speed: 20.000000000000007 mph",
    "Speed: 20.00000000000001 mph", "Speed: 20.000000000000007 mph",
    "Speed: 20.00000000000001 mph", "Speed: 20.000000000000007 mph", "Speed: 0 mph"]

/-- A file of three samples `0.1`. -/
def tripTenths : List String := ["Speed: 0.1 mph", "Speed: 0.1 mph", "Speed: 0.1 mph"]

/-- The result of `analyzeFile` on `tripSlow`. -/
def tripSlowResult : Result :=
  { Path := ""
    Destination := ""
    AverageSpeed := F64.fin 10
    TravelSpeed := F64.fin 20
    AdjustedTravelSpeed := F64.fin 30
    MaxSpeed := F64.fin 30
    ModeSpeed := F64.fin 0
    Table := [] }

/-- A file of two samples `1e19`, above the largest `int`. -/
def tripHuge : List String :=
  ["Speed: 10000000000000000000 mph", "Speed: 10000000000000000000 mph"]

/-- A file whose first destination line has an empty name. -/
def tripTwoNames : List String :=
  ["        <name></name>", "        <name>B</name>", "Speed: 1 mph", "Speed: 2 mph"]

/-- A file with a second destination line, which holds a speed. -/
def tripNamedSpeed : List String :=
  ["        <name>A</name>", "        <name>Speed: 30 mph</name>"]

/-- A line that matches the three patterns at once. -/
def lineAllThree : String := "        <name>A<tr><td><b>K</b>V</td></tr> Speed: 5 mph</name>"

/-- A metadata row that holds a speed. -/
def lineRowWithSpeed : String := "<tr><td><b>K</b>Speed: 5 mph</td></tr>"

/-- A file of two samples. -/
def tripTwo : List String := ["Speed: 1 mph", "Speed: 2 mph"]

/-- The result of `analyzeFile` on `tripTwo`. -/
def tripTwoResult : Result :=
  { Path := ""
    Destination := ""
    AverageSpeed := F64.fin (3 / 2)
    TravelSpeed := F64.nan
    AdjustedTravelSpeed := F64.nan
    MaxSpeed := F64.fin 2
    ModeSpeed := F64.fin 1
    Table := [] }

/-- A file of three samples whose samples at or above `20` are the first and the last. -/
def tripEdges : List String := ["Speed: 50 mph", "Speed: 10 mph", "Speed: 60 mph"]

/-- A batch of two files, the first with a single sample. -/
def batchShort : List (String × Option (List String)) :=
  [("a.kml", some ["Speed: 1 mph"]), ("b.kml", some tripTen)]

/-- A line of 70000 letters `x`, more than the buffer of the scanner holds. -/
def longLine : String := String.mk (List.replicate 70000 'x')

/-- Two samples, the line `longLine`, and two more samples. -/
def tripLong : String :=
  fileOf ["Speed: 1 mph", "Speed: 1 mph"] ++ longLine ++ "\n" ++
    fileOf ["Speed: 30 mph", "Speed: 40 mph"]

/-- Two samples, the line `longLine`, and a destination line. -/
def tripLongName : String :=
  fileOf ["Speed: 1 mph", "Speed: 2 mph"] ++ longLine ++ "\n" ++ fileOf ["        <name>B</name>"]

/-! ## sort.Slice

The function `sort.Slice` of the Go library (Go 1.19 and later), pattern-defeating quicksort
on the slice through `Less` and `Swap`.  A slice is the list of its elements, an index is a
natural number, and `none` is a panic (an index out of range) or the end of the fuel of a
loop; `Slice_sorts` shows that neither occurs. -/

/-- The call `data.Less(i, j)`: the comparison `less` on the elements at `i` and `j`. -/
def lessAt {α : Type} (less : α → α → Bool) (xs : List α) (i j : ℕ) : Option Bool :=
  match xs[i]?, xs[j]? with
  | some x, some y => some (less x y)
  | _, _ => none

/-- The call `data.Swap(i, j)`: the slice with the elements at `i` and `j` exchanged. -/
def swapAt {α : Type} (xs : List α) (i j : ℕ) : Option (List α) :=
  match xs[i]?, xs[j]? with
  | some x, some y => some ((xs.set i y).set j x)
  | _, _ => none

/-- The inner loop of `insertionSort_func`, entered with the index `j`:
`for ; j > a && data.Less(j, j-1); j-- { data.Swap(j, j-1) }`. -/
def insertionSort_inner {α : Type} (less : α → α → Bool) (a : ℕ) : ℕ → List α → Option (List α)
  | 0, xs => some xs
  | j + 1, xs =>
    if a < j + 1 then
      match lessAt less xs (j + 1) j with
      | none => none
      | some true => (swapAt xs (j + 1) j).bind (insertionSort_inner less a j)
      | some false => some xs
    else some xs

/-- The outer loop of `insertionSort_func`, `for i := a + 1; i < b; i++`, entered with the
index `i` and `n` iterations to run. -/
def insertionSort_outer {α : Type} (less : α → α → Bool) (a : ℕ) :
    ℕ → ℕ → List α → Option (List α)
  | 0, _, xs => some xs
  | n + 1, i, xs => (insertionSort_inner less a i xs).bind (insertionSort_outer less a n (i + 1))

/-- The function `insertionSort_func`, which sorts `data[a:b]` by insertion. -/
def insertionSort_func {α : Type} (less : α → α → Bool) (xs : List α) (a b : ℕ) :
    Option (List α) :=
  insertionSort_outer less a (b - (a + 1)) (a + 1) xs

/-- The function `siftDown_func` on the heap `data[first : first+hi]`, its loop entered with
the index `root`. -/
def siftDown_func {α : Type} (less : α → α → Bool) (hi first : ℕ) :
    ℕ → ℕ → List α → Option (List α)
  | 0, _, _ => none
  | fuel + 1, root, xs =>
    if hi ≤ 2 * root + 1 then some xs
    else
      (if 2 * root + 1 + 1 < hi then
          (lessAt less xs (first + (2 * root + 1)) (first + (2 * root + 1) + 1)).map
            (fun lt => if lt then 2 * root + 1 + 1 else 2 * root + 1)
        else some (2 * root + 1)).bind
        (fun child =>
          (lessAt less xs (first + root) (first + child)).bind
            (fun lt =>
              if lt then
                (swapAt xs (first + root) (first + child)).bind
                  (siftDown_func less hi first fuel child)
              else some xs))

/-- The first loop of `heapSort_func`, `for i := (hi - 1) / 2; i >= 0; i--`, with `n`
iterations to run: the next index is `n - 1`. -/
def heapSort_build {α : Type} (less : α → α → Bool) (hi first : ℕ) :
    ℕ → List α → Option (List α)
  | 0, xs => some xs
  | n + 1, xs => (siftDown_func less hi first (hi + 1) n xs).bind (heapSort_build less hi first n)

/-- The second loop of `heapSort_func`, `for i := hi - 1; i >= 0; i--`, with `n` iterations
to run: the next index is `n - 1`. -/
def heapSort_pop {α : Type} (less : α → α → Bool) (first : ℕ) : ℕ → List α → Option (List α)
  | 0, xs => some xs
  | n + 1, xs =>
    (swapAt xs first (first + n)).bind
      (fun ys => (siftDown_func less n first (n + 1) 0 ys).bind (heapSort_pop less first n))

/-- The function `heapSort_func`, which sorts `data[a:b]` with a heap. -/
def heapSort_func {α : Type} (less : α → α → Bool) (xs : List α) (a b : ℕ) : Option (List α) :=
  (heapSort_build less (b - a) a ((b - a - 1) / 2 + 1) xs).bind (heapSort_pop less a (b - a))

/-- The type `sortedHint`. -/
inductive sortedHint where
  | unknownHint
  | increasingHint
  | decreasingHint
  deriving DecidableEq

/-- The method `Next` of `xorshift`, on 64 bits. -/
def xorshift_Next (r : ℕ) : ℕ :=
  let r1 := r ^^^ ((r <<< 13) % 2 ^ 64)
  let r2 := r1 ^^^ (r1 >>> 7)
  r2 ^^^ ((r2 <<< 17) % 2 ^ 64)

/-- The function `bits.Len`: the number of bits of `n`, `0` for `n = 0`. -/
def bitsLen (n : ℕ) : ℕ := if n = 0 then 0 else natLog2 n + 1

/-- The function `nextPowerOfTwo`. -/
def nextPowerOfTwo (length : ℕ) : ℕ := 2 ^ bitsLen length

/-- The loop of `breakPatterns_func`, `for i := 0; i < 3; i++`, with `n` iterations to run
and the state `random` of the generator. -/
def breakPatterns_loop {α : Type} (a length idx : ℕ) : ℕ → ℕ → ℕ → List α → Option (List α)
  | 0, _, _, xs => some xs
  | n + 1, i, random, xs =>
    (swapAt xs (idx - 1 + i)
      (a + (if length ≤ xorshift_Next random &&& (nextPowerOfTwo length - 1)
        then (xorshift_Next random &&& (nextPowerOfTwo length - 1)) - length
        else xorshift_Next random &&& (nextPowerOfTwo length - 1)))).bind
      (breakPatterns_loop a length idx n (i + 1) (xorshift_Next random))

/-- The function `breakPatterns_func`, which scatters three elements around the middle. -/
def breakPatterns_func {α : Type} (xs : List α) (a b : ℕ) : Option (List α) :=
  if 8 ≤ b - a then
    breakPatterns_loop a (b - a) (a + (b - a) / 4 * 2 - 1) 3 0 (b - a) xs
  else some xs

/-- The function `order2_func`: the two indices in the order of their elements, and the
count of swaps. -/
def order2_func {α : Type} (less : α → α → Bool) (xs : List α) (a b swaps : ℕ) :
    Option (ℕ × ℕ × ℕ) :=
  (lessAt less xs b a).map (fun lt => if lt then (b, a, swaps + 1) else (a, b, swaps))

/-- The function `median_func`: the index of the median of three elements, and the count of
swaps. -/
def median_func {α : Type} (less : α → α → Bool) (xs : List α) (a b c swaps : ℕ) :
    Option (ℕ × ℕ) :=
  (order2_func less xs a b swaps).bind (fun r1 =>
    (order2_func less xs r1.2.1 c r1.2.2).bind (fun r2 =>
      (order2_func less xs r1.1 r2.1 r2.2.2).map (fun r3 => (r3.2.1, r3.2.2))))

/-- The function `medianAdjacent_func`. -/
def medianAdjacent_func {α : Type} (less : α → α → Bool) (xs : List α) (a swaps : ℕ) :
    Option (ℕ × ℕ) :=
  median_func less xs (a - 1) a (a + 1) swaps

/-- The function `choosePivot_func`: the index of the pivot and the hint. -/
def choosePivot_func {α : Type} (less : α → α → Bool) (xs : List α) (a b : ℕ) :
    Option (ℕ × sortedHint) :=
  ((if 8 ≤ b - a then
      (if 50 ≤ b - a then
          (medianAdjacent_func less xs (a + (b - a) / 4 * 1) 0).bind (fun ri =>
            (medianAdjacent_func less xs (a + (b - a) / 4 * 2) ri.2).bind (fun rj =>
              (medianAdjacent_func less xs (a + (b - a) / 4 * 3) rj.2).map (fun rk =>
                (ri.1, rj.1, rk.1, rk.2))))
        else some (a + (b - a) / 4 * 1, a + (b - a) / 4 * 2, a + (b - a) / 4 * 3, 0)).bind
        (fun r => median_func less xs r.1 r.2.1 r.2.2.1 r.2.2.2)
    else some (a + (b - a) / 4 * 2, 0)) : Option (ℕ × ℕ)).map
    (fun r =>
      if r.2 = 0 then (r.1, sortedHint.increasingHint)
      else if r.2 = 4 * 3 then (r.1, sortedHint.decreasingHint)
      else (r.1, sortedHint.unknownHint))

/-- The loop of `reverseRange_func`, `for i < j`, entered with `i` and `j`. -/
def reverseRange_loop {α : Type} : ℕ → ℕ → ℕ → List α → Option (List α)
  | 0, _, _, _ => none
  | fuel + 1, i, j, xs =>
    if i < j then (swapAt xs i j).bind (reverseRange_loop fuel (i + 1) (j - 1)) else some xs

/-- The function `reverseRange_func`, which reverses `data[a:b]`. -/
def reverseRange_func {α : Type} (xs : List α) (a b : ℕ) : Option (List α) :=
  reverseRange_loop (b + 1) a (b - 1) xs

/-- The loop `for i <= j && data.Less(i, a) { i++ }` of `partition_func`: the final `i`. -/
def partition_up {α : Type} (less : α → α → Bool) (xs : List α) (a j : ℕ) : ℕ → ℕ → Option ℕ
  | 0, _ => none
  | fuel + 1, i =>
    if i ≤ j then
      (lessAt less xs i a).bind (fun lt => if lt then partition_up less xs a j fuel (i + 1) else some i)
    else some i

/-- The loop `for i <= j && !data.Less(j, a) { j-- }` of `partition_func`: the final `j`. -/
def partition_down {α : Type} (less : α → α → Bool) (xs : List α) (a i : ℕ) : ℕ → ℕ → Option ℕ
  | 0, _ => none
  | fuel + 1, j =>
    if i ≤ j then
      (lessAt less xs j a).bind (fun lt => if lt then some j else partition_down less xs a i fuel (j - 1))
    else some j

/-- The second loop `for { ... }` of `partition_func`, entered with `i` and `j`: the slice
and `j` at the `break`. -/
def partition_loop {α : Type} (less : α → α → Bool) (a b : ℕ) :
    ℕ → List α → ℕ → ℕ → Option (List α × ℕ)
  | 0, _, _, _ => none
  | fuel + 1, xs, i, j =>
    (partition_up less xs a j (b + 1) i).bind (fun i2 =>
      (partition_down less xs a i2 (b + 1) j).bind (fun j2 =>
        if j2 < i2 then some (xs, j2)
        else (swapAt xs i2 j2).bind (fun ys => partition_loop less a b fuel ys (i2 + 1) (j2 - 1))))

/-- The function `partition_func`: the slice, the new index of the pivot, and whether the
slice was already partitioned. -/
def partition_func {α : Type} (less : α → α → Bool) (xs : List α) (a b pivot : ℕ) :
    Option (List α × ℕ × Bool) :=
  (swapAt xs a pivot).bind (fun xs1 =>
    (partition_up less xs1 a (b - 1) (b + 1) (a + 1)).bind (fun i =>
      (partition_down less xs1 a i (b + 1) (b - 1)).bind (fun j =>
        if j < i then (swapAt xs1 j a).map (fun ys => (ys, j, true))
        else
          (swapAt xs1 i j).bind (fun xs2 =>
            (partition_loop less a b (b + 1) xs2 (i + 1) (j - 1)).bind (fun r =>
              (swapAt r.1 r.2 a).map (fun ys => (ys, r.2, false)))))))

/-- The loop `for i <= j && !data.Less(a, i) { i++ }` of `partitionEqual_func`. -/
def partitionEqual_up {α : Type} (less : α → α → Bool) (xs : List α) (a j : ℕ) :
    ℕ → ℕ → Option ℕ
  | 0, _ => none
  | fuel + 1, i =>
    if i ≤ j then
      (lessAt less xs a i).bind (fun lt =>
        if lt then some i else partitionEqual_up less xs a j fuel (i + 1))
    else some i

/-- The loop `for i <= j && data.Less(a, j) { j-- }` of `partitionEqual_func`. -/
def partitionEqual_down {α : Type} (less : α → α → Bool) (xs : List α) (a i : ℕ) :
    ℕ → ℕ → Option ℕ
  | 0, _ => none
  | fuel + 1, j =>
    if i ≤ j then
      (lessAt less xs a j).bind (fun lt =>
        if lt then partitionEqual_down less xs a i fuel (j - 1) else some j)
    else some j

/-- The loop `for { ... }` of `partitionEqual_func`, entered with `i` and `j`: the slice and
`i` at the `break`. -/
def partitionEqual_loop {α : Type} (less : α → α → Bool) (a b : ℕ) :
    ℕ → List α → ℕ → ℕ → Option (List α × ℕ)
  | 0, _, _, _ => none
  | fuel + 1, xs, i, j =>
    (partitionEqual_up less xs a j (b + 1) i).bind (fun i2 =>
      (partitionEqual_down less xs a i2 (b + 1) j).bind (fun j2 =>
        if j2 < i2 then some (xs, i2)
        else
          (swapAt xs i2 j2).bind (fun ys => partitionEqual_loop less a b fuel ys (i2 + 1) (j2 - 1))))

/-- The function `partitionEqual_func`: the slice and the index after the elements equal
to the pivot. -/
def partitionEqual_func {α : Type} (less : α → α → Bool) (xs : List α) (a b pivot : ℕ) :
    Option (List α × ℕ) :=
  (swapAt xs a pivot).bind (fun xs1 => partitionEqual_loop less a b (b + 1) xs1 (a + 1) (b - 1))

/-- The loop `for i < b && !data.Less(i, i-1) { i++ }` of `partialInsertionSort_func`. -/
def partialInsertionSort_scan {α : Type} (less : α → α → Bool) (xs : List α) (b : ℕ) :
    ℕ → ℕ → Option ℕ
  | 0, _ => none
  | fuel + 1, i =>
    if i < b then
      (lessAt less xs i (i - 1)).bind (fun lt =>
        if lt then some i else partialInsertionSort_scan less xs b fuel (i + 1))
    else some i

/-- The loop `for j := i - 1; j >= 1; j--` of `partialInsertionSort_func`, which shifts the
smaller element to the left, entered with `j`. -/
def partialInsertionSort_left {α : Type} (less : α → α → Bool) : ℕ → List α → Option (List α)
  | 0, xs => some xs
  | j + 1, xs =>
    (lessAt less xs (j + 1) j).bind (fun lt =>
      if lt then (swapAt xs (j + 1) j).bind (partialInsertionSort_left less j) else some xs)

/-- The loop `for j := i + 1; j < b; j++` of `partialInsertionSort_func`, which shifts the
greater element to the right, entered with `j` and `n` iterations to run. -/
def partialInsertionSort_right {α : Type} (less : α → α → Bool) :
    ℕ → ℕ → List α → Option (List α)
  | 0, _, xs => some xs
  | n + 1, j, xs =>
    (lessAt less xs j (j - 1)).bind (fun lt =>
      if lt then (swapAt xs j (j - 1)).bind (partialInsertionSort_right less n (j + 1))
      else some xs)

/-- The loop `for j := 0; j < maxSteps; j++` of `partialInsertionSort_func`, with `n`
iterations to run, entered with `i`: the slice and the result. -/
def partialInsertionSort_loop {α : Type} (less : α → α → Bool) (a b : ℕ) :
    ℕ → ℕ → List α → Option (List α × Bool)
  | 0, _, xs => some (xs, false)
  | n + 1, i, xs =>
    (partialInsertionSort_scan less xs b (b + 1) i).bind (fun i2 =>
      if i2 = b then some (xs, true)
      else if b - a < 50 then some (xs, false)
      else
        (swapAt xs i2 (i2 - 1)).bind (fun xs1 =>
          (if 2 ≤ i2 - a then partialInsertionSort_left less (i2 - 1) xs1 else some xs1).bind
            (fun xs2 =>
              (if 2 ≤ b - i2 then partialInsertionSort_right less (b - (i2 + 1)) (i2 + 1) xs2
                else some xs2).bind
                (fun xs3 => partialInsertionSort_loop less a b n i2 xs3))))

/-- The function `partialInsertionSort_func`: the slice, and whether it is sorted at the
end. -/
def partialInsertionSort_func {α : Type} (less : α → α → Bool) (xs : List α) (a b : ℕ) :
    Option (List α × Bool) :=
  partialInsertionSort_loop less a b 5 (a + 1) xs

/-- The function `pdqsort_func`, which sorts `data[a:b]`: its loop `for { ... }` entered
with the variables `a`, `b`, `limit`, `wasBalanced` and `wasPartitioned`.  A call of the
function enters the loop with both flags true. -/
def pdqsort_func {α : Type} (less : α → α → Bool) :
    ℕ → List α → ℕ → ℕ → ℕ → Bool → Bool → Option (List α)
  | 0, _, _, _, _, _, _ => none
  | fuel + 1, xs, a, b, limit, wasBalanced, wasPartitioned =>
    if b - a ≤ 12 then insertionSort_func less xs a b
    else if limit = 0 then heapSort_func less xs a b
    else
      (if wasBalanced then some (xs, limit)
        else (breakPatterns_func xs a b).map (fun ys => (ys, limit - 1))).bind (fun s1 =>
      (choosePivot_func less s1.1 a b).bind (fun ph =>
      (if ph.2 = sortedHint.decreasingHint then
          (reverseRange_func s1.1 a b).map
            (fun ys => (ys, (b - 1) - (ph.1 - a), sortedHint.increasingHint))
        else some (s1.1, ph.1, ph.2)).bind (fun s2 =>
      (if wasBalanced && wasPartitioned && decide (s2.2.2 = sortedHint.increasingHint) then
          partialInsertionSort_func less s2.1 a b
        else some (s2.1, false)).bind (fun s3 =>
      if s3.2 then some s3.1
      else
        (if 0 < a then (lessAt less s3.1 (a - 1) s2.2.1).map (fun lt => !lt)
          else some false).bind (fun eq =>
        if eq then
          (partitionEqual_func less s3.1 a b s2.2.1).bind (fun r =>
            pdqsort_func less fuel r.1 r.2 b s1.2 wasBalanced wasPartitioned)
        else
          (partition_func less s3.1 a b s2.2.1).bind (fun r =>
            if r.2.1 - a < b - r.2.1 then
              (pdqsort_func less fuel r.1 a r.2.1 s1.2 true true).bind (fun ys =>
                pdqsort_func less fuel ys (r.2.1 + 1) b s1.2
                  (decide ((b - a) / 8 ≤ r.2.1 - a)) r.2.2)
            else
              (pdqsort_func less fuel r.1 (r.2.1 + 1) b s1.2 true true).bind (fun ys =>
                pdqsort_func less fuel ys a r.2.1 s1.2
                  (decide ((b - a) / 8 ≤ b - r.2.1)) r.2.2)))))))

/-- The function `sort.Slice`: `pdqsort_func(data, 0, length, bits.Len(length))`. -/
def Slice {α : Type} (less : α → α → Bool) (xs : List α) : Option (List α) :=
  pdqsort_func less (xs.length + 1) xs 0 xs.length (bitsLen xs.length) true true

/-- The slice after the call of `sort.Slice`, as an argument of `main`. -/
def sortSliceGo (less : Result → Result → Bool) (rs : List Result) : List Result :=
  (Slice less rs).getD rs

/-- The slice `ys` results from `xs` by exchanges of elements of `xs[a:b]`: it is a
permutation of `xs` that agrees with `xs` outside the range, and each element of its range
is one of the range of `xs`. -/
def Within {α : Type} [Inhabited α] (a b : ℕ) (xs ys : List α) : Prop :=
  ys.length = xs.length ∧ ys.Perm xs ∧ (∀ i, i < a ∨ b ≤ i → ys.getI i = xs.getI i) ∧
  (∀ i, a ≤ i → i < b → ∃ j, a ≤ j ∧ j < b ∧ ys.getI i = xs.getI j)

/-- The elements of `xs[a:b]` are in non-decreasing order of their keys. -/
def SortedOn {α κ : Type} [Inhabited α] [LinearOrder κ] (key : α → κ) (xs : List α)
    (a b : ℕ) : Prop :=
  ∀ i j, a ≤ i → i ≤ j → j < b → key (xs.getI i) ≤ key (xs.getI j)

/-- In the heap `data[first : first+hi]`, the element at the node `r` is not less than its
children. -/
def HeapAt {α κ : Type} [Inhabited α] [LinearOrder κ] (key : α → κ) (xs : List α)
    (first hi r : ℕ) : Prop :=
  ∀ c, (c = 2 * r + 1 ∨ c = 2 * r + 2) → c < hi →
    key (xs.getI (first + c)) ≤ key (xs.getI (first + r))

/-- The element before `data[a:b]`, when there is one, is not greater than any element of
it. -/
def LeftBounded {α κ : Type} [Inhabited α] [LinearOrder κ] (key : α → κ) (xs : List α)
    (a b : ℕ) : Prop :=
  a = 0 ∨ ∀ k, a ≤ k → k < b → key (xs.getI (a - 1)) ≤ key (xs.getI k)

/-- A batch of three files given in the order late, early, without start time. -/
def batchLateFirst : List (String × Option (List String)) :=
  [("late.kml", some ("<tr><td><b>Start Time</b>09:00</td></tr>" :: tripSlow)),
    ("early.kml", some tripTen), ("none.kml", some tripSlow)]

/-! ## Theorems -/

/-! ### Powers of two and the binary exponent -/

theorem pow2_eq (e : ℤ) : pow2 e = (2 : ℚ) ^ e := by
  unfold pow2
  split_ifs with h
  · lift e to ℕ using h
    simp
  · obtain ⟨n, rfl⟩ : ∃ n : ℕ, e = -(n : ℤ) := ⟨(-e).toNat, by omega⟩
    simp

theorem pow2_pos (e : ℤ) : 0 < pow2 e := by
  rw [pow2_eq]; positivity

theorem log2Fuel_spec : ∀ (fuel n : ℕ), n ≤ fuel → 0 < n →
    2 ^ log2Fuel fuel n ≤ n ∧ n < 2 ^ (log2Fuel fuel n + 1)
  | 0, n, h, hp => by omega
  | fuel + 1, n, h, hp => by
    unfold log2Fuel
    split_ifs with h2
    · simp; omega
    · obtain ⟨a, b⟩ := log2Fuel_spec fuel (n / 2) (by omega) (by omega)
      simp only [pow_succ] at b ⊢
      generalize 2 ^ log2Fuel fuel (n / 2) = x at a b ⊢
      omega

theorem natLog2_spec (n : ℕ) (hp : 0 < n) : 2 ^ natLog2 n ≤ n ∧ n < 2 ^ (natLog2 n + 1) :=
  log2Fuel_spec n n le_rfl hp

theorem ilog2_spec (q : ℚ) (hq : 0 < q) :
    (2 : ℚ) ^ ilog2 q ≤ q ∧ q < (2 : ℚ) ^ (ilog2 q + 1) := by
  have hnum : 0 < q.num := Rat.num_pos.mpr hq
  have hden : 0 < q.den := q.den_pos
  obtain ⟨a1, a2⟩ := natLog2_spec q.num.natAbs (by omega)
  obtain ⟨b1, b2⟩ := natLog2_spec q.den hden
  have hqe : q = (q.num.natAbs : ℚ) / (q.den : ℚ) := by
    have h1 : (q.num : ℚ) = ((q.num.natAbs : ℕ) : ℚ) := by
      rw [← Int.cast_natCast, Int.natAbs_of_nonneg hnum.le]
    rw [← h1]; exact (Rat.num_div_den q).symm
  have A1 : (2 : ℚ) ^ natLog2 q.num.natAbs ≤ q.num.natAbs := by exact_mod_cast a1
  have A2 : (q.num.natAbs : ℚ) < 2 ^ (natLog2 q.num.natAbs + 1) := by exact_mod_cast a2
  have B1 : (2 : ℚ) ^ natLog2 q.den ≤ q.den := by exact_mod_cast b1
  have B2 : (q.den : ℚ) < 2 ^ (natLog2 q.den + 1) := by exact_mod_cast b2
  have hbq : (0 : ℚ) < q.den := by exact_mod_cast hden
  generalize (q.num.natAbs : ℚ) = a at hqe A1 A2
  generalize (q.den : ℚ) = b at hqe B1 B2 hbq
  unfold ilog2
  simp only []
  generalize natLog2 q.num.natAbs = la at A1 A2 ⊢
  generalize natLog2 q.den = lb at B1 B2 ⊢
  have hlb : (0 : ℚ) < 2 ^ lb := by positivity
  have hla : (0 : ℚ) < 2 ^ la := by positivity
  have ha : 0 < a := lt_of_lt_of_le hla A1
  rw [pow2_eq]
  split_ifs with h
  · refine ⟨h, ?_⟩
    have e1 : (2 : ℚ) ^ ((la : ℤ) - (lb : ℤ) + 1) = 2 ^ (la + 1) / 2 ^ lb := by
      have : ((la : ℤ) - (lb : ℤ) + 1) = ((la + 1 : ℕ) : ℤ) - (lb : ℤ) := by push_cast; ring
      rw [this, zpow_sub₀ (by norm_num), zpow_natCast, zpow_natCast]
    rw [e1, hqe, div_lt_div_iff₀ hbq hlb]
    nlinarith
  · push_neg at h
    constructor
    · have e1 : (2 : ℚ) ^ ((la : ℤ) - (lb : ℤ) - 1) = 2 ^ la / 2 ^ (lb + 1) := by
        have : ((la : ℤ) - (lb : ℤ) - 1) = (la : ℤ) - ((lb + 1 : ℕ) : ℤ) := by push_cast; ring
        rw [this, zpow_sub₀ (by norm_num), zpow_natCast, zpow_natCast]
      have hlb1 : (0 : ℚ) < 2 ^ (lb + 1) := by positivity
      rw [e1, hqe, div_le_div_iff₀ hlb1 hbq]
      nlinarith
    · have e1 : ((la : ℤ) - (lb : ℤ) - 1 + 1) = (la : ℤ) - lb := by ring
      rw [e1]; exact h

theorem ilog2_mono (x y : ℚ) (hx : 0 < x) (hxy : x ≤ y) : ilog2 x ≤ ilog2 y := by
  obtain ⟨s1, _⟩ := ilog2_spec x hx
  obtain ⟨_, t2⟩ := ilog2_spec y (lt_of_lt_of_le hx hxy)
  have := lt_of_le_of_lt (le_trans s1 hxy) t2
  have := (zpow_lt_zpow_iff_right₀ (by norm_num : (1 : ℚ) < 2)).mp this
  omega

/-! ### Rounding to 53 bits: fixed points and monotonicity -/

theorem roundEven_intCast (k : ℤ) : roundEven (k : ℚ) = k := by
  unfold roundEven
  simp

theorem roundEven_ge_floor (x : ℚ) : ⌊x⌋ ≤ roundEven x := by
  unfold roundEven
  simp only []
  split_ifs <;> omega

theorem roundEven_le_floor_succ (x : ℚ) : roundEven x ≤ ⌊x⌋ + 1 := by
  unfold roundEven
  simp only []
  split_ifs <;> omega

theorem roundEven_mono {x y : ℚ} (h : x ≤ y) : roundEven x ≤ roundEven y := by
  have hf : ⌊x⌋ ≤ ⌊y⌋ := Int.floor_mono h
  rcases lt_or_eq_of_le hf with hlt | heq
  · have := roundEven_le_floor_succ x
    have := roundEven_ge_floor y
    omega
  · unfold roundEven
    simp only []
    rw [← heq]
    have hr : x - (⌊x⌋ : ℚ) ≤ y - (⌊x⌋ : ℚ) := by linarith
    split_ifs <;> first | omega | (exfalso; linarith)

theorem roundEven_nonneg {x : ℚ} (h : 0 ≤ x) : 0 ≤ roundEven x := by
  have := roundEven_mono h
  rwa [show ((0 : ℚ)) = ((0 : ℤ) : ℚ) by simp, roundEven_intCast] at this

theorem ulpExp_mono (x y : ℚ) (hx : 0 < x) (hxy : x ≤ y) : ulpExp x ≤ ulpExp y := by
  unfold ulpExp
  have := ilog2_mono x y hx hxy
  omega

theorem rndUnbounded_nonneg {q : ℚ} (h : 0 ≤ q) : 0 ≤ rndUnbounded q := by
  unfold rndUnbounded
  split_ifs
  · exact le_rfl
  · have h1 : 0 ≤ q / pow2 (ulpExp q) := div_nonneg h (pow2_pos _).le
    have h2 := roundEven_nonneg h1
    have h3 : (0 : ℚ) ≤ (roundEven (q / pow2 (ulpExp q)) : ℚ) := by exact_mod_cast h2
    exact mul_nonneg h3 (pow2_pos _).le

/-- A value `m * 2^p` with `m < 2^53` and `p ≥ -1074` is left unchanged by the rounding. -/
theorem rndUnbounded_fix (m : ℕ) (p : ℤ) (hm : m < 2 ^ 53) (hp : -1074 ≤ p) :
    rndUnbounded ((m : ℚ) * (2 : ℚ) ^ p) = (m : ℚ) * (2 : ℚ) ^ p := by
  unfold rndUnbounded
  split_ifs with h0
  · exact h0.symm
  · have h2p : (0 : ℚ) < (2 : ℚ) ^ p := by positivity
    have hmpos : (0 : ℚ) < m := by
      rcases Nat.eq_zero_or_pos m with h | h
      · exfalso; apply h0; simp [h]
      · exact_mod_cast h
    have hq : 0 < (m : ℚ) * (2 : ℚ) ^ p := mul_pos hmpos h2p
    obtain ⟨s1, _⟩ := ilog2_spec _ hq
    have hlt : (m : ℚ) * (2 : ℚ) ^ p < (2 : ℚ) ^ (53 + p) := by
      rw [zpow_add₀ (by norm_num)]
      have : (m : ℚ) < 2 ^ (53 : ℤ) := by
        have h53 : (m : ℚ) < ((2 ^ 53 : ℕ) : ℚ) := by exact_mod_cast hm
        rw [show ((2 : ℚ) ^ (53 : ℤ)) = ((2 ^ 53 : ℕ) : ℚ) by norm_num]
        exact h53
      exact mul_lt_mul_of_pos_right this h2p
    have he : ilog2 ((m : ℚ) * (2 : ℚ) ^ p) < 53 + p :=
      (zpow_lt_zpow_iff_right₀ (by norm_num : (1 : ℚ) < 2)).mp (lt_of_le_of_lt s1 hlt)
    have hup : ulpExp ((m : ℚ) * (2 : ℚ) ^ p) ≤ p := by
      unfold ulpExp; omega
    generalize ulpExp ((m : ℚ) * (2 : ℚ) ^ p) = u at hup
    rw [pow2_eq]
    obtain ⟨d, rfl⟩ : ∃ d : ℕ, p = u + d := ⟨(p - u).toNat, by omega⟩
    have hdiv : (m : ℚ) * (2 : ℚ) ^ (u + (d : ℤ)) / (2 : ℚ) ^ u = ((m * 2 ^ d : ℕ) : ℤ) := by
      rw [zpow_add₀ (by norm_num), zpow_natCast]
      have : (0 : ℚ) < (2 : ℚ) ^ u := by positivity
      field_simp
      ring
    rw [hdiv, roundEven_intCast, zpow_add₀ (by norm_num), zpow_natCast]
    push_cast
    ring

theorem rndUnbounded_mono {x y : ℚ} (hx : 0 ≤ x) (hxy : x ≤ y) :
    rndUnbounded x ≤ rndUnbounded y := by
  rcases eq_or_lt_of_le hx with h0 | hpos
  · have : rndUnbounded x = 0 := by unfold rndUnbounded; simp [← h0]
    rw [this]; exact rndUnbounded_nonneg (le_trans hx hxy)
  · have hypos : 0 < y := lt_of_lt_of_le hpos hxy
    have hu := ulpExp_mono x y hpos hxy
    have hxne : x ≠ 0 := ne_of_gt hpos
    have hyne : y ≠ 0 := ne_of_gt hypos
    unfold rndUnbounded
    rw [if_neg hxne, if_neg hyne, pow2_eq, pow2_eq]
    rcases eq_or_lt_of_le hu with heq | hlt
    · rw [← heq]
      have hp : (0 : ℚ) < (2 : ℚ) ^ ulpExp x := by positivity
      have h1 : x / (2 : ℚ) ^ ulpExp x ≤ y / (2 : ℚ) ^ ulpExp x :=
        div_le_div_of_nonneg_right hxy hp.le
      have h2 := roundEven_mono h1
      have h3 : (roundEven (x / (2 : ℚ) ^ ulpExp x) : ℚ) ≤ (roundEven (y / (2 : ℚ) ^ ulpExp x) : ℚ) := by
        exact_mod_cast h2
      exact mul_le_mul_of_nonneg_right h3 hp.le
    · obtain ⟨_, sx⟩ := ilog2_spec x hpos
      obtain ⟨sy, _⟩ := ilog2_spec y hypos
      have hey : ilog2 x < ilog2 y ∧ -1022 < ilog2 y := by
        unfold ulpExp at hlt; omega
      have huy : ulpExp y = ilog2 y - 52 := by unfold ulpExp; omega
      have hux : ulpExp x ≤ ilog2 y - 52 := by unfold ulpExp; omega
      -- the power of two between x and y
      have hxb : x ≤ (2 : ℚ) ^ ilog2 y := by
        have : (2 : ℚ) ^ (ilog2 x + 1) ≤ (2 : ℚ) ^ ilog2 y :=
          zpow_le_zpow_right₀ (by norm_num) (by omega)
        linarith
      have hpx : (0 : ℚ) < (2 : ℚ) ^ ulpExp x := by positivity
      have hpy : (0 : ℚ) < (2 : ℚ) ^ ulpExp y := by positivity
      have left : (roundEven (x / (2 : ℚ) ^ ulpExp x) : ℚ) * (2 : ℚ) ^ ulpExp x ≤ (2 : ℚ) ^ ilog2 y := by
        obtain ⟨d, hd⟩ : ∃ d : ℕ, ilog2 y = ulpExp x + d := ⟨(ilog2 y - ulpExp x).toNat, by omega⟩
        have hK : (2 : ℚ) ^ ilog2 y / (2 : ℚ) ^ ulpExp x = ((2 ^ d : ℕ) : ℤ) := by
          rw [hd, zpow_add₀ (by norm_num), zpow_natCast]
          field_simp
        have h1 : x / (2 : ℚ) ^ ulpExp x ≤ ((2 ^ d : ℕ) : ℤ) := by
          rw [← hK]; exact div_le_div_of_nonneg_right hxb hpx.le
        have h2 := roundEven_mono h1
        rw [roundEven_intCast] at h2
        have h3 : (roundEven (x / (2 : ℚ) ^ ulpExp x) : ℚ) ≤ (((2 ^ d : ℕ) : ℤ) : ℚ) := by
          exact_mod_cast h2
        calc (roundEven (x / (2 : ℚ) ^ ulpExp x) : ℚ) * (2 : ℚ) ^ ulpExp x
            ≤ (((2 ^ d : ℕ) : ℤ) : ℚ) * (2 : ℚ) ^ ulpExp x := mul_le_mul_of_nonneg_right h3 hpx.le
          _ = (2 : ℚ) ^ ilog2 y := by rw [← hK]; field_simp
      have right : (2 : ℚ) ^ ilog2 y ≤ (roundEven (y / (2 : ℚ) ^ ulpExp y) : ℚ) * (2 : ℚ) ^ ulpExp y := by
        have hK : (2 : ℚ) ^ ilog2 y / (2 : ℚ) ^ ulpExp y = ((2 ^ 52 : ℕ) : ℤ) := by
          rw [huy, ← zpow_sub₀ (by norm_num)]
          have : ilog2 y - (ilog2 y - 52) = ((52 : ℕ) : ℤ) := by push_cast; ring
          rw [this, zpow_natCast]; push_cast; rfl
        have h1 : (((2 ^ 52 : ℕ) : ℤ) : ℚ) ≤ y / (2 : ℚ) ^ ulpExp y := by
          rw [← hK]; exact div_le_div_of_nonneg_right sy hpy.le
        have h2 := roundEven_mono h1
        rw [roundEven_intCast] at h2
        have h3 : (((2 ^ 52 : ℕ) : ℤ) : ℚ) ≤ (roundEven (y / (2 : ℚ) ^ ulpExp y) : ℚ) := by
          exact_mod_cast h2
        calc (2 : ℚ) ^ ilog2 y = (((2 ^ 52 : ℕ) : ℤ) : ℚ) * (2 : ℚ) ^ ulpExp y := by
              rw [← hK]; field_simp
          _ ≤ _ := mul_le_mul_of_nonneg_right h3 hpy.le
      exact le_trans left right

/-! ### Representable values -/

theorem ulpExp_ge (q : ℚ) : -1074 ≤ ulpExp q := by
  unfold ulpExp; omega

/-- The rounded value is again of the form `m * 2^p` with `m < 2^53`, `p ≥ -1074`. -/
theorem rndUnbounded_form {q : ℚ} (hq : 0 ≤ q) :
    ∃ (m : ℕ) (p : ℤ), m < 2 ^ 53 ∧ -1074 ≤ p ∧ rndUnbounded q = (m : ℚ) * (2 : ℚ) ^ p := by
  rcases eq_or_lt_of_le hq with h0 | hpos
  · refine ⟨0, 0, by norm_num, by norm_num, ?_⟩
    unfold rndUnbounded; simp [← h0]
  · have hne : q ≠ 0 := ne_of_gt hpos
    obtain ⟨_, s2⟩ := ilog2_spec q hpos
    have hu := ulpExp_ge q
    have hue : ilog2 q + 1 ≤ ulpExp q + 53 := by unfold ulpExp; omega
    have hp : (0 : ℚ) < (2 : ℚ) ^ ulpExp q := by positivity
    have hlt : q / (2 : ℚ) ^ ulpExp q ≤ ((2 ^ 53 : ℕ) : ℤ) := by
      rw [div_le_iff₀ hp]
      have h1 : (2 : ℚ) ^ (ilog2 q + 1) ≤ (2 : ℚ) ^ (ulpExp q + 53) :=
        zpow_le_zpow_right₀ (by norm_num) hue
      have h2 : (2 : ℚ) ^ (ulpExp q + 53) = (((2 ^ 53 : ℕ) : ℤ) : ℚ) * (2 : ℚ) ^ ulpExp q := by
        rw [zpow_add₀ (by norm_num)]; push_cast; norm_num; ring
      linarith
    have hM := roundEven_mono hlt
    rw [roundEven_intCast] at hM
    have hM0 := roundEven_nonneg (div_nonneg hq hp.le)
    unfold rndUnbounded
    rw [if_neg hne, pow2_eq]
    generalize roundEven (q / (2 : ℚ) ^ ulpExp q) = M at hM hM0
    generalize ulpExp q = u at hu
    rcases lt_or_eq_of_le hM with hlt2 | heq
    · refine ⟨M.toNat, u, by push_cast at hlt2; omega, hu, ?_⟩
      have : ((M.toNat : ℕ) : ℚ) = (M : ℚ) := by
        have : ((M.toNat : ℕ) : ℤ) = M := Int.toNat_of_nonneg hM0
        exact_mod_cast this
      rw [this]
    · refine ⟨2 ^ 52, u + 1, by norm_num, by omega, ?_⟩
      rw [heq, zpow_add₀ (by norm_num)]; push_cast; norm_num; ring

theorem rndUnbounded_idem {q : ℚ} (hq : 0 ≤ q) :
    rndUnbounded (rndUnbounded q) = rndUnbounded q := by
  obtain ⟨m, p, hm, hp, h⟩ := rndUnbounded_form hq
  rw [h]; exact rndUnbounded_fix m p hm hp

theorem rnd_of_nonneg {q : ℚ} (hq : 0 ≤ q) :
    rnd q = if rndUnbounded q < (2 : ℚ) ^ (1024 : ℤ) then F64.fin (rndUnbounded q)
      else F64.inf false := by
  unfold rnd rndAbs
  rw [if_neg (not_lt.mpr hq), pow2_eq]
  split_ifs <;> rfl

theorem rnd_fin_nonneg {q f : ℚ} (hq : 0 ≤ q) (h : rnd q = F64.fin f) :
    f = rndUnbounded q ∧ 0 ≤ f ∧ f < (2 : ℚ) ^ (1024 : ℤ) ∧ IsF64 f := by
  rw [rnd_of_nonneg hq] at h
  split_ifs at h with hlt
  injection h with h
  subst h
  refine ⟨rfl, rndUnbounded_nonneg hq, hlt, ?_⟩
  unfold IsF64
  rw [rnd_of_nonneg (rndUnbounded_nonneg hq), rndUnbounded_idem hq, if_pos hlt]

theorem isF64_iff {q : ℚ} (hq : 0 ≤ q) :
    IsF64 q ↔ rndUnbounded q = q ∧ q < (2 : ℚ) ^ (1024 : ℤ) := by
  unfold IsF64
  rw [rnd_of_nonneg hq]
  constructor
  · intro h
    split_ifs at h with hlt
    injection h with h
    rw [h] at hlt
    exact ⟨h, hlt⟩
  · rintro ⟨h1, h2⟩
    rw [h1, if_pos h2]

theorem isF64_of_form (m : ℕ) (p : ℤ) (hm : m < 2 ^ 53) (hp : -1074 ≤ p)
    (hlt : (m : ℚ) * (2 : ℚ) ^ p < (2 : ℚ) ^ (1024 : ℤ)) : IsF64 ((m : ℚ) * (2 : ℚ) ^ p) :=
  (isF64_iff (by positivity)).mpr ⟨rndUnbounded_fix m p hm hp, hlt⟩

theorem isF64_nat (n : ℕ) (hn : n < 2 ^ 53) : IsF64 (n : ℚ) := by
  have := isF64_of_form n 0 hn (by norm_num) (by
    have : (n : ℚ) < ((2 ^ 53 : ℕ) : ℚ) := by exact_mod_cast hn
    have h2 : (((2 ^ 53 : ℕ) : ℚ)) < (2 : ℚ) ^ (1024 : ℤ) := by norm_num
    simp only [zpow_zero, mul_one]; linarith)
  simpa using this

theorem ofNat_eq (n : ℕ) (hn : n < 2 ^ 53) : ofNat n = F64.fin n := isF64_nat n hn

/-- Rounding is monotone on the non-negative rationals, in the order of `float64`. -/
theorem rnd_mono {x y : ℚ} (hx : 0 ≤ x) (hxy : x ≤ y) : F64.le (rnd x) (rnd y) := by
  rw [rnd_of_nonneg hx, rnd_of_nonneg (le_trans hx hxy)]
  have := rndUnbounded_mono hx hxy
  split_ifs with h1 h2 h2
  · exact this
  · rfl
  · exfalso; linarith
  · right; rfl

/-- Between two `float64` values the rounding of a rational stays. -/
theorem rnd_between {lo x hi : ℚ} (hlo : 0 ≤ lo) (h1 : lo ≤ x) (h2 : x ≤ hi)
    (flo : IsF64 lo) (fhi : IsF64 hi) : ∃ r, rnd x = F64.fin r ∧ lo ≤ r ∧ r ≤ hi := by
  have hx : 0 ≤ x := le_trans hlo h1
  have a := rndUnbounded_mono hlo h1
  have b := rndUnbounded_mono hx h2
  rw [((isF64_iff hlo).mp flo).1] at a
  rw [((isF64_iff (le_trans hx h2)).mp fhi).1] at b
  have c := ((isF64_iff (le_trans hx h2)).mp fhi).2
  refine ⟨rndUnbounded x, ?_, a, b⟩
  rw [rnd_of_nonneg hx, if_pos (lt_of_le_of_lt b c)]

/-! ### The trim buffer -/

theorem tenth_eq : tenth = F64.fin (3602879701896397 / 36028797018963968) := by decide!

theorem toInt_fin (q : ℚ) :
    toInt (F64.fin q) =
      if minInt ≤ truncZero q ∧ truncZero q < 2 ^ 63 then truncZero q else minInt := rfl

theorem toInt_fin_of_floor (r : ℚ) (k : ℕ) (hk : k < 2 ^ 62) (h1 : (k : ℚ) ≤ r)
    (h2 : r < (k : ℚ) + 1) : toInt (F64.fin r) = (k : ℤ) := by
  have hr : 0 ≤ r := le_trans (by positivity) h1
  have hf : ⌊r⌋ = (k : ℤ) := by
    rw [Int.floor_eq_iff]; push_cast; exact ⟨h1, h2⟩
  have ht : truncZero r = (k : ℤ) := by
    unfold truncZero; rw [if_neg (not_lt.mpr hr), hf]
  rw [toInt_fin, ht, if_pos]
  unfold minInt
  constructor <;> omega

theorem travelBuffer_eq (n : ℕ) (hn : n < 2 ^ 52) : travelBuffer n = ((n / 10 + 1 : ℕ) : ℤ) := by
  unfold travelBuffer
  rw [ofNat_eq n (by omega), tenth_eq]
  show toInt (rnd ((n : ℚ) * (3602879701896397 / 36028797018963968))) + 1 = _
  have hk : 10 * (n / 10) ≤ n ∧ n < 10 * (n / 10) + 10 := by omega
  generalize n / 10 = k at hk ⊢
  obtain ⟨hk1, hk2⟩ := hk
  have hkb : k < 2 ^ 49 := by omega
  have c1 : ((10 * k : ℕ) : ℚ) ≤ n := by exact_mod_cast hk1
  have c2 : (n : ℚ) ≤ ((10 * k + 9 : ℕ) : ℚ) := by
    have : n ≤ 10 * k + 9 := by omega
    exact_mod_cast this
  have c3 : (n : ℚ) < ((2 ^ 52 : ℕ) : ℚ) := by exact_mod_cast hn
  push_cast at c1 c2 c3
  have lo : (k : ℚ) ≤ (n : ℚ) * (3602879701896397 / 36028797018963968) := by linarith
  have hi : (n : ℚ) * (3602879701896397 / 36028797018963968) ≤ (k : ℚ) + 15 / 16 := by
    linarith
  have fk : IsF64 (k : ℚ) := isF64_nat k (by omega)
  have fh : IsF64 ((k : ℚ) + 15 / 16) := by
    have h := isF64_of_form (16 * k + 15) (-4) (by omega) (by norm_num) (by
      have : ((16 * k + 15 : ℕ) : ℚ) < ((2 ^ 53 : ℕ) : ℚ) := by
        have : 16 * k + 15 < 2 ^ 53 := by omega
        exact_mod_cast this
      have h2 : (((2 ^ 53 : ℕ) : ℚ)) * (2 : ℚ) ^ (-4 : ℤ) < (2 : ℚ) ^ (1024 : ℤ) := by norm_num
      have h3 : (0 : ℚ) < (2 : ℚ) ^ (-4 : ℤ) := by positivity
      nlinarith)
    have e : ((16 * k + 15 : ℕ) : ℚ) * (2 : ℚ) ^ (-4 : ℤ) = (k : ℚ) + 15 / 16 := by
      push_cast; norm_num; ring
    rwa [e] at h
  obtain ⟨r, hr, r1, r2⟩ := rnd_between (by positivity) lo hi fk fh
  rw [hr, toInt_fin_of_floor r k (by omega) r1 (by linarith)]
  push_cast; ring

/-! ### Invariants of the scanning loop -/

/-- The three matchers on the example lines of the input format. -/
theorem matchers_on_format_examples :
    destRe "        <name>Lakeview Trail</name>" = some "Lakeview Trail" ∧
    tableRe "<tr><td><b>Start Time</b>2024-05-01 08:00</td></tr>" =
      some ("Start Time", "2024-05-01 08:00") ∧
    speedRe "... Speed: 34.2 mph ..." = some "34.2" ∧
    speedRe "Speed: abc mph" = none ∧
    (speedRe "Speed: 1.2.3 mph" = some "1.2.3" ∧ parseFloat "1.2.3" = none) := by decide!

theorem parseFloat_some {tok : String} {f : ℚ} (h : parseFloat tok = some f) :
    0 ≤ f ∧ IsF64 f := by
  unfold parseFloat at h
  simp only [] at h
  split at h
  · cases h
  · split_ifs at h
    split at h
    · rename_i q hq
      injection h with h
      subst h
      obtain ⟨_, a, _, b⟩ :=
        rnd_fin_nonneg (div_nonneg (Nat.cast_nonneg _) (Nat.cast_nonneg _)) hq
      exact ⟨a, b⟩
    · cases h

/-- The effect of one line on the sample-related variables: none, or one sample appended. -/
theorem step_samples (st : State) (line : String) :
    ((step st line).speeds = st.speeds ∧ (step st line).sum = st.sum ∧
      (step st line).maxSpeed = st.maxSpeed ∧ (step st line).speedMode = st.speedMode) ∨
    ∃ f, 0 ≤ f ∧ IsF64 f ∧ (step st line).speeds = st.speeds ++ [f] ∧
      (step st line).sum = fadd st.sum (F64.fin f) ∧
      (step st line).maxSpeed = (if f > st.maxSpeed then f else st.maxSpeed) ∧
      (step st line).speedMode = mapSet st.speedMode (toInt (F64.fin f))
        ((mapGet st.speedMode (toInt (F64.fin f))).getD 0 + 1) := by
  have hs : ∀ st : State, ((speedLine st line).speeds = st.speeds ∧ (speedLine st line).sum = st.sum ∧
      (speedLine st line).maxSpeed = st.maxSpeed ∧ (speedLine st line).speedMode = st.speedMode) ∨
    ∃ f, 0 ≤ f ∧ IsF64 f ∧ (speedLine st line).speeds = st.speeds ++ [f] ∧
      (speedLine st line).sum = fadd st.sum (F64.fin f) ∧
      (speedLine st line).maxSpeed = (if f > st.maxSpeed then f else st.maxSpeed) ∧
      (speedLine st line).speedMode = mapSet st.speedMode (toInt (F64.fin f))
        ((mapGet st.speedMode (toInt (F64.fin f))).getD 0 + 1) := by
    intro st
    unfold speedLine
    split
    · left; exact ⟨rfl, rfl, rfl, rfl⟩
    · split
      · left; exact ⟨rfl, rfl, rfl, rfl⟩
      · rename_i tok _ f hf
        right
        obtain ⟨a, b⟩ := parseFloat_some hf
        exact ⟨f, a, b, rfl, rfl, rfl, rfl⟩
  have ht : ∀ st : State, ((tableLine st line).speeds = st.speeds ∧ (tableLine st line).sum = st.sum ∧
      (tableLine st line).maxSpeed = st.maxSpeed ∧ (tableLine st line).speedMode = st.speedMode) ∨
    ∃ f, 0 ≤ f ∧ IsF64 f ∧ (tableLine st line).speeds = st.speeds ++ [f] ∧
      (tableLine st line).sum = fadd st.sum (F64.fin f) ∧
      (tableLine st line).maxSpeed = (if f > st.maxSpeed then f else st.maxSpeed) ∧
      (tableLine st line).speedMode = mapSet st.speedMode (toInt (F64.fin f))
        ((mapGet st.speedMode (toInt (F64.fin f))).getD 0 + 1) := by
    intro st
    unfold tableLine
    split
    · left; exact ⟨rfl, rfl, rfl, rfl⟩
    · exact hs st
  unfold step
  split
  · split_ifs
    · left; exact ⟨rfl, rfl, rfl, rfl⟩
    · exact ht st
  · exact ht st

theorem fsum_append (xs : List ℚ) (s : ℚ) : fsum (xs ++ [s]) = fadd (fsum xs) (F64.fin s) := by
  unfold fsum; rw [List.foldl_append]; rfl

/-- A property of the variables that holds at the start and that every line preserves holds
after the scanning loop. -/
theorem scan_induction (P : State → Prop) (h0 : P State.start)
    (hstep : ∀ st line, P st → P (step st line)) (lines : List String) : P (scan lines) := by
  unfold scan
  have : ∀ (ls : List String) (st : State), P st → P (ls.foldl step st) := by
    intro ls
    induction ls with
    | nil => intro st h; exact h
    | cons l ls ih => intro st h; exact ih _ (hstep st l h)
  exact this lines _ h0

theorem scan_sum (lines : List String) : (scan lines).sum = fsum (scan lines).speeds := by
  apply scan_induction (fun st => st.sum = fsum st.speeds)
  · rfl
  · intro st line h
    rcases step_samples st line with ⟨a, b, _, _⟩ | ⟨f, _, _, a, b, _, _⟩
    · rw [a, b, h]
    · rw [a, b, fsum_append, h]

theorem scan_samples_f64 (lines : List String) :
    ∀ s ∈ (scan lines).speeds, 0 ≤ s ∧ IsF64 s := by
  apply scan_induction (fun st => ∀ s ∈ st.speeds, 0 ≤ s ∧ IsF64 s)
  · intro s hs; cases hs
  · intro st line h
    rcases step_samples st line with ⟨a, _, _, _⟩ | ⟨f, f0, f1, a, _, _, _⟩
    · rw [a]; exact h
    · rw [a]
      intro s hs
      rcases List.mem_append.mp hs with hs | hs
      · exact h s hs
      · rw [List.mem_singleton] at hs; subst hs; exact ⟨f0, f1⟩

theorem scan_max (lines : List String) :
    (∀ s ∈ (scan lines).speeds, s ≤ (scan lines).maxSpeed) ∧
    ((scan lines).speeds = [] → (scan lines).maxSpeed = 0) ∧
    ((scan lines).speeds ≠ [] → (scan lines).maxSpeed ∈ (scan lines).speeds) := by
  have key := scan_induction (fun st => (∀ s ∈ st.speeds, 0 ≤ s) ∧
    (∀ s ∈ st.speeds, s ≤ st.maxSpeed) ∧
    (st.speeds = [] → st.maxSpeed = 0) ∧ (st.speeds ≠ [] → st.maxSpeed ∈ st.speeds))
    ⟨fun s hs => (by cases hs), fun s hs => (by cases hs), fun _ => rfl, fun h => absurd rfl h⟩
    (by
      intro st line ⟨h0, h1, h2, h3⟩
      rcases step_samples st line with ⟨a, _, c, _⟩ | ⟨f, f0, _, a, _, c, _⟩
      · rw [a, c]; exact ⟨h0, h1, h2, h3⟩
      · rw [a, c]
        refine ⟨?_, ?_, ?_, ?_⟩
        · intro s hs
          rcases List.mem_append.mp hs with hs | hs
          · exact h0 s hs
          · rw [List.mem_singleton] at hs; subst hs; exact f0
        · intro s hs
          rcases List.mem_append.mp hs with hs | hs
          · have := h1 s hs
            split_ifs with hgt
            · exact le_of_lt (lt_of_le_of_lt this hgt)
            · exact this
          · rw [List.mem_singleton] at hs; subst hs
            split_ifs with hgt
            · exact le_rfl
            · exact not_lt.mp hgt
        · intro h; simp at h
        · intro _
          split_ifs with hgt
          · simp
          · by_cases hnil : st.speeds = []
            · have hm := h2 hnil
              rw [hm] at hgt ⊢
              have hf0 : f = 0 := le_antisymm (not_lt.mp hgt) f0
              rw [hf0]; simp
            · exact List.mem_append_left _ (h3 hnil)) lines
  exact key.2

/-! ### The mid-section -/

theorem midLoop_fold (mid : List ℚ) : ∀ acc : MidAcc,
    (mid.foldl midStep acc).midSectionTotal =
        mid.foldl (fun a s => fadd a (F64.fin s)) acc.midSectionTotal ∧
    (mid.foldl midStep acc).midSectionAdj =
        acc.midSectionAdj ++ mid.filter (fun s => decide ((20 : ℚ) ≤ s)) ∧
    (mid.foldl midStep acc).midSectionAdjTotal =
        (mid.filter (fun s => decide ((20 : ℚ) ≤ s))).foldl (fun a s => fadd a (F64.fin s))
          acc.midSectionAdjTotal := by
  induction mid with
  | nil => intro acc; simp
  | cons s mid ih =>
    intro acc
    simp only [List.foldl_cons]
    obtain ⟨a, b, c⟩ := ih (midStep acc s)
    rw [a, b, c]
    unfold midStep minAdjustedSpeed
    by_cases h : s < 20
    · have h2 : ¬ ((20 : ℚ) ≤ s) := not_le.mpr h
      simp [h, h2]
    · have h2 : (20 : ℚ) ≤ s := not_lt.mp h
      simp [h, h2]

theorem midLoop_spec (mid : List ℚ) :
    (midLoop mid).midSectionTotal = fsum mid ∧
    (midLoop mid).midSectionAdj = mid.filter (fun s => decide ((20 : ℚ) ≤ s)) ∧
    (midLoop mid).midSectionAdjTotal = fsum (mid.filter (fun s => decide ((20 : ℚ) ≤ s))) := by
  obtain ⟨a, b, c⟩ := midLoop_fold mid
    { midSectionTotal := F64.fin 0, midSectionAdj := [], midSectionAdjTotal := F64.fin 0 }
  unfold midLoop fsum
  exact ⟨a, by simpa using b, c⟩

/-- The result of `analyzeFile`, field by field, when the mid-section can be taken. -/
theorem analyzeFile_some {trav : List (ℤ × ℕ) → List (ℤ × ℕ)} {lines : List String}
    {r : Result} (h : analyzeFile trav lines = some r) :
    ∃ mid, midSection (scan lines).speeds = some mid ∧
      r.Destination = (scan lines).dest ∧
      r.Table = (scan lines).table ∧
      r.AverageSpeed = fdiv (fsum (scan lines).speeds) (ofNat (scan lines).speeds.length) ∧
      r.TravelSpeed = fdiv (fsum mid) (ofNat mid.length) ∧
      r.AdjustedTravelSpeed = fdiv (fsum (mid.filter (fun s => decide ((20 : ℚ) ≤ s))))
        (ofNat (mid.filter (fun s => decide ((20 : ℚ) ≤ s))).length) ∧
      r.MaxSpeed = F64.fin (scan lines).maxSpeed ∧
      r.ModeSpeed = ofInt (modeLoop (trav (scan lines).speedMode)).1 := by
  unfold analyzeFile at h
  simp only [] at h
  split at h
  · cases h
  · rename_i mid hmid
    injection h with h
    subst h
    obtain ⟨a, b, c⟩ := midLoop_spec mid
    refine ⟨mid, hmid, rfl, rfl, ?_, ?_, ?_, rfl, rfl⟩
    · simp only [scan_sum]
    · simp only [a]
    · simp only [b, c]

theorem midSection_eq (speeds : List ℚ) (h2 : 2 ≤ speeds.length)
    (hlen : speeds.length < 2 ^ 52) :
    midSection speeds =
      some ((speeds.take (speeds.length - (speeds.length / 10 + 1))).drop
        (speeds.length / 10 + 1)) := by
  unfold midSection slice
  rw [travelBuffer_eq _ hlen]
  generalize speeds.length = n at h2 hlen ⊢
  have hb : 2 * (n / 10 + 1) ≤ n := by omega
  rw [if_pos (by omega)]
  have e1 : ((n / 10 + 1 : ℕ) : ℤ).toNat = n / 10 + 1 := by omega
  have e2 : ((n : ℤ) - ((n / 10 + 1 : ℕ) : ℤ)).toNat = n - (n / 10 + 1) := by omega
  rw [e1, e2]

/-- C1. For every sample sequence of length `n ≥ 2` (and below `2^52`, beyond which no Go
slice of `float64` exists), the trim buffer is `b = n / 10 + 1` and the mid-section is the
sequence with its first `b` and last `b` samples removed, in order: it has `n - 2b`
elements, the samples at positions `b .. n-b-1`. -/
theorem C1_trim_buffer_and_mid_section (speeds : List ℚ) (h2 : 2 ≤ speeds.length)
    (hlen : speeds.length < 2 ^ 52) :
    travelBuffer speeds.length = ((speeds.length / 10 + 1 : ℕ) : ℤ) ∧
    ∃ first mid last : List ℚ,
      midSection speeds = some mid ∧ speeds = first ++ mid ++ last ∧
      first.length = speeds.length / 10 + 1 ∧ last.length = speeds.length / 10 + 1 ∧
      mid.length = speeds.length - 2 * (speeds.length / 10 + 1) ∧
      ∀ i, i < mid.length → mid[i]? = speeds[speeds.length / 10 + 1 + i]? := by
  refine ⟨travelBuffer_eq _ hlen, ?_⟩
  have hb : 2 * (speeds.length / 10 + 1) ≤ speeds.length := by omega
  generalize hbdef : speeds.length / 10 + 1 = b at hb
  refine ⟨speeds.take b, (speeds.take (speeds.length - b)).drop b,
    speeds.drop (speeds.length - b), ?_, ?_, ?_, ?_, ?_, ?_⟩
  · rw [← hbdef]; exact midSection_eq speeds h2 hlen
  · have e1 : speeds.take b = (speeds.take (speeds.length - b)).take b := by
      rw [List.take_take]; congr 1; omega
    rw [e1, List.take_append_drop, List.take_append_drop]
  · rw [List.length_take]; omega
  · rw [List.length_drop]; omega
  · rw [List.length_drop, List.length_take]; omega
  · intro i hi
    rw [List.length_drop, List.length_take] at hi
    rw [List.getElem?_drop, List.getElem?_take_of_lt (by omega)]

/-- Witness of C1: three samples, the trim buffer `1` and the mid-section `[2]`. -/
theorem C1_witness :
    travelBuffer [1, 2, 3].length = ((([1, 2, 3] : List ℚ).length / 10 + 1 : ℕ) : ℤ) ∧
    ∃ first mid last : List ℚ,
      midSection [1, 2, 3] = some mid ∧ [1, 2, 3] = first ++ mid ++ last ∧
      first.length = ([1, 2, 3] : List ℚ).length / 10 + 1 ∧
      last.length = ([1, 2, 3] : List ℚ).length / 10 + 1 ∧
      mid.length = ([1, 2, 3] : List ℚ).length - 2 * (([1, 2, 3] : List ℚ).length / 10 + 1) ∧
      ∀ i, i < mid.length → mid[i]? = ([1, 2, 3] : List ℚ)[([1, 2, 3] : List ℚ).length / 10 + 1 + i]? :=
  C1_trim_buffer_and_mid_section [1, 2, 3] (by decide) (by decide)

/-! ### The result record -/

theorem analyzeFile_eq (trav : List (ℤ × ℕ) → List (ℤ × ℕ)) (lines : List String) :
    analyzeFile trav lines = (midSection (scan lines).speeds).map (fun mid =>
      { Path := ""
        Destination := (scan lines).dest
        AverageSpeed := fdiv (fsum (scan lines).speeds) (ofNat (scan lines).speeds.length)
        TravelSpeed := fdiv (fsum mid) (ofNat mid.length)
        AdjustedTravelSpeed := fdiv (fsum (mid.filter (fun s => decide ((20 : ℚ) ≤ s))))
          (ofNat (mid.filter (fun s => decide ((20 : ℚ) ≤ s))).length)
        MaxSpeed := F64.fin (scan lines).maxSpeed
        ModeSpeed := ofInt (modeLoop (trav (scan lines).speedMode)).1
        Table := (scan lines).table }) := by
  unfold analyzeFile
  simp only []
  cases hm : midSection (scan lines).speeds with
  | none => rfl
  | some mid =>
    obtain ⟨a, b, c⟩ := midLoop_spec mid
    simp only [Option.map_some', scan_sum, a, b, c]

theorem toInt_rnd (q : ℚ) (hq : 0 ≤ q) : 0 ≤ toInt (rnd q) ∨ toInt (rnd q) = minInt := by
  rw [rnd_of_nonneg hq]
  split_ifs
  · have h := rndUnbounded_nonneg hq
    have ht : truncZero (rndUnbounded q) = ⌊rndUnbounded q⌋ := by
      unfold truncZero; rw [if_neg (not_lt.mpr h)]
    rw [toInt_fin, ht]
    split_ifs
    · left; exact Int.floor_nonneg.mpr h
    · right; rfl
  · right; rfl

theorem travelBuffer_cases (n : ℕ) : 1 ≤ travelBuffer n ∨ travelBuffer n = minInt + 1 := by
  have key : 0 ≤ toInt (fmul (ofNat n) tenth) ∨ toInt (fmul (ofNat n) tenth) = minInt := by
    rw [tenth_eq]
    unfold ofNat
    rw [rnd_of_nonneg (Nat.cast_nonneg n)]
    split_ifs
    · exact toInt_rnd _ (mul_nonneg (rndUnbounded_nonneg (Nat.cast_nonneg n)) (by norm_num))
    · right
      show toInt (if (3602879701896397 / 36028797018963968 : ℚ) = 0 then F64.nan
        else F64.inf (xor false (decide ((3602879701896397 / 36028797018963968 : ℚ) < 0)))) = minInt
      split_ifs <;> rfl
  unfold travelBuffer
  rcases key with h | h
  · left; omega
  · right; omega

/-- The mid-section can only be taken from two samples or more. -/
theorem midSection_some_length {speeds mid : List ℚ} (h : midSection speeds = some mid) :
    2 ≤ speeds.length := by
  unfold midSection slice at h
  split_ifs at h with hc
  rcases travelBuffer_cases speeds.length with hb | hb
  · omega
  · rw [hb] at hc; unfold minInt at hc; omega

/-! ### Travel speed, adjusted travel speed, maximum -/

/-- C2. When the mid-section `mid` is non-empty, `analyzeFile` returns a result whose
`TravelSpeed` is the sum of all the samples of `mid` (accumulated in order, in `float64`)
divided by the length of `mid`: every sample of `mid` counts, below the threshold or not,
and any file with the same mid-section has the same `TravelSpeed`, whatever its trimmed
samples are. -/
theorem C2_travel_speed_is_mid_section_mean (trav : List (ℤ × ℕ) → List (ℤ × ℕ))
    (lines : List String) (mid : List ℚ)
    (hm : midSection (scan lines).speeds = some mid) (hne : mid ≠ []) :
    (analyzeFile trav lines).map Result.TravelSpeed =
        some (fdiv (fsum mid) (ofNat mid.length)) ∧
    ∀ (trav2 : List (ℤ × ℕ) → List (ℤ × ℕ)) (lines2 : List String),
      midSection (scan lines2).speeds = some mid →
      (analyzeFile trav2 lines2).map Result.TravelSpeed =
        (analyzeFile trav lines).map Result.TravelSpeed := by
  have _ := hne
  constructor
  · rw [analyzeFile_eq, hm]; rfl
  · intro trav2 lines2 hm2
    rw [analyzeFile_eq, analyzeFile_eq, hm, hm2]; rfl

/-- Witness of C2: the file `tripTen`, with the mid-section `30, …, 80` of mean `55`. -/
theorem C2_witness :
    midSection (scan tripTen).speeds = some [30, 40, 50, 60, 70, 80] ∧
    ([30, 40, 50, 60, 70, 80] : List ℚ) ≠ [] ∧
    (analyzeFile id tripTen).map Result.TravelSpeed = some (F64.fin 55) :=
  ⟨by decide!, by decide,
    (C2_travel_speed_is_mid_section_mean id tripTen [30, 40, 50, 60, 70, 80]
      (by decide!) (by decide)).1.trans (by decide!)⟩

/-- C3. When some sample of the mid-section `mid` is at least `20.0`, `analyzeFile` returns
a result whose `AdjustedTravelSpeed` is the sum (accumulated in order, in `float64`) of the
samples `s` of `mid` with `s ≥ 20.0`, divided by their number: a sample equal to `20.0` is
kept, a sample below `20.0` enters neither the sum nor the count. -/
theorem C3_adjusted_travel_speed_is_filtered_mean (trav : List (ℤ × ℕ) → List (ℤ × ℕ))
    (lines : List String) (mid : List ℚ)
    (hm : midSection (scan lines).speeds = some mid) (hex : ∃ s ∈ mid, (20 : ℚ) ≤ s) :
    (analyzeFile trav lines).map Result.AdjustedTravelSpeed =
      some (fdiv (fsum (mid.filter (fun s => decide ((20 : ℚ) ≤ s))))
        (ofNat (mid.filter (fun s => decide ((20 : ℚ) ≤ s))).length)) := by
  have _ := hex
  rw [analyzeFile_eq, hm]; rfl

/-- Witness of C3: the file `tripSlow`, where only the sample `30` of the mid-section
`10, 30` is kept. -/
theorem C3_witness :
    midSection (scan tripSlow).speeds = some [10, 30] ∧
    (∃ s ∈ ([10, 30] : List ℚ), (20 : ℚ) ≤ s) ∧
    (analyzeFile id tripSlow).map Result.AdjustedTravelSpeed = some (F64.fin 30) :=
  ⟨by decide!, ⟨30, by simp, by norm_num⟩,
    (C3_adjusted_travel_speed_is_filtered_mean id tripSlow [10, 30] (by decide!)
      ⟨30, by simp, by norm_num⟩).trans (by decide!)⟩

/-- C6. On every input on which `analyzeFile` returns a result, `MaxSpeed` is at least
every extracted sample, the trimmed ones included, and it is the value of one of them. -/
theorem C6_max_speed (trav : List (ℤ × ℕ) → List (ℤ × ℕ)) (lines : List String)
    (r : Result) (hr : analyzeFile trav lines = some r) :
    (∀ s ∈ (scan lines).speeds, F64.le (F64.fin s) r.MaxSpeed) ∧
    ∃ s ∈ (scan lines).speeds, r.MaxSpeed = F64.fin s := by
  rw [analyzeFile_eq] at hr
  cases hm : midSection (scan lines).speeds with
  | none => rw [hm] at hr; cases hr
  | some mid =>
    rw [hm] at hr
    injection hr with hr
    subst hr
    obtain ⟨a, _, c⟩ := scan_max lines
    have hlen := midSection_some_length hm
    have hne : (scan lines).speeds ≠ [] := by
      intro h; rw [h] at hlen; simp at hlen
    exact ⟨fun s hs => a s hs, (scan lines).maxSpeed, c hne, rfl⟩

/-- Witness of C6: the file `tripTen`, whose largest sample is `100`. -/
theorem C6_witness :
    analyzeFile id tripTen = some tripTenResult ∧
    (∀ s ∈ (scan tripTen).speeds, F64.le (F64.fin s) tripTenResult.MaxSpeed) ∧
    ∃ s ∈ (scan tripTen).speeds, tripTenResult.MaxSpeed = F64.fin s :=
  ⟨by decide!, C6_max_speed id tripTen tripTenResult (by decide!)⟩

/-! ### Means in exact arithmetic -/

theorem midSection_subset {speeds mid : List ℚ} (h : midSection speeds = some mid) :
    ∀ s ∈ mid, s ∈ speeds := by
  unfold midSection slice at h
  split_ifs at h
  injection h with h
  subst h
  intro s hs
  exact List.mem_of_mem_take (List.mem_of_mem_drop hs)

theorem fdiv_fin_ofNat (S : ℚ) (n : ℕ) (h0 : 0 < n) (hn : n < 2 ^ 53) :
    fdiv (F64.fin S) (ofNat n) = rnd (S / n) := by
  rw [ofNat_eq n hn]
  have : (n : ℚ) ≠ 0 := by
    have : (0 : ℚ) < n := by exact_mod_cast h0
    exact ne_of_gt this
  show (if (n : ℚ) = 0 then _ else rnd (S / n)) = _
  rw [if_neg this]

theorem sum_ge_of_forall_ge (l : List ℚ) (c : ℚ) (h : ∀ s ∈ l, c ≤ s) :
    (l.length : ℚ) * c ≤ l.sum := by
  induction l with
  | nil => simp
  | cons a l ih =>
    have h1 := h a (List.mem_cons_self _ _)
    have h2 := ih (fun s hs => h s (List.mem_cons_of_mem _ hs))
    simp only [List.length_cons, List.sum_cons]
    push_cast
    linarith

theorem sum_le_of_forall_le (l : List ℚ) (c : ℚ) (h : ∀ s ∈ l, s ≤ c) :
    l.sum ≤ (l.length : ℚ) * c := by
  induction l with
  | nil => simp
  | cons a l ih =>
    have h1 := h a (List.mem_cons_self _ _)
    have h2 := ih (fun s hs => h s (List.mem_cons_of_mem _ hs))
    simp only [List.length_cons, List.sum_cons]
    push_cast
    linarith

/-- In exact arithmetic: removing the samples below `20` from a sequence leaves the sum
above `20` times the count, and lowers the sum by less than `20` per removed sample. -/
theorem filter_sum_bounds (mid : List ℚ) :
    (20 : ℚ) * ((mid.filter (fun s => decide ((20 : ℚ) ≤ s))).length : ℚ) ≤
      (mid.filter (fun s => decide ((20 : ℚ) ≤ s))).sum ∧
    mid.sum + 20 * ((mid.filter (fun s => decide ((20 : ℚ) ≤ s))).length : ℚ) ≤
      (mid.filter (fun s => decide ((20 : ℚ) ≤ s))).sum + 20 * (mid.length : ℚ) ∧
    (mid.filter (fun s => decide ((20 : ℚ) ≤ s))).length ≤ mid.length := by
  induction mid with
  | nil => simp
  | cons a l ih =>
    obtain ⟨h1, h2, h3⟩ := ih
    by_cases h : (20 : ℚ) ≤ a
    · simp only [List.filter_cons, h, decide_True, if_true, List.length_cons, List.sum_cons]
      push_cast
      exact ⟨by linarith, by linarith, by omega⟩
    · have ha : a < 20 := not_le.mp h
      simp only [List.filter_cons, h, decide_False, List.length_cons, List.sum_cons,
        Bool.false_eq_true, if_false]
      push_cast
      exact ⟨h1, by linarith, by omega⟩

/-- In exact arithmetic the mean of the samples at or above `20` is at least the mean of
all the samples. -/
theorem exact_mean_le_filtered_mean (mid : List ℚ)
    (hk : 0 < (mid.filter (fun s => decide ((20 : ℚ) ≤ s))).length) :
    mid.sum / (mid.length : ℚ) ≤
      (mid.filter (fun s => decide ((20 : ℚ) ≤ s))).sum /
        ((mid.filter (fun s => decide ((20 : ℚ) ≤ s))).length : ℚ) := by
  obtain ⟨h1, h2, h3⟩ := filter_sum_bounds mid
  generalize (mid.filter (fun s => decide ((20 : ℚ) ≤ s))).sum = A at h1 h2
  generalize hkd : (mid.filter (fun s => decide ((20 : ℚ) ≤ s))).length = k at h1 h2 h3 hk
  have hkq : (0 : ℚ) < k := by exact_mod_cast hk
  have hmq : (0 : ℚ) < mid.length := by
    have : 0 < mid.length := by omega
    exact_mod_cast this
  have hkm : (k : ℚ) ≤ mid.length := by exact_mod_cast h3
  rw [div_le_div_iff₀ hmq hkq]
  nlinarith [mul_nonneg (sub_nonneg.mpr hkm) (sub_nonneg.mpr h1)]

/-- With exact accumulated sums, the travel speed is at most the adjusted travel speed. -/
theorem travel_le_adjusted_of_exact (lines : List String) (mid : List ℚ)
    (hm : midSection (scan lines).speeds = some mid) (hex : ∃ s ∈ mid, (20 : ℚ) ≤ s)
    (hlen : mid.length < 2 ^ 53) (hx1 : fsum mid = F64.fin mid.sum)
    (hx2 : fsum (mid.filter (fun s => decide ((20 : ℚ) ≤ s))) =
      F64.fin (mid.filter (fun s => decide ((20 : ℚ) ≤ s))).sum) :
    F64.le (fdiv (fsum mid) (ofNat mid.length))
      (fdiv (fsum (mid.filter (fun s => decide ((20 : ℚ) ≤ s))))
        (ofNat (mid.filter (fun s => decide ((20 : ℚ) ≤ s))).length)) := by
  obtain ⟨s0, hs0, hs20⟩ := hex
  have hk : 0 < (mid.filter (fun s => decide ((20 : ℚ) ≤ s))).length := by
    apply List.length_pos_of_mem (a := s0)
    rw [List.mem_filter]; exact ⟨hs0, by simpa using hs20⟩
  have hkm := (filter_sum_bounds mid).2.2
  have hmpos : 0 < mid.length := by omega
  rw [hx1, hx2, fdiv_fin_ofNat _ _ hmpos hlen, fdiv_fin_ofNat _ _ hk (by omega)]
  apply rnd_mono
  · apply div_nonneg
    · have := sum_ge_of_forall_ge mid 0 (fun s hs =>
        ((scan_samples_f64 lines) s (midSection_subset hm s hs)).1)
      simpa using this
    · exact Nat.cast_nonneg _
  · exact exact_mean_le_filtered_mean mid hk

/-! ### Comparing the means -/

/-- C4, counterexample. The file `tripSlow` has the mid-section `10, 30`: its travel speed
is `20` and its adjusted travel speed is `30`, which is not at most `20`. -/
theorem C4_counterexample :
    midSection (scan tripSlow).speeds = some [10, 30] ∧
    (analyzeFile id tripSlow).map Result.TravelSpeed = some (F64.fin 20) ∧
    (analyzeFile id tripSlow).map Result.AdjustedTravelSpeed = some (F64.fin 30) ∧
    ¬ F64.le (F64.fin 30) (F64.fin 20) := by decide!

/-- C4, amended. When the mid-section `mid` has a sample at or above `20.0` and the two
accumulated sums are exact (no `float64` addition rounds; `mid` shorter than `2^53`),
`analyzeFile` returns a result with `TravelSpeed ≤ AdjustedTravelSpeed`. -/
theorem C4_travel_le_adjusted_when_sums_exact (trav : List (ℤ × ℕ) → List (ℤ × ℕ))
    (lines : List String) (mid : List ℚ)
    (hm : midSection (scan lines).speeds = some mid) (hex : ∃ s ∈ mid, (20 : ℚ) ≤ s)
    (hlen : mid.length < 2 ^ 53) (hx1 : fsum mid = F64.fin mid.sum)
    (hx2 : fsum (mid.filter (fun s => decide ((20 : ℚ) ≤ s))) =
      F64.fin (mid.filter (fun s => decide ((20 : ℚ) ≤ s))).sum) :
    ∃ r, analyzeFile trav lines = some r ∧ F64.le r.TravelSpeed r.AdjustedTravelSpeed := by
  rw [analyzeFile_eq, hm]
  exact ⟨_, rfl, travel_le_adjusted_of_exact lines mid hm hex hlen hx1 hx2⟩

/-- Witness of C4: the file `tripSlow`, whose sums `40` and `30` are exact. -/
theorem C4_witness :
    midSection (scan tripSlow).speeds = some [10, 30] ∧
    (∃ s ∈ ([10, 30] : List ℚ), (20 : ℚ) ≤ s) ∧
    fsum [10, 30] = F64.fin ([10, 30] : List ℚ).sum ∧
    ∃ r, analyzeFile id tripSlow = some r ∧ F64.le r.TravelSpeed r.AdjustedTravelSpeed :=
  ⟨by decide!, ⟨30, by simp, by norm_num⟩, by decide!,
    C4_travel_le_adjusted_when_sums_exact id tripSlow [10, 30] (by decide!)
      ⟨30, by simp, by norm_num⟩ (by decide) (by decide!) (by decide!)⟩

/-- C5, counterexample. The mid-section of `tripNearTwenty` has one sample below `20.0` and
five above; the `float64` additions round, and the travel speed comes out one unit in the
last place above the adjusted travel speed. -/
theorem C5_counterexample :
    midSection (scan tripNearTwenty).speeds =
      some [5629499534213117 / 281474976710656, 2814749767106561 / 140737488355328,
        5629499534213123 / 281474976710656, 2814749767106561 / 140737488355328,
        5629499534213123 / 281474976710656, 2814749767106561 / 140737488355328] ∧
    (analyzeFile id tripNearTwenty).map Result.TravelSpeed =
      some (F64.fin (5629499534213123 / 281474976710656)) ∧
    (analyzeFile id tripNearTwenty).map Result.AdjustedTravelSpeed =
      some (F64.fin (2814749767106561 / 140737488355328)) ∧
    ¬ F64.le (F64.fin (5629499534213123 / 281474976710656))
      (F64.fin (2814749767106561 / 140737488355328)) := by decide!

/-- C5, amended. For a mid-section `mid` with a sample at or above `20.0`: when the two
accumulated sums are exact (no `float64` addition rounds; `mid` shorter than `2^53`),
`AdjustedTravelSpeed ≥ TravelSpeed`; and when no sample of `mid` is below `20.0` the two
are equal. -/
theorem C5_filtering_raises_or_holds_exact_mean (trav : List (ℤ × ℕ) → List (ℤ × ℕ))
    (lines : List String) (mid : List ℚ)
    (hm : midSection (scan lines).speeds = some mid) (hex : ∃ s ∈ mid, (20 : ℚ) ≤ s) :
    (mid.length < 2 ^ 53 → fsum mid = F64.fin mid.sum →
      fsum (mid.filter (fun s => decide ((20 : ℚ) ≤ s))) =
        F64.fin (mid.filter (fun s => decide ((20 : ℚ) ≤ s))).sum →
      ∃ r, analyzeFile trav lines = some r ∧ F64.le r.TravelSpeed r.AdjustedTravelSpeed) ∧
    ((∀ s ∈ mid, (20 : ℚ) ≤ s) →
      ∃ r, analyzeFile trav lines = some r ∧ r.AdjustedTravelSpeed = r.TravelSpeed) := by
  constructor
  · intro hlen hx1 hx2
    rw [analyzeFile_eq, hm]
    exact ⟨_, rfl, travel_le_adjusted_of_exact lines mid hm hex hlen hx1 hx2⟩
  · intro hall
    have hf : mid.filter (fun s => decide ((20 : ℚ) ≤ s)) = mid := by
      rw [List.filter_eq_self]
      intro s hs
      simpa using hall s hs
    rw [analyzeFile_eq, hm]
    refine ⟨_, rfl, ?_⟩
    simp only [hf]

/-- Witness of C5: the file `tripTen`, whose mid-section has no sample below `20` and
exact sums. -/
theorem C5_witness :
    midSection (scan tripTen).speeds = some [30, 40, 50, 60, 70, 80] ∧
    (∃ s ∈ ([30, 40, 50, 60, 70, 80] : List ℚ), (20 : ℚ) ≤ s) ∧
    (∃ r, analyzeFile id tripTen = some r ∧ F64.le r.TravelSpeed r.AdjustedTravelSpeed) ∧
    ∃ r, analyzeFile id tripTen = some r ∧ r.AdjustedTravelSpeed = r.TravelSpeed :=
  ⟨by decide!, ⟨30, by simp, by norm_num⟩,
    (C5_filtering_raises_or_holds_exact_mean id tripTen [30, 40, 50, 60, 70, 80] (by decide!)
      ⟨30, by simp, by norm_num⟩).1 (by decide) (by decide!) (by decide!),
    (C5_filtering_raises_or_holds_exact_mean id tripTen [30, 40, 50, 60, 70, 80] (by decide!)
      ⟨30, by simp, by norm_num⟩).2 (by decide)⟩

/-- C8, counterexample. The file `tripTenths` has three samples equal to the `float64`
nearest `0.1`; their accumulated sum rounds up, and the average speed is one unit in the
last place above the largest sample. -/
theorem C8_counterexample :
    (scan tripTenths).speeds =
      [3602879701896397 / 36028797018963968, 3602879701896397 / 36028797018963968,
        3602879701896397 / 36028797018963968] ∧
    (analyzeFile id tripTenths).map Result.AverageSpeed =
      some (F64.fin (7205759403792795 / 72057594037927936)) ∧
    ¬ F64.le (F64.fin (7205759403792795 / 72057594037927936))
      (F64.fin (3602879701896397 / 36028797018963968)) := by decide!

/-- C8, amended. On every input on which `analyzeFile` returns a result, `AverageSpeed` is
the `float64` quotient by `n` of the sum of all `n` samples accumulated in file order in
`float64`; when that accumulated sum is exact (and `n < 2^53`), `AverageSpeed` is finite
and lies between the smallest and the largest sample. -/
theorem C8_average_speed (trav : List (ℤ × ℕ) → List (ℤ × ℕ)) (lines : List String)
    (r : Result) (hr : analyzeFile trav lines = some r) :
    r.AverageSpeed = fdiv (fsum (scan lines).speeds) (ofNat (scan lines).speeds.length) ∧
    (fsum (scan lines).speeds = F64.fin (scan lines).speeds.sum →
      (scan lines).speeds.length < 2 ^ 53 →
      ∃ a, r.AverageSpeed = F64.fin a ∧
        ∀ lo hi, lo ∈ (scan lines).speeds → hi ∈ (scan lines).speeds →
          (∀ s ∈ (scan lines).speeds, lo ≤ s ∧ s ≤ hi) → lo ≤ a ∧ a ≤ hi) := by
  rw [analyzeFile_eq] at hr
  cases hm : midSection (scan lines).speeds with
  | none => rw [hm] at hr; cases hr
  | some mid =>
    rw [hm] at hr
    injection hr with hr
    subst hr
    refine ⟨rfl, ?_⟩
    intro hx hlen
    have h2 := midSection_some_length hm
    have hpos : 0 < (scan lines).speeds.length := by omega
    have hnq : (0 : ℚ) < ((scan lines).speeds.length : ℚ) := by exact_mod_cast hpos
    have hf := scan_samples_f64 lines
    show ∃ a, fdiv (fsum (scan lines).speeds) (ofNat (scan lines).speeds.length) = F64.fin a ∧ _
    rw [hx, fdiv_fin_ofNat _ _ hpos hlen]
    -- the quotient rounds to a finite value: it is at most the first sample's bound
    have hbound : ∀ lo hi, lo ∈ (scan lines).speeds → hi ∈ (scan lines).speeds →
        (∀ s ∈ (scan lines).speeds, lo ≤ s ∧ s ≤ hi) →
        ∃ a, rnd ((scan lines).speeds.sum / ((scan lines).speeds.length : ℚ)) = F64.fin a ∧
          lo ≤ a ∧ a ≤ hi := by
      intro lo hi hlo hhi hall
      have b1 := sum_ge_of_forall_ge _ lo (fun s hs => (hall s hs).1)
      have b2 := sum_le_of_forall_le _ hi (fun s hs => (hall s hs).2)
      have c1 : lo ≤ (scan lines).speeds.sum / ((scan lines).speeds.length : ℚ) := by
        rw [le_div_iff₀ hnq]; linarith
      have c2 : (scan lines).speeds.sum / ((scan lines).speeds.length : ℚ) ≤ hi := by
        rw [div_le_iff₀ hnq]; linarith
      exact rnd_between (hf lo hlo).1 c1 c2 (hf lo hlo).2 (hf hi hhi).2
    -- a largest sample exists, so the quotient is finite
    obtain ⟨_, _, hmax3⟩ := scan_max lines
    have hne : (scan lines).speeds ≠ [] := by
      intro h; rw [h] at hpos; simp at hpos
    have hmaxmem := hmax3 hne
    have hS0 : 0 ≤ (scan lines).speeds.sum / ((scan lines).speeds.length : ℚ) := by
      apply div_nonneg _ hnq.le
      have := sum_ge_of_forall_ge (scan lines).speeds 0 (fun s hs => (hf s hs).1)
      simpa using this
    have hSle : (scan lines).speeds.sum / ((scan lines).speeds.length : ℚ) ≤
        (scan lines).maxSpeed := by
      rw [div_le_iff₀ hnq]
      have := sum_le_of_forall_le (scan lines).speeds (scan lines).maxSpeed
        (fun s hs => (scan_max lines).1 s hs)
      linarith
    obtain ⟨a, ha, _, _⟩ := rnd_between (le_refl (0 : ℚ)) hS0 hSle (by decide!)
      (hf _ hmaxmem).2
    refine ⟨a, ha, ?_⟩
    intro lo hi hlo hhi hall
    obtain ⟨a2, ha2, h1, h2⟩ := hbound lo hi hlo hhi hall
    rw [ha] at ha2
    injection ha2 with ha2
    subst ha2
    exact ⟨h1, h2⟩

/-- Witness of C8: the file `tripSlow`, whose sum `40` is exact and whose average `10` lies
between the samples `0` and `30`. -/
theorem C8_witness :
    analyzeFile id tripSlow = some tripSlowResult ∧
    tripSlowResult.AverageSpeed =
      fdiv (fsum (scan tripSlow).speeds) (ofNat (scan tripSlow).speeds.length) ∧
    ∃ a, tripSlowResult.AverageSpeed = F64.fin a ∧ 0 ≤ a ∧ a ≤ 30 :=
  ⟨by decide!, (C8_average_speed id tripSlow tripSlowResult (by decide!)).1,
    match (C8_average_speed id tripSlow tripSlowResult (by decide!)).2 (by decide!)
      (by decide!) with
    | ⟨a, ha, hb⟩ => ⟨a, ha, hb 0 30 (by decide!) (by decide!) (by decide!)⟩⟩

/-! ### The occurrence counts and the mode -/

theorem mapGet_mapSet {κ ν : Type} [DecidableEq κ] (m : List (κ × ν)) (k0 : κ) (v0 : ν)
    (k : κ) : mapGet (mapSet m k0 v0) k = if k = k0 then some v0 else mapGet m k := by
  induction m with
  | nil =>
    simp only [mapSet, mapGet]
    by_cases h : k = k0
    · simp [h]
    · have : ¬ k0 = k := fun e => h e.symm
      simp [h, this]
  | cons e rest ih =>
    obtain ⟨k1, v1⟩ := e
    simp only [mapSet]
    by_cases h1 : k1 = k0
    · simp only [h1, if_true, mapGet]
      by_cases h : k = k0
      · simp [h]
      · have : ¬ k0 = k := fun e => h e.symm
        simp [h, this]
    · simp only [h1, if_false, mapGet, ih]
      by_cases h : k = k0
      · have : ¬ k1 = k := fun e => h1 (e.trans h)
        simp [h, this, h1]
      · simp [h]

theorem keys_mapSet {κ ν : Type} [DecidableEq κ] (m : List (κ × ν)) (k0 : κ) (v0 : ν)
    (k : κ) : k ∈ (mapSet m k0 v0).map Prod.fst ↔ k = k0 ∨ k ∈ m.map Prod.fst := by
  induction m with
  | nil => simp [mapSet]
  | cons e rest ih =>
    obtain ⟨k1, v1⟩ := e
    simp only [mapSet]
    by_cases h1 : k1 = k0
    · simp only [h1, if_true, List.map_cons, List.mem_cons]
      tauto
    · simp only [h1, if_false, List.map_cons, List.mem_cons, ih]
      tauto

theorem nodup_mapSet {κ ν : Type} [DecidableEq κ] (m : List (κ × ν)) (k0 : κ) (v0 : ν)
    (h : (m.map Prod.fst).Nodup) : ((mapSet m k0 v0).map Prod.fst).Nodup := by
  induction m with
  | nil => simp [mapSet]
  | cons e rest ih =>
    obtain ⟨k1, v1⟩ := e
    simp only [List.map_cons, List.nodup_cons] at h
    simp only [mapSet]
    by_cases h1 : k1 = k0
    · simp only [h1, if_true, List.map_cons, List.nodup_cons]
      rw [← h1]; exact h
    · simp only [h1, if_false, List.map_cons, List.nodup_cons, keys_mapSet]
      exact ⟨by tauto, ih h.2⟩

theorem mem_iff_mapGet {κ ν : Type} [DecidableEq κ] (m : List (κ × ν))
    (h : (m.map Prod.fst).Nodup) (k : κ) (v : ν) : (k, v) ∈ m ↔ mapGet m k = some v := by
  induction m with
  | nil => simp [mapGet]
  | cons e rest ih =>
    obtain ⟨k1, v1⟩ := e
    simp only [List.map_cons, List.nodup_cons] at h
    simp only [mapGet, List.mem_cons, Prod.mk.injEq]
    by_cases h1 : k1 = k
    · simp only [h1, if_true, Option.some.injEq]
      constructor
      · rintro (⟨_, e⟩ | hmem)
        · exact e.symm
        · exfalso; apply h.1; rw [h1]
          exact List.mem_map.mpr ⟨(k, v), hmem, rfl⟩
      · intro e; left; exact ⟨trivial, e.symm⟩
    · simp only [h1, if_false, ← ih h.2]
      constructor
      · rintro (⟨e, _⟩ | hmem)
        · exact absurd e.symm h1
        · exact hmem
      · intro hmem; right; exact hmem

/-- The occurrence counts after the scanning loop: the keys are distinct, and the count at
`k` is the number of samples whose conversion to `int` is `k`. -/
theorem scan_speedMode (lines : List String) :
    ((scan lines).speedMode.map Prod.fst).Nodup ∧
    ∀ k, mapGet (scan lines).speedMode k =
      if ((scan lines).speeds.map (fun s => toInt (F64.fin s))).count k = 0 then none
      else some (((scan lines).speeds.map (fun s => toInt (F64.fin s))).count k) := by
  apply scan_induction (fun st => (st.speedMode.map Prod.fst).Nodup ∧
    ∀ k, mapGet st.speedMode k =
      if (st.speeds.map (fun s => toInt (F64.fin s))).count k = 0 then none
      else some ((st.speeds.map (fun s => toInt (F64.fin s))).count k))
  · exact ⟨List.nodup_nil, fun k => rfl⟩
  · intro st line ⟨h1, h2⟩
    rcases step_samples st line with ⟨a, _, _, d⟩ | ⟨f, _, _, a, _, _, d⟩
    · rw [a, d]; exact ⟨h1, h2⟩
    · rw [a, d]
      refine ⟨nodup_mapSet _ _ _ h1, ?_⟩
      intro k
      rw [mapGet_mapSet, List.map_append, List.count_append, List.map_singleton,
        List.count_singleton]
      by_cases hk : k = toInt (F64.fin f)
      · subst hk
        rw [h2]
        by_cases hc : (st.speeds.map (fun s => toInt (F64.fin s))).count (toInt (F64.fin f)) = 0
        · simp [hc]
        · simp [hc]
      · have hk2 : ¬ (toInt (F64.fin f) = k) := fun e => hk e.symm
        simp only [hk, if_false, h2]
        simp [hk2]

theorem modeLoop_fold (es : List (ℤ × ℕ)) : ∀ acc : ℤ × ℕ,
    acc.2 ≤ (es.foldl (fun acc e => if e.2 > acc.2 then (e.1, e.2) else acc) acc).2 ∧
    (∀ e ∈ es, e.2 ≤ (es.foldl (fun acc e => if e.2 > acc.2 then (e.1, e.2) else acc) acc).2) ∧
    ((es.foldl (fun acc e => if e.2 > acc.2 then (e.1, e.2) else acc) acc) = acc ∨
      (es.foldl (fun acc e => if e.2 > acc.2 then (e.1, e.2) else acc) acc) ∈ es) := by
  induction es with
  | nil => intro acc; simp
  | cons e es ih =>
    intro acc
    simp only [List.foldl_cons]
    obtain ⟨a, b, c⟩ := ih (if e.2 > acc.2 then (e.1, e.2) else acc)
    refine ⟨?_, ?_, ?_⟩
    · refine le_trans ?_ a
      split_ifs with h
      · exact le_of_lt h
      · exact le_rfl
    · intro x hx
      rcases List.mem_cons.mp hx with hx | hx
      · subst hx
        refine le_trans ?_ a
        split_ifs with h
        · exact le_rfl
        · exact not_lt.mp h
      · exact b x hx
    · rcases c with c | c
      · by_cases h : e.2 > acc.2
        · right; rw [c, if_pos h]; exact List.mem_cons_self _ _
        · left; rw [c, if_neg h]
      · right; exact List.mem_cons_of_mem _ c

theorem modeLoop_spec (es : List (ℤ × ℕ)) :
    (∀ e ∈ es, e.2 ≤ (modeLoop es).2) ∧ (modeLoop es = (0, 0) ∨ modeLoop es ∈ es) := by
  obtain ⟨_, b, c⟩ := modeLoop_fold es (0, 0)
  exact ⟨b, c⟩

theorem toInt_small {s : ℚ} (h0 : 0 ≤ s) (h : s < 2 ^ 63) : toInt (F64.fin s) = truncZero s := by
  have ht : truncZero s = ⌊s⌋ := by unfold truncZero; rw [if_neg (not_lt.mpr h0)]
  rw [toInt_fin, if_pos]
  rw [ht]
  constructor
  · have : 0 ≤ ⌊s⌋ := Int.floor_nonneg.mpr h0
    unfold minInt; omega
  · rw [Int.floor_lt]; push_cast; exact h

/-- The integer part of a non-negative `float64` value below `2^63` is a `float64` value. -/
theorem ofInt_truncZero {s : ℚ} (h0 : 0 ≤ s) (hf : IsF64 s) :
    ofInt (truncZero s) = F64.fin (truncZero s) := by
  have ht : truncZero s = ⌊s⌋ := by unfold truncZero; rw [if_neg (not_lt.mpr h0)]
  rw [ht]
  obtain ⟨m, p, hm, hp, hform⟩ := rndUnbounded_form h0
  rw [((isF64_iff h0).mp hf).1] at hform
  have hfl0 : 0 ≤ ⌊s⌋ := Int.floor_nonneg.mpr h0
  rcases le_or_lt 0 p with hp0 | hp0
  · -- s is an integer
    obtain ⟨d, rfl⟩ : ∃ d : ℕ, p = d := ⟨p.toNat, by omega⟩
    have hs : s = ((m * 2 ^ d : ℕ) : ℤ) := by rw [hform, zpow_natCast]; push_cast; ring
    have : ⌊s⌋ = ((m * 2 ^ d : ℕ) : ℤ) := by rw [hs]; exact Int.floor_intCast _
    unfold ofInt
    rw [this, ← hs]
    exact hf
  · -- s < 2^53
    have h2p : (2 : ℚ) ^ p ≤ 1 := by
      have : (2 : ℚ) ^ p ≤ (2 : ℚ) ^ (0 : ℤ) := zpow_le_zpow_right₀ (by norm_num) (by omega)
      simpa using this
    have hmq : (m : ℚ) < ((2 ^ 53 : ℕ) : ℚ) := by exact_mod_cast hm
    have hs53 : s < ((2 ^ 53 : ℕ) : ℚ) := by
      rw [hform]
      have : (0 : ℚ) ≤ m := Nat.cast_nonneg m
      nlinarith
    obtain ⟨n, hn⟩ : ∃ n : ℕ, ⌊s⌋ = n := ⟨⌊s⌋.toNat, by omega⟩
    have hn53 : n < 2 ^ 53 := by
      have h1 : ((n : ℤ) : ℚ) ≤ s := by rw [← hn]; exact Int.floor_le s
      have h2 : (n : ℚ) < ((2 ^ 53 : ℕ) : ℚ) := by
        have : ((n : ℤ) : ℚ) = (n : ℚ) := by push_cast; rfl
        linarith
      exact_mod_cast h2
    unfold ofInt
    rw [hn]
    have := isF64_nat n hn53
    simpa using this

/-! ### Mode speed -/

theorem scan_keys (lines : List String) (hsmall : ∀ s ∈ (scan lines).speeds, s < 2 ^ 63) :
    (scan lines).speeds.map (fun s => toInt (F64.fin s)) = (scan lines).speeds.map truncZero := by
  apply List.map_congr_left
  intro s hs
  exact toInt_small ((scan_samples_f64 lines) s hs).1 (hsmall s hs)

/-- C7, counterexample. The two samples of `tripHuge` are `1e19`, which `int` cannot hold:
the conversion gives the smallest `int`, and `ModeSpeed` is `-2^63`, the truncation of no
sample. -/
theorem C7_counterexample :
    (scan tripHuge).speeds = [10000000000000000000, 10000000000000000000] ∧
    (analyzeFile id tripHuge).map Result.ModeSpeed =
      some (F64.fin (-9223372036854775808)) ∧
    ¬ ∃ s ∈ (scan tripHuge).speeds,
        F64.fin (-9223372036854775808) = F64.fin (truncZero s) := by decide!

/-- C7, amended. For every non-empty sample sequence whose samples are below `2^63` (the
range of `int`) and for every order `trav` in which the occurrence counts are traversed,
the mode `k` that the loop selects is the truncation toward zero of some sample, no integer
has more samples truncating to it than `k` has, `k` is that integer when one integer has
strictly the highest count, and a returned result has `ModeSpeed = k`. -/
theorem C7_mode_speed (trav : List (ℤ × ℕ) → List (ℤ × ℕ))
    (htrav : ∀ m, (trav m).Perm m) (lines : List String)
    (hne : (scan lines).speeds ≠ [])
    (hsmall : ∀ s ∈ (scan lines).speeds, s < 2 ^ 63) :
    ∃ k : ℤ, k = (modeLoop (trav (scan lines).speedMode)).1 ∧
      (∀ r, analyzeFile trav lines = some r → r.ModeSpeed = F64.fin (k : ℚ)) ∧
      (∃ s ∈ (scan lines).speeds, k = truncZero s) ∧
      (∀ j, ((scan lines).speeds.map truncZero).count j ≤
        ((scan lines).speeds.map truncZero).count k) ∧
      (∀ j, (∀ i, i ≠ j → ((scan lines).speeds.map truncZero).count i <
        ((scan lines).speeds.map truncZero).count j) → k = j) := by
  obtain ⟨hnd, hget⟩ := scan_speedMode lines
  rw [scan_keys lines hsmall] at hget
  obtain ⟨hmax, hmem⟩ := modeLoop_spec (trav (scan lines).speedMode)
  have hperm := htrav (scan lines).speedMode
  -- an entry with a positive count is in the table
  have hentry : ∀ j, ((scan lines).speeds.map truncZero).count j ≠ 0 →
      (j, ((scan lines).speeds.map truncZero).count j) ∈ trav (scan lines).speedMode := by
    intro j hj
    rw [hperm.mem_iff, mem_iff_mapGet _ hnd, hget, if_neg hj]
  -- the table is not empty
  obtain ⟨s0, hs0⟩ := List.exists_mem_of_ne_nil _ hne
  have hc0 : ((scan lines).speeds.map truncZero).count (truncZero s0) ≠ 0 := by
    rw [← Nat.pos_iff_ne_zero, List.count_pos_iff]
    exact List.mem_map.mpr ⟨s0, hs0, rfl⟩
  have hpos : 0 < (modeLoop (trav (scan lines).speedMode)).2 :=
    lt_of_lt_of_le (Nat.pos_of_ne_zero hc0) (hmax _ (hentry _ hc0))
  have hin : modeLoop (trav (scan lines).speedMode) ∈ (scan lines).speedMode := by
    rcases hmem with h | h
    · rw [h] at hpos; exact absurd hpos (lt_irrefl 0)
    · exact hperm.mem_iff.mp h
  generalize hkv : modeLoop (trav (scan lines).speedMode) = kv at hmax hpos hin ⊢
  obtain ⟨k, v⟩ := kv
  rw [mem_iff_mapGet _ hnd, hget] at hin
  have hck : ((scan lines).speeds.map truncZero).count k ≠ 0 := by
    intro h; rw [if_pos h] at hin; cases hin
  rw [if_neg hck] at hin
  injection hin with hv
  have hsample : ∃ s ∈ (scan lines).speeds, k = truncZero s := by
    have : k ∈ (scan lines).speeds.map truncZero := by
      rw [← List.count_pos_iff]; exact Nat.pos_of_ne_zero hck
    obtain ⟨s, hs, e⟩ := List.mem_map.mp this
    exact ⟨s, hs, e.symm⟩
  have hle : ∀ j, ((scan lines).speeds.map truncZero).count j ≤
      ((scan lines).speeds.map truncZero).count k := by
    intro j
    by_cases hj : ((scan lines).speeds.map truncZero).count j = 0
    · rw [hj]; exact Nat.zero_le _
    · have := hmax _ (hentry j hj)
      simp only at this
      rw [hv]; exact this
  refine ⟨k, rfl, ?_, hsample, hle, ?_⟩
  · intro r hr
    obtain ⟨mid, _, _, _, _, _, _, _, hmode⟩ := analyzeFile_some hr
    rw [hmode, hkv]
    obtain ⟨s, hs, e⟩ := hsample
    show ofInt k = F64.fin (k : ℚ)
    rw [e]
    exact ofInt_truncZero ((scan_samples_f64 lines) s hs).1 ((scan_samples_f64 lines) s hs).2
  · intro j hj
    by_contra hkj
    have h1 := hj k hkj
    have h2 := hle j
    omega

/-- Witness of C7: the file `tripTen`, traversed in the order of insertion. -/
theorem C7_witness :
    (scan tripTen).speeds ≠ [] ∧ (∀ s ∈ (scan tripTen).speeds, s < 2 ^ 63) ∧
    ∃ k : ℤ, k = (modeLoop (id (scan tripTen).speedMode)).1 ∧
      (∀ r, analyzeFile id tripTen = some r → r.ModeSpeed = F64.fin (k : ℚ)) ∧
      (∃ s ∈ (scan tripTen).speeds, k = truncZero s) ∧
      (∀ j, ((scan tripTen).speeds.map truncZero).count j ≤
        ((scan tripTen).speeds.map truncZero).count k) ∧
      (∀ j, (∀ i, i ≠ j → ((scan tripTen).speeds.map truncZero).count i <
        ((scan tripTen).speeds.map truncZero).count j) → k = j) :=
  ⟨by decide!, by decide!,
    C7_mode_speed id (fun m => List.Perm.refl m) tripTen (by decide!) (by decide!)⟩

/-! ### Destination -/

theorem speedLine_dest (st : State) (line : String) : (speedLine st line).dest = st.dest := by
  unfold speedLine
  split
  · rfl
  · split <;> rfl

theorem tableLine_dest (st : State) (line : String) : (tableLine st line).dest = st.dest := by
  unfold tableLine
  split
  · rfl
  · exact speedLine_dest st line

theorem step_dest (st : State) (line : String) :
    (step st line).dest = if st.dest = "" then (destRe line).getD "" else st.dest := by
  unfold step
  split
  · rename_i v hv
    by_cases h : st.dest = ""
    · simp [h, hv]
    · simp [h, tableLine_dest]
  · rename_i hv
    rw [tableLine_dest]
    by_cases h : st.dest = ""
    · simp [h, hv]
    · simp [h]

theorem foldl_step_dest (lines : List String) : ∀ st : State,
    (lines.foldl step st).dest =
      if st.dest = "" then ((lines.filterMap destRe).find? (fun v => decide (v ≠ ""))).getD ""
      else st.dest := by
  induction lines with
  | nil => intro st; by_cases h : st.dest = "" <;> simp [h]
  | cons l ls ih =>
    intro st
    simp only [List.foldl_cons]
    rw [ih, step_dest]
    by_cases h : st.dest = ""
    · simp only [h, if_true]
      cases hd : destRe l with
      | none => simp [List.filterMap_cons, hd]
      | some v =>
        by_cases hv : v = ""
        · simp [List.filterMap_cons, hd, hv]
        · simp [List.filterMap_cons, hd, hv]
    · simp [h]

theorem scan_append (pre post : List String) :
    scan (pre ++ post) = post.foldl step (scan pre) := by
  unfold scan; rw [List.foldl_append]

/-- C9, counterexample. In `tripTwoNames` the first line that matches the destination
pattern captures the empty string, and the destination of the result is the value `B` of
the second such line. -/
theorem C9_counterexample :
    tripTwoNames.map destRe = [some "", some "B", none, none] ∧
    (analyzeFile id tripTwoNames).map Result.Destination = some "B" := by decide!

theorem scan_dest (lines : List String) :
    (scan lines).dest =
      ((lines.filterMap destRe).find? (fun v => decide (v ≠ ""))).getD "" := by
  unfold scan
  rw [foldl_step_dest]
  simp [State.start]

theorem scan_dest_latched (lines more : List String) (hne : (scan lines).dest ≠ "") :
    (scan (lines ++ more)).dest = (scan lines).dest := by
  rw [scan_append, foldl_step_dest, if_neg hne]

/-- C10. Once a non-empty destination is latched, a later line is handled by the
metadata-table test and then the speed test alone, whether it matches the destination
pattern or not: the variables after the line, and after the whole file, are those the
loop body without the destination test gives.  In `tripNamedSpeed` the second line matches
the destination pattern and adds the sample `30`. -/
theorem C10_latched_destination_falls_through (pre post : List String) (line : String)
    (hd : (scan pre).dest ≠ "") :
    step (scan pre) line = tableLine (scan pre) line ∧
    scan (pre ++ line :: post) = post.foldl step (tableLine (scan pre) line) ∧
    (tripNamedSpeed.map destRe = [some "A", some "Speed: 30 mph"] ∧
      (scan tripNamedSpeed).dest = "A" ∧ (scan tripNamedSpeed).speeds = [30]) := by
  have h1 : step (scan pre) line = tableLine (scan pre) line := by
    unfold step
    split
    · rw [if_neg hd]
    · rfl
  refine ⟨h1, ?_, by decide!⟩
  rw [scan_append, List.foldl_cons, h1]

/-- Witness of C10: after the destination `A` is latched, a second destination line that
holds `Speed: 30 mph` adds the sample `30`. -/
theorem C10_witness :
    (scan ["        <name>A</name>"]).dest ≠ "" ∧
    step (scan ["        <name>A</name>"]) "        <name>Speed: 30 mph</name>" =
      tableLine (scan ["        <name>A</name>"]) "        <name>Speed: 30 mph</name>" ∧
    (tableLine (scan ["        <name>A</name>"]) "        <name>Speed: 30 mph</name>").speeds =
      [30] :=
  ⟨by decide!,
    (C10_latched_destination_falls_through ["        <name>A</name>"] []
      "        <name>Speed: 30 mph</name>" (by decide!)).1, by decide!⟩

/-! ### Metadata rows, priority of the patterns, ignored lines -/

theorem speedLine_table (st : State) (line : String) :
    (speedLine st line).table = st.table := by
  unfold speedLine
  split
  · rfl
  · split <;> rfl

theorem speedLine_cases (st : State) (line : String) :
    speedLine st line = st ∨ ∃ f, (speedLine st line).speeds = st.speeds ++ [f] := by
  unfold speedLine
  split
  · left; rfl
  · split
    · left; rfl
    · rename_i f _
      right; exact ⟨f, rfl⟩

/-- A line that latches the destination changes nothing else. -/
theorem step_latch {st : State} {line v : String} (hd : destRe line = some v)
    (he : st.dest = "") : step st line = { st with dest := v } := by
  unfold step
  rw [hd]
  simp only [he, if_true]

/-- A line handled as a metadata row changes the table alone. -/
theorem step_row {st : State} {line k v : String} (hr : rowOf st line = some (k, v)) :
    step st line = { st with table := mapSet st.table k (trimSpace v) } := by
  unfold rowOf at hr
  unfold step
  split at hr
  · split_ifs at hr with he
    rw [if_neg he]
    unfold tableLine
    rw [hr]
  · unfold tableLine
    rw [hr]

/-- A line that neither latches the destination nor is handled as a metadata row is left
to the speed test. -/
theorem step_rest {st : State} {line : String}
    (hl : ∀ v, destRe line = some v → st.dest ≠ "") (hr : rowOf st line = none) :
    step st line = speedLine st line := by
  unfold rowOf at hr
  unfold step
  split at hr
  · rename_i w hw
    have he := hl w hw
    rw [if_neg he] at hr
    rw [if_neg he]
    unfold tableLine
    rw [hr]
  · unfold tableLine
    rw [hr]

theorem rowOf_none_of_latch {st : State} {line v : String} (hd : destRe line = some v)
    (he : st.dest = "") : rowOf st line = none := by
  unfold rowOf
  rw [hd]
  simp only [he, if_true]

theorem step_table (st : State) (line : String) :
    (step st line).table =
      match rowOf st line with
      | some (k, v) => mapSet st.table k (trimSpace v)
      | none => st.table := by
  cases hr : rowOf st line with
  | some kv =>
    obtain ⟨k, v⟩ := kv
    rw [step_row hr]
  | none =>
    by_cases hl : ∃ v, destRe line = some v ∧ st.dest = ""
    · obtain ⟨v, hd, he⟩ := hl
      rw [step_latch hd he]
    · rw [step_rest (fun v hd he => hl ⟨v, hd, he⟩) hr, speedLine_table]

theorem foldl_step_table (K : String) (lines : List String) : ∀ st : State,
    mapGet (lines.foldl step st).table K =
      ((((rowsFrom st lines).filter (fun p => decide (p.1 = K))).getLast?).map
        (fun p => trimSpace p.2)).or (mapGet st.table K) := by
  induction lines with
  | nil => intro st; simp [rowsFrom]
  | cons l ls ih =>
    intro st
    simp only [List.foldl_cons, rowsFrom, List.filter_append, List.getLast?_append]
    rw [ih (step st l), step_table]
    cases hr : rowOf st l with
    | none =>
      simp only [Option.toList, List.filter_nil, List.getLast?_nil, Option.or_none]
    | some kv =>
      obtain ⟨k, v⟩ := kv
      simp only [Option.toList, mapGet_mapSet]
      by_cases hk : k = K
      · subst hk
        cases hrest : ((rowsFrom (step st l) ls).filter (fun p => decide (p.1 = k))).getLast?
          <;> simp
      · have hk2 : ¬ K = k := fun e => hk e.symm
        cases hrest : ((rowsFrom (step st l) ls).filter (fun p => decide (p.1 = K))).getLast?
          <;> simp [hk, hk2]

/-- The text `strings.TrimSpace` returns is the given text without a run of white space at
its start and one at its end, and it neither starts nor ends with white space. -/
theorem trimSpace_spec (s : String) : ∃ pre post : List Char,
    s.toList = pre ++ (trimSpace s).toList ++ post ∧
    (∀ c ∈ pre, isSpace c = true) ∧ (∀ c ∈ post, isSpace c = true) ∧
    (∀ c, (trimSpace s).toList.head? = some c → isSpace c = false) ∧
    (∀ c, (trimSpace s).toList.getLast? = some c → isSpace c = false) := by
  have hsplit : ∀ l : List Char,
      l = l.rdropWhile isSpace ++ l.rtakeWhile isSpace := by
    intro l
    have h := List.takeWhile_append_dropWhile isSpace l.reverse
    have h2 := congrArg List.reverse h
    rw [List.reverse_append, List.reverse_reverse] at h2
    exact h2.symm
  refine ⟨s.toList.takeWhile isSpace,
    (s.toList.dropWhile isSpace).rtakeWhile isSpace, ?_, ?_, ?_, ?_, ?_⟩
  · show s.toList = _ ++ (s.toList.dropWhile isSpace).rdropWhile isSpace ++ _
    rw [List.append_assoc, ← hsplit, List.takeWhile_append_dropWhile]
  · intro c hc
    exact (List.mem_takeWhile_imp hc)
  · intro c hc
    exact List.mem_rtakeWhile_imp hc
  · intro c hc
    change ((s.toList.dropWhile isSpace).rdropWhile isSpace).head? = some c at hc
    obtain ⟨t, ht⟩ := List.rdropWhile_prefix isSpace (l := s.toList.dropWhile isSpace)
    cases hm : (s.toList.dropWhile isSpace).rdropWhile isSpace with
    | nil => rw [hm] at hc; cases hc
    | cons a m =>
      rw [hm] at hc ht
      simp only [List.head?_cons, Option.some.injEq] at hc
      subst hc
      have hh : (s.toList.dropWhile isSpace).head? = some a := by
        rw [← ht]; rfl
      have := List.head?_dropWhile_not isSpace s.toList
      rw [hh] at this
      simpa using this
  · intro c hc
    change ((s.toList.dropWhile isSpace).rdropWhile isSpace).getLast? = some c at hc
    by_cases hne : (s.toList.dropWhile isSpace).rdropWhile isSpace = []
    · rw [hne] at hc; cases hc
    · have h := List.rdropWhile_last_not isSpace (s.toList.dropWhile isSpace) hne
      rw [List.getLast?_eq_getLast _ hne] at hc
      simp only [Option.some.injEq] at hc
      rw [hc] at h
      simpa using h

/-- C11. For every sequence of lines and every label `K`: `Table[K]` is the trimmed value of
the last line handled as a metadata row with the label `K`, and `K` is absent from the
table when there is no such line; a returned result carries this table, and a metadata row
with another label leaves `Table[K]` as it is.  The trimmed value is the captured value
without the white space at its start and at its end, white space inside it being kept, as
in the row ` 08:00 am`; the label is not trimmed. -/
theorem C11_last_write_wins (lines : List String) (K : String) :
    mapGet (scan lines).table K =
      (((rowsFrom State.start lines).filter (fun p => decide (p.1 = K))).getLast?).map
        (fun p => trimSpace p.2) ∧
    (∀ (trav : List (ℤ × ℕ) → List (ℤ × ℕ)) (r : Result),
      analyzeFile trav lines = some r → mapGet r.Table K = mapGet (scan lines).table K) ∧
    (∀ (st : State) (line k v : String), rowOf st line = some (k, v) → k ≠ K →
      mapGet (step st line).table K = mapGet st.table K) ∧
    (∀ v : String, ∃ pre post : List Char,
      v.toList = pre ++ (trimSpace v).toList ++ post ∧
      (∀ c ∈ pre, isSpace c = true) ∧ (∀ c ∈ post, isSpace c = true) ∧
      (∀ c, (trimSpace v).toList.head? = some c → isSpace c = false) ∧
      (∀ c, (trimSpace v).toList.getLast? = some c → isSpace c = false)) ∧
    (isSpace ' ' = true ∧ isSpace '\t' = true ∧ isSpace '\r' = true ∧ isSpace '0' = false ∧
      trimSpace " \t 08:00 am \r" = "08:00 am" ∧
      tableRe "<tr><td><b>Start Time</b> \t 08:00 am  </td></tr>" =
        some ("Start Time", " \t 08:00 am  ") ∧
      (scan ["<tr><td><b>Start Time</b>09:00</td></tr>",
        "<tr><td><b>Start Time</b> \t 08:00 am  </td></tr>",
        "<tr><td><b> Start Time </b>10:00</td></tr>"]).table =
        [("Start Time", "08:00 am"), (" Start Time ", "10:00")]) := by
  refine ⟨?_, ?_, ?_, trimSpace_spec, by decide!⟩
  · unfold scan
    rw [foldl_step_table]
    simp [State.start, mapGet]
  · intro trav r hr
    obtain ⟨_, _, _, h, _⟩ := analyzeFile_some hr
    rw [h]
  · intro st line k v hr hk
    rw [step_row hr]
    show mapGet (mapSet st.table k (trimSpace v)) K = _
    rw [mapGet_mapSet, if_neg (fun e => hk e.symm)]

/-- C12. Every line changes at most one of the destination, the metadata table and the
sample sequence, and appends at most one sample; a line that latches the destination
changes neither the table nor the samples, and a line handled as a metadata row changes
neither the samples nor the destination, also when the line holds a metadata row or a
speed, as `lineAllThree` and `lineRowWithSpeed` do. -/
theorem C12_priority_and_mutual_exclusion (st : State) (line : String) :
    ((step st line).speeds = st.speeds ∨ ∃ f, (step st line).speeds = st.speeds ++ [f]) ∧
    (((step st line).dest = st.dest ∧ (step st line).table = st.table) ∨
      ((step st line).dest = st.dest ∧ (step st line).speeds = st.speeds) ∨
      ((step st line).table = st.table ∧ (step st line).speeds = st.speeds)) ∧
    (∀ v, destRe line = some v → st.dest = "" → step st line = { st with dest := v }) ∧
    (∀ k v, rowOf st line = some (k, v) →
      step st line = { st with table := mapSet st.table k (trimSpace v) }) ∧
    ((destRe lineAllThree).isSome ∧ (tableRe lineAllThree).isSome ∧
      (speedRe lineAllThree).isSome ∧
      step State.start lineAllThree =
        { State.start with dest := "A<tr><td><b>K</b>V</td></tr> Speed: 5 mph" }) ∧
    ((tableRe lineRowWithSpeed).isSome ∧ (speedRe lineRowWithSpeed).isSome ∧
      step State.start lineRowWithSpeed =
        { State.start with table := [("K", "Speed: 5 mph")] }) := by
  have hcases : (∃ v, destRe line = some v ∧ st.dest = "") ∨
      (∃ k v, rowOf st line = some (k, v)) ∨
      ((∀ v, destRe line = some v → st.dest ≠ "") ∧ rowOf st line = none) := by
    by_cases hl : ∃ v, destRe line = some v ∧ st.dest = ""
    · left; exact hl
    · right
      cases hr : rowOf st line with
      | some kv => left; exact ⟨kv.1, kv.2, rfl⟩
      | none => right; exact ⟨fun v hd he => hl ⟨v, hd, he⟩, rfl⟩
  refine ⟨?_, ?_, fun v hd he => step_latch hd he, fun k v hr => step_row hr,
    by decide!, by decide!⟩
  · rcases hcases with ⟨v, hd, he⟩ | ⟨k, v, hr⟩ | ⟨hl, hr⟩
    · left; rw [step_latch hd he]
    · left; rw [step_row hr]
    · rw [step_rest hl hr]
      rcases speedLine_cases st line with h | h
      · left; rw [h]
      · right; exact h
  · rcases hcases with ⟨v, hd, he⟩ | ⟨k, v, hr⟩ | ⟨hl, hr⟩
    · right; right; rw [step_latch hd he]; exact ⟨rfl, rfl⟩
    · right; left; rw [step_row hr]; exact ⟨rfl, rfl⟩
    · left; rw [step_rest hl hr]; exact ⟨speedLine_dest st line, speedLine_table st line⟩

theorem step_ignored {st : State} {l : String} (hd : destRe l = none) (ht : tableRe l = none)
    (hs : speedRe l = none ∨ ∃ tok, speedRe l = some tok ∧ parseFloat tok = none) :
    step st l = st := by
  unfold step
  rw [hd]
  unfold tableLine
  rw [ht]
  unfold speedLine
  rcases hs with hs | ⟨tok, hs, hp⟩
  · rw [hs]
  · rw [hs]; simp only [hp]

theorem analyzeFile_congr {trav : List (ℤ × ℕ) → List (ℤ × ℕ)} {l1 l2 : List String}
    (h : scan l1 = scan l2) : analyzeFile trav l1 = analyzeFile trav l2 := by
  rw [analyzeFile_eq, analyzeFile_eq, h]

theorem scan_ignored (pre post : List String) (l : String)
    (hd : destRe l = none) (ht : tableRe l = none)
    (hs : speedRe l = none ∨ ∃ tok, speedRe l = some tok ∧ parseFloat tok = none) :
    scan (pre ++ l :: post) = scan (pre ++ post) := by
  rw [scan_append, scan_append, List.foldl_cons, step_ignored hd ht hs]

/-! ### Slice bounds and divisors -/

theorem ofNat_zero : ofNat 0 = F64.fin 0 := by decide!

theorem ofNat_ne_zero {n : ℕ} (h : 1 ≤ n) : ofNat n ≠ F64.fin 0 := by
  unfold ofNat
  rw [rnd_of_nonneg (Nat.cast_nonneg n)]
  split_ifs
  · intro e
    injection e with e
    have h1 : (1 : ℚ) ≤ (n : ℚ) := by exact_mod_cast h
    have h2 := rndUnbounded_mono (by norm_num : (0 : ℚ) ≤ 1) h1
    have h3 := rndUnbounded_fix 1 0 (by norm_num) (by norm_num)
    simp only [Nat.cast_one, zpow_zero, mul_one] at h3
    rw [h3, e] at h2
    norm_num at h2
  · intro e; cases e

theorem ofNat_eq_zero_iff (n : ℕ) : ofNat n = F64.fin 0 ↔ n = 0 := by
  constructor
  · intro h
    by_contra hn
    exact ofNat_ne_zero (Nat.one_le_iff_ne_zero.mpr hn) h
  · intro h; rw [h]; exact ofNat_zero

theorem rnd_ne_nan (q : ℚ) : rnd q ≠ F64.nan := by
  unfold rnd
  split_ifs <;> split <;> intro e <;> cases e

/-- The accumulated sum of non-negative samples is a non-negative value or `+Inf`. -/
theorem fsum_nonneg (l : List ℚ) (h : ∀ s ∈ l, 0 ≤ s) :
    (∃ S, 0 ≤ S ∧ fsum l = F64.fin S) ∨ fsum l = F64.inf false := by
  induction l using List.reverseRecOn with
  | nil => left; exact ⟨0, le_rfl, rfl⟩
  | append_singleton l s ih =>
    have hs : 0 ≤ s := h s (by simp)
    rw [fsum_append]
    rcases ih (fun x hx => h x (List.mem_append_left _ hx)) with ⟨S, hS, e⟩ | e
    · rw [e]
      show (∃ S', 0 ≤ S' ∧ rnd (S + s) = F64.fin S') ∨ rnd (S + s) = F64.inf false
      rw [rnd_of_nonneg (add_nonneg hS hs)]
      split_ifs
      · left; exact ⟨_, rndUnbounded_nonneg (add_nonneg hS hs), rfl⟩
      · right; rfl
    · right; rw [e]; rfl

theorem midSection_none_of_lt {speeds : List ℚ}
    (h : (speeds.length : ℤ) < 2 * travelBuffer speeds.length) : midSection speeds = none := by
  unfold midSection slice
  rw [if_neg]
  omega

theorem midSection_nil_of_eq {speeds : List ℚ}
    (h : (speeds.length : ℤ) = 2 * travelBuffer speeds.length) : midSection speeds = some [] := by
  unfold midSection slice
  rw [if_pos (by omega)]
  congr 1
  apply List.eq_nil_of_length_eq_zero
  rw [List.length_drop, List.length_take]
  omega

theorem midSection_length {speeds mid : List ℚ} (h : midSection speeds = some mid) :
    (mid.length : ℤ) = speeds.length - 2 * travelBuffer speeds.length := by
  unfold midSection slice at h
  split_ifs at h with hc
  injection h with h
  subst h
  rw [List.length_drop, List.length_take]
  omega

/-- C14, counterexample. The file `tripTwo` has `n = 2` samples and `b = 1`, so `n ≤ 2b`:
the slice `speeds[1:1]` is in bounds, the mid-section is empty and `analyzeFile` returns a
result, with the travel speed `0/0 = NaN`. -/
theorem C14_counterexample :
    (scan tripTwo).speeds = [1, 2] ∧ travelBuffer 2 = 1 ∧
    midSection (scan tripTwo).speeds = some [] ∧
    analyzeFile id tripTwo = some tripTwoResult := by decide!

/-- C14, amended. When the sample count `n` is below `2b` (that is `n = 0` or `n = 1`) the
slice `speeds[b : n-b]` is out of bounds and `analyzeFile` returns no result; when `n = 2b`
(that is `n = 2`) the slice is in bounds and empty, and `analyzeFile` returns a result whose
travel speed is NaN. -/
theorem C14_mid_section_out_of_bounds (trav : List (ℤ × ℕ) → List (ℤ × ℕ))
    (lines : List String) :
    (((scan lines).speeds.length : ℤ) < 2 * travelBuffer (scan lines).speeds.length →
      midSection (scan lines).speeds = none ∧ analyzeFile trav lines = none) ∧
    (((scan lines).speeds.length : ℤ) = 2 * travelBuffer (scan lines).speeds.length →
      midSection (scan lines).speeds = some [] ∧
      ∃ r, analyzeFile trav lines = some r ∧ r.TravelSpeed = F64.nan) ∧
    ((scan lines).speeds.length < 2 ^ 52 →
      ((((scan lines).speeds.length : ℤ) < 2 * travelBuffer (scan lines).speeds.length ↔
        (scan lines).speeds.length < 2) ∧
      (((scan lines).speeds.length : ℤ) = 2 * travelBuffer (scan lines).speeds.length ↔
        (scan lines).speeds.length = 2))) := by
  refine ⟨?_, ?_, ?_⟩
  · intro h
    have hm := midSection_none_of_lt h
    exact ⟨hm, by rw [analyzeFile_eq, hm]; rfl⟩
  · intro h
    have hm := midSection_nil_of_eq h
    refine ⟨hm, ?_⟩
    have hnan : fdiv (fsum []) (ofNat ([] : List ℚ).length) = F64.nan := by decide!
    rw [analyzeFile_eq, hm]
    simp only [Option.map_some', Option.some.injEq, exists_eq_left']
    exact hnan
  · intro hlen
    rw [travelBuffer_eq _ hlen]
    constructor <;> constructor <;> intro h <;> omega

/-- Witness of C14: a file of one sample. -/
theorem C14_witness :
    (((scan ["Speed: 1 mph"]).speeds.length : ℤ) <
      2 * travelBuffer (scan ["Speed: 1 mph"]).speeds.length) ∧
    midSection (scan ["Speed: 1 mph"]).speeds = none ∧
    analyzeFile id ["Speed: 1 mph"] = none :=
  ⟨by decide!, (C14_mid_section_out_of_bounds id ["Speed: 1 mph"]).1 (by decide!)⟩

/-- C15. When the mid-section `mid` can be taken, the divisor of `AdjustedTravelSpeed`, the
number of samples of `mid` at or above `20.0` converted to `float64`, is zero if and only
if no sample of `mid` is at or above `20.0`; the adjusted travel speed is then `0/0 = NaN`,
and it is not NaN when some sample of `mid` is at or above `20.0` (`mid` shorter than
`2^53`). -/
theorem C15_adjusted_travel_speed_undefined (trav : List (ℤ × ℕ) → List (ℤ × ℕ))
    (lines : List String) (mid : List ℚ)
    (hm : midSection (scan lines).speeds = some mid) :
    (ofNat (mid.filter (fun s => decide ((20 : ℚ) ≤ s))).length = F64.fin 0 ↔
      ¬ ∃ s ∈ mid, (20 : ℚ) ≤ s) ∧
    ((¬ ∃ s ∈ mid, (20 : ℚ) ≤ s) →
      (analyzeFile trav lines).map Result.AdjustedTravelSpeed = some F64.nan) ∧
    ((∃ s ∈ mid, (20 : ℚ) ≤ s) → mid.length < 2 ^ 53 →
      ∃ a, (analyzeFile trav lines).map Result.AdjustedTravelSpeed = some a ∧
        a ≠ F64.nan) := by
  have hfil : (mid.filter (fun s => decide ((20 : ℚ) ≤ s))).length = 0 ↔
      ¬ ∃ s ∈ mid, (20 : ℚ) ≤ s := by
    rw [List.length_eq_zero, List.filter_eq_nil_iff]
    constructor
    · rintro h ⟨s, hs, h20⟩
      exact h s hs (by simpa using h20)
    · intro h s hs h20
      exact h ⟨s, hs, by simpa using h20⟩
  refine ⟨?_, ?_, ?_⟩
  · rw [ofNat_eq_zero_iff, hfil]
  · intro hno
    have hnil : mid.filter (fun s => decide ((20 : ℚ) ≤ s)) = [] :=
      List.length_eq_zero.mp (hfil.mpr hno)
    rw [analyzeFile_eq, hm]
    have hnan : fdiv (fsum []) (ofNat ([] : List ℚ).length) = F64.nan := by decide!
    simp only [Option.map_some', hnil]
    exact congrArg some hnan
  · intro hex hlen
    rw [analyzeFile_eq, hm]
    refine ⟨_, rfl, ?_⟩
    show fdiv (fsum (mid.filter (fun s => decide ((20 : ℚ) ≤ s))))
      (ofNat (mid.filter (fun s => decide ((20 : ℚ) ≤ s))).length) ≠ F64.nan
    have hk : 0 < (mid.filter (fun s => decide ((20 : ℚ) ≤ s))).length := by
      rw [Nat.pos_iff_ne_zero]; intro h0; exact hfil.mp h0 hex
    have hkm := (filter_sum_bounds mid).2.2
    have hnn : ∀ s ∈ mid.filter (fun s => decide ((20 : ℚ) ≤ s)), 0 ≤ s := by
      intro s hs
      exact ((scan_samples_f64 lines) s
        (midSection_subset hm s (List.mem_filter.mp hs).1)).1
    rcases fsum_nonneg _ hnn with ⟨S, _, e⟩ | e
    · rw [e, fdiv_fin_ofNat _ _ hk (by omega)]
      exact rnd_ne_nan _
    · rw [e, ofNat_eq _ (by omega)]
      intro h; cases h

/-- Witness of C15: in `tripEdges` the samples at or above `20` are the trimmed first and
last ones, and the adjusted travel speed is NaN. -/
theorem C15_witness :
    (scan tripEdges).speeds = [50, 10, 60] ∧
    midSection (scan tripEdges).speeds = some [10] ∧
    (¬ ∃ s ∈ ([10] : List ℚ), (20 : ℚ) ≤ s) ∧
    (analyzeFile id tripEdges).map Result.AdjustedTravelSpeed = some F64.nan :=
  ⟨by decide!, by decide!, by decide!,
    (C15_adjusted_travel_speed_undefined id tripEdges [10] (by decide!)).2.1 (by decide!)⟩

/-- C19. For a sample count `n` (below `2^52`, beyond which no Go slice of `float64`
exists) and `b = n / 10 + 1`: the slice `speeds[b : n-b]` is in bounds for every `n ≥ 2` and
out of bounds exactly for `n = 0` and `n = 1`; the mid-section is empty exactly for `n = 2`;
and for `n ≥ 3` with a mid-section sample at or above `20.0`, none of the three divisors
of `analyzeFile` is zero. -/
theorem C19_slice_bounds_and_divisors (speeds : List ℚ) (hlen : speeds.length < 2 ^ 52) :
    travelBuffer speeds.length = ((speeds.length / 10 + 1 : ℕ) : ℤ) ∧
    (2 ≤ speeds.length → 0 ≤ travelBuffer speeds.length ∧
      travelBuffer speeds.length ≤ (speeds.length : ℤ) - travelBuffer speeds.length ∧
      (speeds.length : ℤ) - travelBuffer speeds.length ≤ speeds.length) ∧
    (midSection speeds = none ↔ speeds.length = 0 ∨ speeds.length = 1) ∧
    (∀ mid, midSection speeds = some mid → (mid = [] ↔ speeds.length = 2)) ∧
    (3 ≤ speeds.length → ∀ mid, midSection speeds = some mid →
      (∃ s ∈ mid, (20 : ℚ) ≤ s) →
      ofNat speeds.length ≠ F64.fin 0 ∧ ofNat mid.length ≠ F64.fin 0 ∧
      ofNat (mid.filter (fun s => decide ((20 : ℚ) ≤ s))).length ≠ F64.fin 0) := by
  have hb := travelBuffer_eq _ hlen
  refine ⟨hb, ?_, ?_, ?_, ?_⟩
  · intro h2; rw [hb]; omega
  · constructor
    · intro hnone
      by_contra hc
      have h2 : 2 ≤ speeds.length := by omega
      rw [midSection_eq speeds h2 hlen] at hnone
      cases hnone
    · intro h
      apply midSection_none_of_lt
      rw [hb]; omega
  · intro mid hm
    have hl := midSection_length hm
    have h2 := midSection_some_length hm
    rw [hb] at hl
    rw [← List.length_eq_zero]
    constructor <;> intro h <;> omega
  · intro h3 mid hm hex
    have hl := midSection_length hm
    rw [hb] at hl
    refine ⟨ofNat_ne_zero (by omega), ofNat_ne_zero (by omega), ?_⟩
    obtain ⟨s0, hs0, hs20⟩ := hex
    apply ofNat_ne_zero
    apply List.length_pos_of_mem (a := s0)
    rw [List.mem_filter]; exact ⟨hs0, by simpa using hs20⟩

/-- Witness of C19: three samples `25`. -/
theorem C19_witness :
    travelBuffer ([25, 25, 25] : List ℚ).length = 1 ∧
    midSection [25, 25, 25] = some [25] ∧
    ofNat ([25, 25, 25] : List ℚ).length ≠ F64.fin 0 :=
  ⟨(C19_slice_bounds_and_divisors [25, 25, 25] (by decide)).1.trans (by decide),
    by decide!,
    ((C19_slice_bounds_and_divisors [25, 25, 25] (by decide)).2.2.2.2 (by decide) [25]
      (by decide!) ⟨25, by simp, by norm_num⟩).1⟩

/-! ### The scenario of ten samples; samples are non-negative -/

/-- C18. For the file `tripTen` (a destination line, the metadata row
`<tr><td><b>Start Time</b>08:00</td></tr>` and the ten lines `Speed: 10 mph`, …,
`Speed: 100 mph`), `analyzeFile` computes `b = 2`, the mid-section `30, 40, 50, 60, 70, 80`,
travel speed `55`, adjusted travel speed `55`, maximum `100`, average `55` and
`Table["Start Time"] = "08:00"`. -/
theorem C18_ten_sample_scenario (trav : List (ℤ × ℕ) → List (ℤ × ℕ)) :
    tripTen =
      ["        <name>Lakeview Trail</name>", "<tr><td><b>Start Time</b>08:00</td></tr>",
        "Speed: 10 mph", "Speed: 20 mph", "Speed: 30 mph", "Speed: 40 mph", "Speed: 50 mph",
        "Speed: 60 mph", "Speed: 70 mph", "Speed: 80 mph", "Speed: 90 mph",
        "Speed: 100 mph"] ∧
    (scan tripTen).speeds = [10, 20, 30, 40, 50, 60, 70, 80, 90, 100] ∧
    travelBuffer (scan tripTen).speeds.length = 2 ∧
    midSection (scan tripTen).speeds = some [30, 40, 50, 60, 70, 80] ∧
    (analyzeFile trav tripTen).map Result.TravelSpeed = some (F64.fin 55) ∧
    (analyzeFile trav tripTen).map Result.AdjustedTravelSpeed = some (F64.fin 55) ∧
    (analyzeFile trav tripTen).map Result.MaxSpeed = some (F64.fin 100) ∧
    (analyzeFile trav tripTen).map Result.AverageSpeed = some (F64.fin 55) ∧
    (analyzeFile trav tripTen).map (fun r => mapGet r.Table "Start Time") =
      some (some "08:00") := by
  have hm : midSection (scan tripTen).speeds = some [30, 40, 50, 60, 70, 80] := by decide!
  have h1 : fdiv (fsum [30, 40, 50, 60, 70, 80]) (ofNat ([30, 40, 50, 60, 70, 80] : List ℚ).length)
      = F64.fin 55 := by decide!
  have h2 : fdiv (fsum (([30, 40, 50, 60, 70, 80] : List ℚ).filter
      (fun s => decide ((20 : ℚ) ≤ s))))
      (ofNat (([30, 40, 50, 60, 70, 80] : List ℚ).filter
        (fun s => decide ((20 : ℚ) ≤ s))).length) = F64.fin 55 := by decide!
  have h3 : F64.fin (scan tripTen).maxSpeed = F64.fin 100 := by decide!
  have h4 : fdiv (fsum (scan tripTen).speeds) (ofNat (scan tripTen).speeds.length) =
      F64.fin 55 := by decide!
  have h5 : mapGet (scan tripTen).table "Start Time" = some "08:00" := by decide!
  refine ⟨rfl, by decide!, by decide!, hm, ?_, ?_, ?_, ?_, ?_⟩ <;>
    rw [analyzeFile_eq, hm] <;> simp only [Option.map_some']
  · rw [h1]
  · rw [h2]
  · rw [h3]
  · rw [h4]
  · rw [h5]

theorem leftmost_some {α : Type} (f : List Char → Option α) (s : List Char) (a : α)
    (h : leftmost f s = some a) : ∃ t, f t = some a := by
  induction s with
  | nil => exact ⟨[], h⟩
  | cons c cs ih =>
    unfold leftmost at h
    split at h
    · rename_i b hb
      injection h with h
      subst h
      exact ⟨_, hb⟩
    · exact ih h

theorem speedHere_chars (s : List Char) (tok : String) (h : speedHere s = some tok) :
    tok ≠ "" ∧ ∀ c ∈ tok.toList, c.isDigit = true ∨ c = '.' := by
  unfold speedHere at h
  split at h
  · cases h
  · rename_i rest _
    simp only [] at h
    split_ifs at h with hnil
    split at h
    · cases h
    · injection h with h
      subst h
      constructor
      · intro e
        apply hnil
        have := congrArg String.toList e
        simpa using this
      · intro c hc
        have hc2 : c ∈ List.takeWhile isDigitDot rest := hc
        have := List.mem_takeWhile_imp hc2
        unfold isDigitDot at this
        simpa using this

theorem maxFold_append (fs : List ℚ) (f : ℚ) :
    maxFold (fs ++ [f]) = if f > maxFold fs then f else maxFold fs := by
  unfold maxFold
  rw [List.foldl_append]
  rfl

theorem scan_maxFold (lines : List String) :
    (scan lines).maxSpeed = maxFold (scan lines).speeds := by
  apply scan_induction (fun st => st.maxSpeed = maxFold st.speeds)
  · rfl
  · intro st line h
    rcases step_samples st line with ⟨a, _, c, _⟩ | ⟨f, _, _, a, _, c, _⟩
    · rw [a, c, h]
    · rw [a, c, maxFold_append, h]

theorem maxFold_spec (fs : List ℚ) (h0 : ∀ f ∈ fs, 0 ≤ f) :
    (∀ f ∈ fs, f ≤ maxFold fs) ∧ (fs ≠ [] → maxFold fs ∈ fs) ∧ 0 ≤ maxFold fs := by
  induction fs using List.reverseRecOn with
  | nil => exact ⟨fun f hf => (by cases hf), fun h => absurd rfl h, le_rfl⟩
  | append_singleton fs f ih =>
    obtain ⟨a, b, c⟩ := ih (fun x hx => h0 x (List.mem_append_left _ hx))
    have hf0 : 0 ≤ f := h0 f (by simp)
    rw [maxFold_append]
    refine ⟨?_, ?_, ?_⟩
    · intro x hx
      rcases List.mem_append.mp hx with hx | hx
      · have := a x hx
        split_ifs with hgt
        · exact le_of_lt (lt_of_le_of_lt this hgt)
        · exact this
      · rw [List.mem_singleton] at hx; subst hx
        split_ifs with hgt
        · exact le_rfl
        · exact not_lt.mp hgt
    · intro _
      split_ifs with hgt
      · simp
      · by_cases hnil : fs = []
        · subst hnil
          have hm : maxFold [] = 0 := rfl
          rw [hm] at hgt ⊢
          have : f = 0 := le_antisymm (not_lt.mp hgt) hf0
          rw [this]; simp
        · exact List.mem_append_left _ (b hnil)
    · split_ifs
      · exact hf0
      · exact c

/-- C20. The speed pattern captures a non-empty token of digits and dots only, a token
that parses denotes a non-negative number, and so every sample of the sample sequence is
non-negative; on a non-empty sequence of non-negative samples the accumulator started at
`0` ends on the largest sample (it would not on the single negative value `-5`), and the
`maxSpeed` of the scanning loop is that accumulator. -/
theorem C20_samples_non_negative (lines : List String) :
    (∀ line tok, speedRe line = some tok →
      tok ≠ "" ∧ ∀ c ∈ tok.toList, c.isDigit = true ∨ c = '.') ∧
    (∀ tok f, parseFloat tok = some f → 0 ≤ f) ∧
    (∀ s ∈ (scan lines).speeds, 0 ≤ s) ∧
    (scan lines).maxSpeed = maxFold (scan lines).speeds ∧
    (∀ fs : List ℚ, fs ≠ [] → (∀ f ∈ fs, 0 ≤ f) →
      maxFold fs ∈ fs ∧ ∀ f ∈ fs, f ≤ maxFold fs) ∧
    (maxFold [-5] = 0 ∧ maxFold [-5] ∉ ([-5] : List ℚ)) := by
  refine ⟨?_, ?_, ?_, scan_maxFold lines, ?_, by decide!⟩
  · intro line tok h
    obtain ⟨t, ht⟩ := leftmost_some _ _ _ h
    exact speedHere_chars t tok ht
  · intro tok f h
    exact (parseFloat_some h).1
  · intro s hs
    exact ((scan_samples_f64 lines) s hs).1
  · intro fs hne h0
    obtain ⟨a, b, _⟩ := maxFold_spec fs h0
    exact ⟨b hne, a⟩

/-! ### main: the loop over the files and the order of the report -/

theorem collect_report_iff (trav : List (ℤ × ℕ) → List (ℤ × ℕ))
    (args : List (String × Option (List String))) : ∀ (rs out : List Result),
    collect trav args rs = Outcome.report out ↔
      ∃ more, args.map (resultOf trav) = more.map some ∧ out = rs ++ more := by
  induction args with
  | nil =>
    intro rs out
    simp only [collect, List.map_nil]
    constructor
    · intro h
      injection h with h
      exact ⟨[], rfl, by simp [h]⟩
    · rintro ⟨more, h1, h2⟩
      have : more = [] := by
        cases more with
        | nil => rfl
        | cons _ _ => simp at h1
      subst this
      simp [h2]
  | cons a args ih =>
    intro rs out
    obtain ⟨path, file⟩ := a
    cases file with
    | none =>
      simp only [collect, List.map_cons, resultOf, Option.bind]
      constructor
      · intro h; cases h
      · rintro ⟨more, h1, _⟩
        cases more with
        | nil => simp at h1
        | cons _ _ => simp at h1
    | some lines =>
      cases hr : analyzeFile trav lines with
      | none =>
        simp only [collect, hr, List.map_cons, resultOf, Option.bind, Option.map]
        constructor
        · intro h; cases h
        · rintro ⟨more, h1, _⟩
          cases more with
          | nil => simp at h1
          | cons _ _ => simp at h1
      | some r =>
        simp only [collect, hr, List.map_cons, resultOf, Option.bind, Option.map]
        rw [ih]
        constructor
        · rintro ⟨more, h1, h2⟩
          refine ⟨{ r with Path := path } :: more, ?_, ?_⟩
          · simp only [List.map_cons]
            rw [← h1]
          · rw [h2]; simp
        · rintro ⟨more, h1, h2⟩
          cases more with
          | nil => simp at h1
          | cons m more =>
            simp only [List.map_cons, List.cons.injEq, Option.some.injEq] at h1
            refine ⟨more, ?_, ?_⟩
            · rw [← h1.2]
            · rw [h2, ← h1.1]; simp

theorem main_report_iff (trav : List (ℤ × ℕ) → List (ℤ × ℕ))
    (sortSlice : (Result → Result → Bool) → List Result → List Result)
    (args : List (String × Option (List String))) (out : List Result) :
    main trav sortSlice args = Outcome.report out ↔
      ∃ collected, collect trav args [] = Outcome.report collected ∧
        out = sortSlice startTimeLess collected := by
  unfold main
  cases h : collect trav args [] with
  | report rs =>
    simp only [Outcome.report.injEq]
    constructor
    · intro e; exact ⟨rs, rfl, e.symm⟩
    · rintro ⟨c, hc, e⟩; rw [e, hc]
  | exitOne => simp
  | panic => simp

theorem map_some_filterMap {α : Type} (l : List (Option α)) (h : ∀ x ∈ l, x.isSome = true) :
    l = (l.filterMap id).map some := by
  induction l with
  | nil => rfl
  | cons x l ih =>
    have hx := h x (List.mem_cons_self _ _)
    have ih' := ih (fun y hy => h y (List.mem_cons_of_mem _ hy))
    cases x with
    | none => cases hx
    | some a =>
      simp only [List.filterMap_cons, id, List.map_cons]
      rw [← ih']

/-- Permuting the arguments permutes the collected results. -/
theorem collect_perm (trav : List (ℤ × ℕ) → List (ℤ × ℕ))
    {args args2 : List (String × Option (List String))} (hp : args2.Perm args)
    {collected : List Result} (h : collect trav args [] = Outcome.report collected) :
    ∃ collected2, collect trav args2 [] = Outcome.report collected2 ∧
      collected2.Perm collected := by
  rw [collect_report_iff] at h
  obtain ⟨more, h1, h2⟩ := h
  simp only [List.nil_append] at h2
  subst h2
  have hp2 : (args2.map (resultOf trav)).Perm (collected.map some) := by
    rw [← h1]; exact hp.map _
  have hall : ∀ x ∈ args2.map (resultOf trav), x.isSome = true := by
    intro x hx
    have := hp2.mem_iff.mp hx
    obtain ⟨r, _, e⟩ := List.mem_map.mp this
    rw [← e]; rfl
  refine ⟨(args2.map (resultOf trav)).filterMap id, ?_, ?_⟩
  · rw [collect_report_iff]
    exact ⟨_, map_some_filterMap _ hall, by simp⟩
  · have := hp2.filterMap id
    simpa using this

theorem eq_of_map_eq_of_inj_on {α β : Type} (f : α → β) : ∀ (l1 l2 : List α),
    (∀ x ∈ l1, ∀ y ∈ l2, f x = f y → x = y) → l1.map f = l2.map f → l1 = l2 := by
  intro l1
  induction l1 with
  | nil =>
    intro l2 _ h
    cases l2 with
    | nil => rfl
    | cons _ _ => simp at h
  | cons a l1 ih =>
    intro l2 hinj h
    cases l2 with
    | nil => simp at h
    | cons b l2 =>
      simp only [List.map_cons, List.cons.injEq] at h
      have hab : a = b := hinj a (List.mem_cons_self _ _) b (List.mem_cons_self _ _) h.1
      have := ih l2 (fun x hx y hy e =>
        hinj x (List.mem_cons_of_mem _ hx) y (List.mem_cons_of_mem _ hy) e) h.2
      rw [hab, this]

theorem startTimeLess_false_iff (a b : Result) :
    startTimeLess b a = false ↔ startTime a ≤ startTime b := by
  unfold startTimeLess
  simp only [decide_eq_false_iff_not, not_lt]

/-- Two permutations of results with distinct start times that are both sorted are the
same sequence. -/
theorem sorted_unique {l1 l2 : List Result} (hp : l1.Perm l2)
    (hnd : (l2.map startTime).Nodup)
    (h1 : l1.Pairwise (fun a b => startTime a ≤ startTime b))
    (h2 : l2.Pairwise (fun a b => startTime a ≤ startTime b)) : l1 = l2 := by
  have k1 : (l1.map startTime).Sorted (· ≤ ·) := List.pairwise_map.mpr h1
  have k2 : (l2.map startTime).Sorted (· ≤ ·) := List.pairwise_map.mpr h2
  have hk : l1.map startTime = l2.map startTime :=
    List.eq_of_perm_of_sorted (hp.map _) k1 k2
  apply eq_of_map_eq_of_inj_on startTime l1 l2 _ hk
  intro x hx y hy e
  exact List.inj_on_of_nodup_map hnd (hp.mem_iff.mp hx) hy e

theorem insertionSortSlice_sorts : SortsByStartTime insertionSortSlice := by
  intro rs
  unfold insertionSortSlice
  haveI : IsTotal Result (fun a b => startTimeLess b a = false) :=
    ⟨fun a b => by
      simp only [startTimeLess_false_iff]
      exact le_total _ _⟩
  haveI : IsTrans Result (fun a b => startTimeLess b a = false) :=
    ⟨fun a b c hab hbc => by
      simp only [startTimeLess_false_iff] at *
      exact le_trans hab hbc⟩
  exact ⟨List.perm_insertionSort _ rs, List.sorted_insertionSort _ rs⟩

/-- C16, counterexample. In `batchShort` the first file has one sample, fewer than `2b = 2`:
the run of `main` ends in the panic of `analyzeFile`, and the second file, which alone is
reported, is not. -/
theorem C16_counterexample :
    (scan ["Speed: 1 mph"]).speeds.length = 1 ∧ travelBuffer 1 = 1 ∧
    main id insertionSortSlice batchShort = Outcome.panic ∧
    main id insertionSortSlice [("b.kml", some tripTen)] =
      Outcome.report [{ tripTenResult with Path := "b.kml" }] := by decide!

/-- C16, amended. When some file of the batch has fewer than `2b` samples, the run of
`main` reports nothing: it ends with exit code 1 at a file that cannot be opened, or in the
panic of `analyzeFile` (slice bounds out of range), which `main` does not recover; when
every file can be opened it ends in the panic. -/
theorem C16_short_file_aborts_the_batch (trav : List (ℤ × ℕ) → List (ℤ × ℕ))
    (sortSlice : (Result → Result → Bool) → List Result → List Result)
    (args : List (String × Option (List String)))
    (hshort : ∃ a ∈ args, ∃ lines, a.2 = some lines ∧
      ((scan lines).speeds.length : ℤ) < 2 * travelBuffer (scan lines).speeds.length) :
    (main trav sortSlice args = Outcome.exitOne ∨ main trav sortSlice args = Outcome.panic) ∧
    ((∀ a ∈ args, a.2 ≠ none) → main trav sortSlice args = Outcome.panic) := by
  obtain ⟨a, ha, lines, hl, hlt⟩ := hshort
  have hnone : resultOf trav a = none := by
    unfold resultOf
    rw [hl]
    show (analyzeFile trav lines).map _ = none
    rw [analyzeFile_eq, midSection_none_of_lt hlt]
    rfl
  have hnot : ∀ out, main trav sortSlice args ≠ Outcome.report out := by
    intro out h
    rw [main_report_iff] at h
    obtain ⟨c, hc, _⟩ := h
    rw [collect_report_iff] at hc
    obtain ⟨more, h1, _⟩ := hc
    have hmem : resultOf trav a ∈ args.map (resultOf trav) := List.mem_map_of_mem _ ha
    rw [h1, hnone] at hmem
    simp at hmem
  constructor
  · cases h : main trav sortSlice args with
    | report out => exact absurd h (hnot out)
    | exitOne => left; rfl
    | panic => right; rfl
  · intro hopen
    have hne : ∀ (l : List (String × Option (List String))) (rs : List Result),
        (∀ a ∈ l, a.2 ≠ none) → collect trav l rs ≠ Outcome.exitOne := by
      intro l
      induction l with
      | nil => intro rs _ h; cases h
      | cons b l ih =>
        intro rs hb
        obtain ⟨p, f⟩ := b
        cases f with
        | none => exact absurd rfl (hb (p, none) (List.mem_cons_self _ _))
        | some ls =>
          unfold collect
          split
          · intro h; cases h
          · exact ih _ (fun x hx => hb x (List.mem_cons_of_mem _ hx))
    have h1 := hne args [] hopen
    cases h : main trav sortSlice args with
    | report out => exact absurd h (hnot out)
    | exitOne =>
      exfalso
      unfold main at h
      cases hc : collect trav args [] with
      | report rs => rw [hc] at h; cases h
      | exitOne => exact h1 hc
      | panic => rw [hc] at h; cases h
    | panic => rfl

/-- Witness of C16: the batch `batchShort`, whose first file has one sample. -/
theorem C16_witness :
    (∃ a ∈ batchShort, ∃ lines, a.2 = some lines ∧
      ((scan lines).speeds.length : ℤ) < 2 * travelBuffer (scan lines).speeds.length) ∧
    main id insertionSortSlice batchShort = Outcome.panic :=
  ⟨⟨("a.kml", some ["Speed: 1 mph"]), by decide!, ["Speed: 1 mph"], rfl, by decide!⟩,
    (C16_short_file_aborts_the_batch id insertionSortSlice batchShort
      ⟨("a.kml", some ["Speed: 1 mph"]), by decide!, ["Speed: 1 mph"], rfl, by decide!⟩).2
      (by decide!)⟩

/-! ### The scanner: the lines that are read -/

theorem splitLF_ne_nil (cs : List Char) : splitLF cs ≠ [] := by
  cases cs with
  | nil => simp [splitLF]
  | cons c cs =>
    unfold splitLF
    split_ifs
    · simp
    · split <;> simp

theorem splitLF_append (l rest : List Char) (hl : '\n' ∉ l) :
    splitLF (l ++ '\n' :: rest) = l :: splitLF rest := by
  induction l with
  | nil => simp [splitLF]
  | cons c l ih =>
    have hc : c ≠ '\n' := fun e => hl (by rw [e]; exact List.mem_cons_self _ _)
    have hl2 : '\n' ∉ l := fun h => hl (List.mem_cons_of_mem _ h)
    rw [List.cons_append, splitLF, if_neg hc, ih hl2]

theorem splitLF_of_not_mem (l : List Char) (hl : '\n' ∉ l) : splitLF l = [l] := by
  induction l with
  | nil => rfl
  | cons c l ih =>
    have hc : c ≠ '\n' := fun e => hl (by rw [e]; exact List.mem_cons_self _ _)
    have hl2 : '\n' ∉ l := fun h => hl (List.mem_cons_of_mem _ h)
    simp only [splitLF, if_neg hc, ih hl2]

theorem rawLines_line (l rest : String) (hl : '\n' ∉ l.toList) :
    rawLines (l ++ "\n" ++ rest) = l :: rawLines rest := by
  unfold rawLines
  have e : (l ++ "\n" ++ rest).toList = l.toList ++ '\n' :: rest.toList := by
    simp [String.toList]
  rw [e, splitLF_append _ _ hl]
  obtain ⟨p, ps, hp⟩ := List.exists_cons_of_ne_nil (splitLF_ne_nil rest.toList)
  simp only [hp, List.getLast?_cons_cons]
  split_ifs <;> simp

theorem rawLines_last (l : String) (hl : '\n' ∉ l.toList) :
    rawLines l = if l = "" then [] else [l] := by
  unfold rawLines
  rw [splitLF_of_not_mem _ hl]
  by_cases h : l = ""
  · subst h; simp
  · have h2 : l.data ≠ [] := fun e => h (by ext1; exact e)
    simp [h, h2]

theorem scanLines_line (l rest : String) (hl : '\n' ∉ l.toList) :
    scanLines (l ++ "\n" ++ rest) =
      if fitsScanner l = true then dropCR l :: scanLines rest else [] := by
  unfold scanLines
  rw [rawLines_line l rest hl]
  by_cases h : fitsScanner l = true
  · simp [List.takeWhile_cons, h]
  · simp [List.takeWhile_cons, h]

theorem scanLines_last (l : String) (hl : '\n' ∉ l.toList) :
    scanLines l = if l ≠ "" ∧ fitsScanner l = true then [dropCR l] else [] := by
  unfold scanLines
  rw [rawLines_last l hl]
  by_cases h : l = ""
  · simp [h]
  · by_cases h2 : fitsScanner l = true
    · simp [h, h2, List.takeWhile_cons]
    · simp [h, h2, List.takeWhile_cons]

/-- The lines read from a file that starts with the lines `pre`: those of `pre` up to the
first that does not fit, and the lines read from the rest when all of them fit. -/
theorem scanLines_fileOf_append (pre : List String) (post : String)
    (hpre : ∀ p ∈ pre, '\n' ∉ p.toList) :
    scanLines (fileOf pre ++ post) =
      (pre.takeWhile fitsScanner).map dropCR ++
        if pre.all fitsScanner = true then scanLines post else [] := by
  induction pre with
  | nil => simp [fileOf]
  | cons l ls ih =>
    have e : fileOf (l :: ls) ++ post = l ++ "\n" ++ (fileOf ls ++ post) := by
      simp [fileOf, String.append_assoc]
    rw [e, scanLines_line _ _ (hpre l (List.mem_cons_self _ _)),
      ih (fun p hp => hpre p (List.mem_cons_of_mem _ hp))]
    by_cases h : fitsScanner l = true
    · simp [List.takeWhile_cons, h]
    · simp [List.takeWhile_cons, h]

theorem scanLines_fileOf (ls : List String) (hls : ∀ p ∈ ls, '\n' ∉ p.toList) :
    scanLines (fileOf ls) = (ls.takeWhile fitsScanner).map dropCR := by
  have h := scanLines_fileOf_append ls "" hls
  have e : scanLines "" = [] := by decide!
  rw [e] at h
  simpa using h

/-- A line that does not fit the buffer ends the scan: the lines after it are not read. -/
theorem scanLines_long (pre : List String) (l post : String)
    (hpre : ∀ p ∈ pre, '\n' ∉ p.toList) (hl : '\n' ∉ l.toList)
    (hlong : maxScanTokenSize ≤ l.utf8ByteSize) :
    scanLines (fileOf pre ++ l ++ "\n" ++ post) = scanLines (fileOf pre) := by
  have hf : fitsScanner l = false := by
    unfold fitsScanner
    simp only [decide_eq_false_iff_not, not_lt]
    exact hlong
  have e : fileOf pre ++ l ++ "\n" ++ post = fileOf pre ++ (l ++ "\n" ++ post) := by
    simp [String.append_assoc]
  rw [e, scanLines_fileOf_append pre _ hpre, scanLines_fileOf pre hpre, scanLines_line _ _ hl,
    hf]
  simp

theorem utf8ByteSize_replicate (n : ℕ) :
    (String.mk (List.replicate n 'x')).utf8ByteSize = n := by
  induction n with
  | zero => rfl
  | succ n ih =>
    simp only [String.utf8ByteSize, List.replicate_succ, String.utf8ByteSize.go] at ih ⊢
    rw [ih]
    rfl

theorem dropLit_replicate (p : Char) (ps : List Char) (c : Char) (hpc : p ≠ c) (n : ℕ) :
    dropLit (p :: ps) (List.replicate n c) = none := by
  cases n with
  | zero => rfl
  | succ n => simp [List.replicate_succ, dropLit, hpc]

theorem leftmost_replicate {α : Type} (f : List Char → Option α) (c : Char)
    (hf : ∀ m, f (List.replicate m c) = none) (n : ℕ) :
    leftmost f (List.replicate n c) = none := by
  induction n with
  | zero => exact hf 0
  | succ n ih =>
    have h := hf (n + 1)
    rw [List.replicate_succ] at h ⊢
    rw [leftmost, h]
    exact ih

theorem longLine_size : longLine.utf8ByteSize = 70000 := utf8ByteSize_replicate 70000

theorem longLine_no_lf : '\n' ∉ longLine.toList := by
  intro h
  have := List.eq_of_mem_replicate h
  exact absurd this (by decide)

theorem longLine_no_match :
    destRe longLine = none ∧ tableRe longLine = none ∧ speedRe longLine = none := by
  refine ⟨?_, ?_, ?_⟩
  · unfold destRe
    have e : "        <name>".toList = ' ' :: "       <name>".toList := rfl
    have e2 : longLine.toList = List.replicate 70000 'x' := rfl
    rw [e, e2, dropLit_replicate _ _ _ (by decide)]
  · unfold tableRe
    have e2 : longLine.toList = List.replicate 70000 'x' := rfl
    rw [e2]
    apply leftmost_replicate
    intro m
    unfold tableHere
    have e : "<tr><td><b>".toList = '<' :: "tr><td><b>".toList := rfl
    rw [e, dropLit_replicate _ _ _ (by decide)]
  · unfold speedRe
    have e2 : longLine.toList = List.replicate 70000 'x' := rfl
    rw [e2]
    apply leftmost_replicate
    intro m
    unfold speedHere
    have e : "Speed: ".toList = 'S' :: "peed: ".toList := rfl
    rw [e, dropLit_replicate _ _ _ (by decide)]

theorem longLine_long : maxScanTokenSize ≤ longLine.utf8ByteSize := by
  rw [longLine_size]
  decide

theorem splitLF_append_lf (cs : List Char) : splitLF (cs ++ ['\n']) = splitLF cs ++ [[]] := by
  induction cs with
  | nil => rfl
  | cons c cs ih =>
    by_cases hc : c = '\n'
    · rw [List.cons_append, splitLF, if_pos hc, ih, splitLF, if_pos hc]
      rfl
    · rw [List.cons_append, splitLF, if_neg hc, ih, splitLF, if_neg hc]
      obtain ⟨l, ls, hl⟩ := List.exists_cons_of_ne_nil (splitLF_ne_nil cs)
      rw [hl]
      rfl

theorem splitLF_getLast (cs : List Char) (hne : cs ≠ []) (hlast : cs.getLast? ≠ some '\n') :
    (splitLF cs).getLast? ≠ some [] := by
  induction cs with
  | nil => exact absurd rfl hne
  | cons c cs ih =>
    cases cs with
    | nil =>
      have hc : c ≠ '\n' := by
        intro e
        apply hlast
        rw [e]
        rfl
      simp [splitLF, hc]
    | cons c2 rest =>
      have ih2 := ih (by simp) (by simpa using hlast)
      obtain ⟨l, ls, hl⟩ := List.exists_cons_of_ne_nil (splitLF_ne_nil (c2 :: rest))
      by_cases hc : c = '\n'
      · rw [splitLF, if_pos hc, hl, List.getLast?_cons_cons, ← hl]
        exact ih2
      · rw [splitLF, if_neg hc, hl]
        rw [hl] at ih2
        cases ls with
        | nil => simp
        | cons l2 ls2 =>
          rw [List.getLast?_cons_cons]
          rw [List.getLast?_cons_cons] at ih2
          exact ih2

/-- A line feed at the end of a file that does not end with one changes nothing in the
lines read. -/
theorem scanLines_final_lf (c : String) (hne : c ≠ "")
    (hlast : c.toList.getLast? ≠ some '\n') : scanLines (c ++ "\n") = scanLines c := by
  have e : rawLines (c ++ "\n") = rawLines c := by
    unfold rawLines
    have e1 : (c ++ "\n").toList = c.toList ++ ['\n'] := by simp [String.toList]
    have hne2 : c.toList ≠ [] := fun h => hne (by ext1; exact h)
    have h2 := splitLF_getLast c.toList hne2 hlast
    simp only [e1, splitLF_append_lf]
    rw [if_neg h2]
    simp
  unfold scanLines
  rw [e]

/-- The loop variables after a file with and without a line that fits the buffer and that
the loop body ignores. -/
theorem scan_scanLines_ignored (pre : List String) (l post : String)
    (hpre : ∀ p ∈ pre, '\n' ∉ p.toList) (hl : '\n' ∉ l.toList)
    (hfit : l.utf8ByteSize < maxScanTokenSize)
    (hd : destRe (dropCR l) = none) (ht : tableRe (dropCR l) = none)
    (hs : speedRe (dropCR l) = none ∨
      ∃ tok, speedRe (dropCR l) = some tok ∧ parseFloat tok = none) :
    scan (scanLines (fileOf pre ++ l ++ "\n" ++ post)) = scan (scanLines (fileOf pre ++ post)) ∧
    scan (scanLines (fileOf pre ++ l)) = scan (scanLines (fileOf pre)) := by
  have hf : fitsScanner l = true := by
    unfold fitsScanner
    exact decide_eq_true hfit
  have e : fileOf pre ++ l ++ "\n" ++ post = fileOf pre ++ (l ++ "\n" ++ post) := by
    simp [String.append_assoc]
  constructor
  · rw [e, scanLines_fileOf_append pre _ hpre, scanLines_fileOf_append pre post hpre,
      scanLines_line _ _ hl, if_pos hf]
    by_cases hall : pre.all fitsScanner = true
    · rw [if_pos hall, if_pos hall]
      exact scan_ignored _ _ _ hd ht hs
    · rw [if_neg hall, if_neg hall]
  · rw [scanLines_fileOf_append pre l hpre, scanLines_fileOf pre hpre, scanLines_last l hl]
    by_cases hall : pre.all fitsScanner = true
    · rw [if_pos hall]
      by_cases hne : l ≠ ""
      · rw [if_pos ⟨hne, hf⟩]
        have := scan_ignored (List.map dropCR (List.takeWhile fitsScanner pre)) [] _ hd ht hs
        rw [this, List.append_nil]
      · rw [if_neg (fun h => hne h.1), List.append_nil]
    · rw [if_neg hall, List.append_nil]

/-- C13, counterexample. The line `longLine` has 70000 bytes and matches none of the three
patterns; in the file `tripLong` it follows two samples `1` and precedes the samples `30`
and `40`.  The scanner stops at it: the lines read are the first two, and the average speed
is `1`, where the file without the line gives `18`. -/
theorem C13_counterexample :
    destRe longLine = none ∧ tableRe longLine = none ∧ speedRe longLine = none ∧
    longLine.utf8ByteSize = 70000 ∧
    scanLines tripLong = ["Speed: 1 mph", "Speed: 1 mph"] ∧
    (analyzeFile id (scanLines tripLong)).map Result.AverageSpeed = some (F64.fin 1) ∧
    (analyzeFile id (scanLines (fileOf ["Speed: 1 mph", "Speed: 1 mph"] ++
      fileOf ["Speed: 30 mph", "Speed: 40 mph"]))).map Result.AverageSpeed =
      some (F64.fin 18) := by
  have h : scanLines tripLong = ["Speed: 1 mph", "Speed: 1 mph"] := by
    unfold tripLong
    rw [scanLines_long _ _ _ (by decide!) longLine_no_lf longLine_long]
    decide!
  refine ⟨longLine_no_match.1, longLine_no_match.2.1, longLine_no_match.2.2, longLine_size,
    h, ?_, by decide!⟩
  rw [h]
  decide!

/-- C13, amended. Inserting anywhere a line of fewer than `64 * 1024` bytes whose text
matches none of the three patterns, or matches the speed pattern alone with a token that
does not parse, leaves the variables of the scanning loop (destination, metadata table,
samples in file order, sum, maximum, occurrence counts) and the result of `analyzeFile` as
they are without the line, whether the line ends with a line feed or ends the file (a line
feed at the end of a file changes nothing in the lines read).  A line of `64 * 1024` bytes
or more ends the scan: the result is that of the lines before it; a line of 65535 bytes
fits, one of 65536 bytes does not.  The lines read are the texts between the line feeds,
without a final carriage return. -/
theorem C13_short_ignored_lines_change_nothing (trav : List (ℤ × ℕ) → List (ℤ × ℕ))
    (pre : List String) (l post : String)
    (hpre : ∀ p ∈ pre, '\n' ∉ p.toList) (hl : '\n' ∉ l.toList)
    (hfit : l.utf8ByteSize < maxScanTokenSize)
    (hd : destRe (dropCR l) = none) (ht : tableRe (dropCR l) = none)
    (hs : speedRe (dropCR l) = none ∨
      ∃ tok, speedRe (dropCR l) = some tok ∧ parseFloat tok = none) :
    (scan (scanLines (fileOf pre ++ l ++ "\n" ++ post)) = scan (scanLines (fileOf pre ++ post)) ∧
      analyzeFile trav (scanLines (fileOf pre ++ l ++ "\n" ++ post)) =
        analyzeFile trav (scanLines (fileOf pre ++ post))) ∧
    (scan (scanLines (fileOf pre ++ l)) = scan (scanLines (fileOf pre)) ∧
      analyzeFile trav (scanLines (fileOf pre ++ l)) = analyzeFile trav (scanLines (fileOf pre))) ∧
    (∀ c : String, c ≠ "" → c.toList.getLast? ≠ some '\n' →
      scanLines (c ++ "\n") = scanLines c) ∧
    (∀ long : String, '\n' ∉ long.toList → maxScanTokenSize ≤ long.utf8ByteSize →
      scanLines (fileOf pre ++ long ++ "\n" ++ post) = scanLines (fileOf pre) ∧
      analyzeFile trav (scanLines (fileOf pre ++ long ++ "\n" ++ post)) =
        analyzeFile trav (scanLines (fileOf pre))) ∧
    (maxScanTokenSize = 65536 ∧
      fitsScanner (String.mk (List.replicate 65535 'x')) = true ∧
      fitsScanner (String.mk (List.replicate 65536 'x')) = false ∧
      scanLines "Speed: 1 mph\r\n\nSpeed: 2 mph" = ["Speed: 1 mph", "", "Speed: 2 mph"] ∧
      scanLines "Speed: 1 mph\n" = ["Speed: 1 mph"] ∧ scanLines "" = []) := by
  obtain ⟨h1, h2⟩ := scan_scanLines_ignored pre l post hpre hl hfit hd ht hs
  refine ⟨⟨h1, analyzeFile_congr h1⟩, ⟨h2, analyzeFile_congr h2⟩, scanLines_final_lf, ?_,
    by decide, ?_, ?_, by decide!, by decide!, by decide!⟩
  · intro long hlf hlong
    have h3 := scanLines_long pre long post hpre hlf hlong
    exact ⟨h3, by rw [h3]⟩
  · unfold fitsScanner
    rw [utf8ByteSize_replicate]
    decide
  · unfold fitsScanner
    rw [utf8ByteSize_replicate]
    decide

/-- Witness of C13: the lines `Speed: abc mph` and `Speed: 1.2.3 mph` inserted in the file
of `tripSlow`. -/
theorem C13_witness :
    (destRe (dropCR "Speed: abc mph") = none ∧ tableRe (dropCR "Speed: abc mph") = none ∧
      speedRe (dropCR "Speed: abc mph") = none ∧
      analyzeFile id (scanLines (fileOf ["Speed: 0 mph", "Speed: 10 mph"] ++
        "Speed: abc mph" ++ "\n" ++ "Speed: 30 mph\nSpeed: 0 mph\n")) = some tripSlowResult) ∧
    (destRe (dropCR "Speed: 1.2.3 mph") = none ∧ tableRe (dropCR "Speed: 1.2.3 mph") = none ∧
      speedRe (dropCR "Speed: 1.2.3 mph") = some "1.2.3" ∧ parseFloat "1.2.3" = none ∧
      analyzeFile id (scanLines (fileOf ["Speed: 0 mph", "Speed: 10 mph"] ++
        "Speed: 1.2.3 mph" ++ "\n" ++ "Speed: 30 mph\nSpeed: 0 mph\n")) = some tripSlowResult) :=
  ⟨⟨by decide!, by decide!, by decide!,
      (C13_short_ignored_lines_change_nothing id ["Speed: 0 mph", "Speed: 10 mph"]
        "Speed: abc mph" "Speed: 30 mph\nSpeed: 0 mph\n" (by decide!) (by decide!) (by decide!)
        (by decide!) (by decide!) (Or.inl (by decide!))).1.2.trans (by decide!)⟩,
    ⟨by decide!, by decide!, by decide!, by decide!,
      (C13_short_ignored_lines_change_nothing id ["Speed: 0 mph", "Speed: 10 mph"]
        "Speed: 1.2.3 mph" "Speed: 30 mph\nSpeed: 0 mph\n" (by decide!) (by decide!)
        (by decide!) (by decide!) (by decide!)
        (Or.inr ⟨"1.2.3", by decide!, by decide!⟩)).1.2.trans (by decide!)⟩⟩

/-- C9, amended. The destination is the value captured from the first line with a non-empty
value among the lines that are read and match the destination pattern, and the empty string
if there is no such line; once a non-empty destination is latched no later line changes it.
The lines read are those of the file (without a final carriage return) when each has fewer
than `64 * 1024` bytes, and the lines before the first of `64 * 1024` bytes or more
otherwise: in `tripLongName` the destination line `B` follows such a line and the
destination is empty. -/
theorem C9_destination_first_non_empty (trav : List (ℤ × ℕ) → List (ℤ × ℕ))
    (content : String) :
    (scan (scanLines content)).dest =
      (((scanLines content).filterMap destRe).find? (fun v => decide (v ≠ ""))).getD "" ∧
    (∀ r, analyzeFile trav (scanLines content) = some r →
      r.Destination = (scan (scanLines content)).dest) ∧
    (∀ lines more : List String, (scan lines).dest ≠ "" →
      (scan (lines ++ more)).dest = (scan lines).dest) ∧
    (∀ ls : List String, (∀ p ∈ ls, '\n' ∉ p.toList ∧ p.utf8ByteSize < maxScanTokenSize) →
      scanLines (fileOf ls) = ls.map dropCR) ∧
    (∀ (pre : List String) (l post : String), (∀ p ∈ pre, '\n' ∉ p.toList) →
      '\n' ∉ l.toList → maxScanTokenSize ≤ l.utf8ByteSize →
      scanLines (fileOf pre ++ l ++ "\n" ++ post) = scanLines (fileOf pre)) ∧
    (maxScanTokenSize = 65536 ∧ dropCR "        <name>B</name>\r" = "        <name>B</name>" ∧
      destRe "        <name>B</name>" = some "B" ∧
      scanLines tripLongName = ["Speed: 1 mph", "Speed: 2 mph"] ∧
      (analyzeFile trav (scanLines tripLongName)).map Result.Destination = some "") := by
  refine ⟨scan_dest _, ?_, scan_dest_latched, ?_, scanLines_long, by decide, by decide!,
    by decide!, ?_⟩
  · intro r hr
    obtain ⟨_, _, h, _⟩ := analyzeFile_some hr
    exact h
  · intro ls hls
    rw [scanLines_fileOf ls (fun p hp => (hls p hp).1)]
    have : ls.takeWhile fitsScanner = ls := by
      rw [List.takeWhile_eq_self_iff]
      intro p hp
      unfold fitsScanner
      exact decide_eq_true (hls p hp).2
    rw [this]
  · have h : scanLines tripLongName = ["Speed: 1 mph", "Speed: 2 mph"] := by
      unfold tripLongName
      rw [scanLines_long _ _ _ (by decide!) longLine_no_lf longLine_long]
      decide!
    refine ⟨h, ?_⟩
    rw [h, analyzeFile_eq]
    have hm : midSection (scan ["Speed: 1 mph", "Speed: 2 mph"]).speeds = some [] := by decide!
    rw [hm]
    have hdst : (scan ["Speed: 1 mph", "Speed: 2 mph"]).dest = "" := by decide!
    simp only [Option.map_some', hdst]

/-! ### sort.Slice: exchanges within a range -/

theorem getElem?_eq_some_getI {α : Type} [Inhabited α] (xs : List α) (i : ℕ) (h : i < xs.length) :
    xs[i]? = some (xs.getI i) := by
  rw [List.getI_eq_getElem xs h]
  exact List.getElem?_eq_getElem h

theorem lessAt_eq {α : Type} [Inhabited α] (less : α → α → Bool) (xs : List α) (i j : ℕ) (hi : i < xs.length)
    (hj : j < xs.length) : lessAt less xs i j = some (less (xs.getI i) (xs.getI j)) := by
  unfold lessAt
  rw [getElem?_eq_some_getI _ _ hi, getElem?_eq_some_getI _ _ hj]

theorem getI_set {α : Type} [Inhabited α] (xs : List α) (i k : ℕ) (v : α) (hi : i < xs.length) :
    (xs.set i v).getI k = if k = i then v else xs.getI k := by
  rw [List.getI_eq_iget_getElem?, List.getI_eq_iget_getElem?, List.getElem?_set]
  by_cases h : i = k
  · subst h
    simp [hi]
  · have h2 : ¬ k = i := fun e => h e.symm
    simp [h, h2]

theorem perm_cons_set {α : Type} (h : α) : ∀ (t : List α) (j : ℕ) (y : α), t[j]? = some y →
    (y :: t.set j h).Perm (h :: t) := by
  intro t
  induction t with
  | nil => intro j y hy; simp at hy
  | cons h2 t2 ih =>
    intro j y hy
    cases j with
    | zero =>
      simp only [List.getElem?_cons_zero, Option.some.injEq] at hy
      subst hy
      simp only [List.set_cons_zero]
      exact List.Perm.swap _ _ _
    | succ k =>
      simp only [List.getElem?_cons_succ] at hy
      simp only [List.set_cons_succ]
      exact ((List.Perm.swap h2 y _).trans ((ih k y hy).cons h2)).trans (List.Perm.swap _ _ _)

theorem perm_set_set {α : Type} : ∀ (xs : List α) (i j : ℕ) (x y : α), xs[i]? = some x →
    xs[j]? = some y → ((xs.set i y).set j x).Perm xs := by
  intro xs
  induction xs with
  | nil => intro i j x y hx; simp at hx
  | cons h t ih =>
    intro i j x y hx hy
    cases i with
    | zero =>
      simp only [List.getElem?_cons_zero, Option.some.injEq] at hx
      subst hx
      cases j with
      | zero =>
        simp only [List.getElem?_cons_zero, Option.some.injEq] at hy
        subst hy
        simp
      | succ k =>
        simp only [List.getElem?_cons_succ] at hy
        simp only [List.set_cons_zero, List.set_cons_succ]
        exact perm_cons_set _ t k y hy
    | succ i2 =>
      simp only [List.getElem?_cons_succ] at hx
      cases j with
      | zero =>
        simp only [List.getElem?_cons_zero, Option.some.injEq] at hy
        subst hy
        simp only [List.set_cons_zero, List.set_cons_succ]
        exact perm_cons_set _ t i2 x hx
      | succ k =>
        simp only [List.getElem?_cons_succ] at hy
        simp only [List.set_cons_succ]
        exact (ih i2 k x y hx hy).cons h

/-- An exchange of two elements of the slice. -/
theorem swapAt_spec {α : Type} [Inhabited α] (xs : List α) (i j : ℕ) (hi : i < xs.length) (hj : j < xs.length) :
    ∃ ys, swapAt xs i j = some ys ∧ ys.length = xs.length ∧ ys.Perm xs ∧
      ys.getI i = xs.getI j ∧ ys.getI j = xs.getI i ∧
      ∀ k, k ≠ i → k ≠ j → ys.getI k = xs.getI k := by
  refine ⟨(xs.set i (xs.getI j)).set j (xs.getI i), ?_, ?_, ?_, ?_, ?_, ?_⟩
  · unfold swapAt
    rw [getElem?_eq_some_getI _ _ hi, getElem?_eq_some_getI _ _ hj]
  · simp
  · exact perm_set_set xs i j _ _ (getElem?_eq_some_getI _ _ hi) (getElem?_eq_some_getI _ _ hj)
  · rw [getI_set _ _ _ _ (by simpa using hj), getI_set _ _ _ _ hi]
    by_cases h : i = j
    · simp [h]
    · simp [h]
  · rw [getI_set _ _ _ _ (by simpa using hj)]
    simp
  · intro k hki hkj
    rw [getI_set _ _ _ _ (by simpa using hj), getI_set _ _ _ _ hi]
    simp [hki, hkj]

theorem within_refl {α : Type} [Inhabited α] (a b : ℕ) (xs : List α) : Within a b xs xs :=
  ⟨rfl, List.Perm.refl _, fun _ _ => rfl, fun i hi hb => ⟨i, hi, hb, rfl⟩⟩

theorem within_trans {α : Type} [Inhabited α] {a b : ℕ} {xs ys zs : List α} (h1 : Within a b xs ys)
    (h2 : Within a b ys zs) : Within a b xs zs := by
  obtain ⟨l1, p1, o1, i1⟩ := h1
  obtain ⟨l2, p2, o2, i2⟩ := h2
  refine ⟨l2.trans l1, p2.trans p1, fun i hi => (o2 i hi).trans (o1 i hi), ?_⟩
  intro i hi hb
  obtain ⟨j, hj, hjb, e⟩ := i2 i hi hb
  obtain ⟨k, hk, hkb, e2⟩ := i1 j hj hjb
  exact ⟨k, hk, hkb, e.trans e2⟩

theorem within_mono {α : Type} [Inhabited α] {a b a2 b2 : ℕ} {xs ys : List α} (h : Within a b xs ys) (ha : a2 ≤ a)
    (hb : b ≤ b2) : Within a2 b2 xs ys := by
  obtain ⟨l1, p1, o1, i1⟩ := h
  refine ⟨l1, p1, fun i hi => o1 i (by omega), ?_⟩
  intro i hi hib
  by_cases hin : a ≤ i ∧ i < b
  · obtain ⟨j, hj, hjb, e⟩ := i1 i hin.1 hin.2
    exact ⟨j, by omega, by omega, e⟩
  · exact ⟨i, hi, hib, o1 i (by omega)⟩

/-- A property of all the elements of the range is kept. -/
theorem within_forall {α : Type} [Inhabited α] {a b : ℕ} {xs ys : List α} (h : Within a b xs ys) (P : α → Prop)
    (hP : ∀ i, a ≤ i → i < b → P (xs.getI i)) : ∀ i, a ≤ i → i < b → P (ys.getI i) := by
  intro i hi hb
  obtain ⟨j, hj, hjb, e⟩ := h.2.2.2 i hi hb
  rw [e]
  exact hP j hj hjb

theorem swapAt_within {α : Type} [Inhabited α] (xs : List α) (a b i j : ℕ) (hb : b ≤ xs.length) (hai : a ≤ i)
    (hib : i < b) (haj : a ≤ j) (hjb : j < b) :
    ∃ ys, swapAt xs i j = some ys ∧ Within a b xs ys ∧
      ys.getI i = xs.getI j ∧ ys.getI j = xs.getI i ∧
      ∀ k, k ≠ i → k ≠ j → ys.getI k = xs.getI k := by
  obtain ⟨ys, h1, h2, h3, h4, h5, h6⟩ := swapAt_spec xs i j (by omega) (by omega)
  refine ⟨ys, h1, ⟨h2, h3, ?_, ?_⟩, h4, h5, h6⟩
  · intro k hk
    exact h6 k (by omega) (by omega)
  · intro k hk hkb
    by_cases hki : k = i
    · exact ⟨j, haj, hjb, by rw [hki, h4]⟩
    · by_cases hkj : k = j
      · exact ⟨i, hai, hib, by rw [hkj, h5]⟩
      · exact ⟨k, hk, hkb, h6 k hki hkj⟩

/-! ### sort.Slice: sorting by insertion -/

theorem insertionSort_inner_spec {α κ : Type} [Inhabited α] [LinearOrder κ] (key : α → κ)
    (less : α → α → Bool) (hless : ∀ x y, less x y = true ↔ key x < key y) (a i : ℕ) :
    ∀ (j : ℕ) (xs : List α), a ≤ j → j ≤ i → i < xs.length →
      (∀ p q, a ≤ p → p ≤ q → q ≤ i → p ≠ j → q ≠ j → key (xs.getI p) ≤ key (xs.getI q)) →
      (∀ q, j < q → q ≤ i → key (xs.getI j) ≤ key (xs.getI q)) →
      ∃ ys, insertionSort_inner less a j xs = some ys ∧ Within a (i + 1) xs ys ∧
        SortedOn key ys a (i + 1) := by
  intro j
  induction j with
  | zero =>
    intro xs ha hji hlen h1 h2
    refine ⟨xs, rfl, within_refl _ _ _, ?_⟩
    intro p q hp hpq hq
    by_cases hp0 : p = 0
    · subst hp0
      by_cases hq0 : q = 0
      · subst hq0; exact le_refl _
      · exact h2 q (by omega) (by omega)
    · exact h1 p q hp hpq (by omega) hp0 (by omega)
  | succ j ih =>
    intro xs ha hji hlen h1 h2
    unfold insertionSort_inner
    by_cases haj : a < j + 1
    · rw [if_pos haj, lessAt_eq less xs (j + 1) j (by omega) (by omega)]
      cases hl : less (xs.getI (j + 1)) (xs.getI j) with
      | true =>
        have hlt : key (xs.getI (j + 1)) < key (xs.getI j) := (hless _ _).mp hl
        obtain ⟨ys, hs, hw, e1, e2, e3⟩ :=
          swapAt_within xs a (i + 1) (j + 1) j (by omega) (by omega) (by omega) (by omega)
            (by omega)
        have hlen2 : i < ys.length := by rw [hw.1]; exact hlen
        have k1 : ∀ p q, a ≤ p → p ≤ q → q ≤ i → p ≠ j → q ≠ j →
            key (ys.getI p) ≤ key (ys.getI q) := by
          intro p q hp hpq hq hpj hqj
          by_cases hp1 : p = j + 1
          · by_cases hq1 : q = j + 1
            · rw [hp1, hq1]
            · rw [hp1, e1, e3 q hq1 hqj]
              exact h1 j q (by omega) (by omega) hq (by omega) hq1
          · rw [e3 p hp1 hpj]
            by_cases hq1 : q = j + 1
            · rw [hq1, e1]
              exact h1 p j hp (by omega) (by omega) hp1 (by omega)
            · rw [e3 q hq1 hqj]
              exact h1 p q hp hpq hq hp1 hq1
        have k2 : ∀ q, j < q → q ≤ i → key (ys.getI j) ≤ key (ys.getI q) := by
          intro q hjq hq
          rw [e2]
          by_cases hq1 : q = j + 1
          · rw [hq1, e1]
            exact le_of_lt hlt
          · rw [e3 q hq1 (by omega)]
            exact h2 q (by omega) hq
        obtain ⟨zs, hz, hw2, hsorted⟩ := ih ys (by omega) (by omega) hlen2 k1 k2
        refine ⟨zs, ?_, within_trans hw hw2, hsorted⟩
        simp only [hs, Option.some_bind]
        exact hz
      | false =>
        have hle : key (xs.getI j) ≤ key (xs.getI (j + 1)) := by
          have : ¬ key (xs.getI (j + 1)) < key (xs.getI j) := by
            intro h
            rw [(hless _ _).mpr h] at hl
            cases hl
          exact not_lt.mp this
        refine ⟨xs, rfl, within_refl _ _ _, ?_⟩
        intro p q hp hpq hq
        by_cases hp1 : p = j + 1
        · by_cases hq1 : q = j + 1
          · rw [hp1, hq1]
          · rw [hp1]
            exact h2 q (by omega) (by omega)
        · by_cases hq1 : q = j + 1
          · by_cases hpj : p = j
            · rw [hq1, hpj]; exact hle
            · rw [hq1]
              exact le_trans (h1 p j hp (by omega) (by omega) hp1 (by omega)) hle
          · exact h1 p q hp hpq (by omega) hp1 hq1
    · rw [if_neg haj]
      refine ⟨xs, rfl, within_refl _ _ _, ?_⟩
      intro p q hp hpq hq
      by_cases hp1 : p = j + 1
      · by_cases hq1 : q = j + 1
        · rw [hp1, hq1]
        · rw [hp1]
          exact h2 q (by omega) (by omega)
      · exact h1 p q hp hpq (by omega) hp1 (by omega)

theorem insertionSort_outer_spec {α κ : Type} [Inhabited α] [LinearOrder κ] (key : α → κ)
    (less : α → α → Bool) (hless : ∀ x y, less x y = true ↔ key x < key y) (a : ℕ) :
    ∀ (n i : ℕ) (xs : List α), a ≤ i → i + n ≤ xs.length → SortedOn key xs a i →
      ∃ ys, insertionSort_outer less a n i xs = some ys ∧ Within a (i + n) xs ys ∧
        SortedOn key ys a (i + n) := by
  intro n
  induction n with
  | zero =>
    intro i xs _ _ hs
    exact ⟨xs, rfl, within_refl _ _ _, hs⟩
  | succ n ih =>
    intro i xs hai hlen hs
    obtain ⟨ys, hy, hw, hsorted⟩ := insertionSort_inner_spec key less hless a i i xs hai
      (le_refl _) (by omega)
      (fun p q hp hpq hq hpi hqi => hs p q hp hpq (by omega))
      (fun q h1 h2 => absurd h1 (by omega))
    obtain ⟨zs, hz, hw2, hsorted2⟩ := ih (i + 1) ys (by omega) (by rw [hw.1]; omega) hsorted
    have e : i + 1 + n = i + (n + 1) := by omega
    rw [e] at hw2 hsorted2
    refine ⟨zs, ?_, within_trans (within_mono hw (le_refl _) (by omega)) hw2, hsorted2⟩
    unfold insertionSort_outer
    simp only [hy, Option.some_bind]
    exact hz

/-- The function `insertionSort_func` sorts `data[a:b]`. -/
theorem insertionSort_func_spec {α κ : Type} [Inhabited α] [LinearOrder κ] (key : α → κ)
    (less : α → α → Bool) (hless : ∀ x y, less x y = true ↔ key x < key y)
    (xs : List α) (a b : ℕ) (hab : a ≤ b) (hb : b ≤ xs.length) :
    ∃ ys, insertionSort_func less xs a b = some ys ∧ Within a b xs ys ∧
      SortedOn key ys a b := by
  unfold insertionSort_func
  by_cases h : b ≤ a + 1
  · have e : b - (a + 1) = 0 := by omega
    rw [e]
    refine ⟨xs, rfl, within_refl _ _ _, ?_⟩
    intro i j hi hij hj
    have : i = j := by omega
    rw [this]
  · obtain ⟨ys, hy, hw, hs⟩ := insertionSort_outer_spec key less hless a (b - (a + 1)) (a + 1)
      xs (by omega) (by omega)
      (by
        intro i j hi hij hj
        have : i = j := by omega
        rw [this])
    have e : a + 1 + (b - (a + 1)) = b := by omega
    rw [e] at hw hs
    exact ⟨ys, hy, hw, hs⟩

/-! ### sort.Slice: sorting with a heap -/

theorem less_false_iff {α κ : Type} [LinearOrder κ] (key : α → κ)
    (less : α → α → Bool) (hless : ∀ x y, less x y = true ↔ key x < key y) (x y : α) :
    less x y = false ↔ key y ≤ key x := by
  rw [← not_lt, ← hless, Bool.not_eq_true]

theorem siftDown_spec {α κ : Type} [Inhabited α] [LinearOrder κ] (key : α → κ)
    (less : α → α → Bool) (hless : ∀ x y, less x y = true ↔ key x < key y)
    (hi first lo : ℕ) :
    ∀ (fuel root : ℕ) (xs : List α), hi - root < fuel → lo ≤ root → first + hi ≤ xs.length →
      (∀ r, lo ≤ r → r < hi → r ≠ root → HeapAt key xs first hi r) →
      (∀ p, lo ≤ p → (root = 2 * p + 1 ∨ root = 2 * p + 2) →
        ∀ c, (c = 2 * root + 1 ∨ c = 2 * root + 2) → c < hi →
          key (xs.getI (first + c)) ≤ key (xs.getI (first + p))) →
      ∃ ys, siftDown_func less hi first fuel root xs = some ys ∧
        Within (first + lo) (first + hi) xs ys ∧
        ∀ r, lo ≤ r → r < hi → HeapAt key ys first hi r := by
  intro fuel
  induction fuel with
  | zero => intro root xs h; omega
  | succ fuel ih =>
    intro root xs hfuel hlo hlen h1 h2
    unfold siftDown_func
    by_cases hc : hi ≤ 2 * root + 1
    · rw [if_pos hc]
      refine ⟨xs, rfl, within_refl _ _ _, ?_⟩
      intro r hr hrh
      by_cases hrr : r = root
      · intro c hcc hch
        omega
      · exact h1 r hr hrh hrr
    · rw [if_neg hc]
      have hsel : ∃ c, (if 2 * root + 1 + 1 < hi then
            (lessAt less xs (first + (2 * root + 1)) (first + (2 * root + 1) + 1)).map
              (fun lt => if lt then 2 * root + 1 + 1 else 2 * root + 1)
          else some (2 * root + 1)) = some c ∧ (c = 2 * root + 1 ∨ c = 2 * root + 2) ∧ c < hi ∧
          ∀ d, (d = 2 * root + 1 ∨ d = 2 * root + 2) → d < hi →
            key (xs.getI (first + d)) ≤ key (xs.getI (first + c)) := by
        by_cases h2c : 2 * root + 1 + 1 < hi
        · rw [if_pos h2c, lessAt_eq less xs _ _ (by omega) (by omega)]
          have e : first + (2 * root + 1) + 1 = first + (2 * root + 2) := by omega
          rw [e]
          cases hl : less (xs.getI (first + (2 * root + 1))) (xs.getI (first + (2 * root + 2))) with
          | true =>
            refine ⟨2 * root + 1 + 1, rfl, Or.inr rfl, h2c, ?_⟩
            intro d hd hdh
            rcases hd with hd | hd
            · rw [hd]
              exact le_of_lt ((hless _ _).mp hl)
            · rw [hd]
          | false =>
            refine ⟨2 * root + 1, rfl, Or.inl rfl, by omega, ?_⟩
            intro d hd hdh
            rcases hd with hd | hd
            · rw [hd]
            · rw [hd]
              exact (less_false_iff key less hless _ _).mp hl
        · rw [if_neg h2c]
          refine ⟨2 * root + 1, rfl, Or.inl rfl, by omega, ?_⟩
          intro d hd hdh
          rcases hd with hd | hd
          · rw [hd]
          · omega
      obtain ⟨c, hsc, hcc, hch, hmax⟩ := hsel
      rw [hsc]
      simp only [Option.some_bind]
      rw [lessAt_eq less xs _ _ (by omega) (by omega)]
      simp only [Option.some_bind]
      cases hl : less (xs.getI (first + root)) (xs.getI (first + c)) with
      | false =>
        have hle := (less_false_iff key less hless _ _).mp hl
        refine ⟨xs, by simp, within_refl _ _ _, ?_⟩
        intro r hr hrh
        by_cases hrr : r = root
        · subst hrr
          intro d hd hdh
          exact le_trans (hmax d hd hdh) hle
        · exact h1 r hr hrh hrr
      | true =>
        have hlt := (hless _ _).mp hl
        obtain ⟨ys, hs, hw, e1, e2, e3⟩ :=
          swapAt_within xs (first + lo) (first + hi) (first + root) (first + c) hlen (by omega)
            (by omega) (by omega) (by omega)
        have k1 : ∀ r, lo ≤ r → r < hi → r ≠ c → HeapAt key ys first hi r := by
          intro r hr hrh hrc
          by_cases hrr : r = root
          · subst hrr
            intro d hd hdh
            rw [e1]
            by_cases hdc : d = c
            · rw [hdc, e2]
              exact le_of_lt hlt
            · rw [e3 (first + d) (by omega) (by omega)]
              exact hmax d hd hdh
          · intro d hd hdh
            rw [e3 (first + r) (by omega) (by omega)]
            by_cases hdr : d = root
            · rw [hdr, e1]
              have := h2 r hr (by omega) c hcc hch
              exact this
            · rw [e3 (first + d) (by omega) (by omega)]
              exact h1 r hr hrh hrr d hd hdh
        have k2 : ∀ p, lo ≤ p → (c = 2 * p + 1 ∨ c = 2 * p + 2) →
            ∀ d, (d = 2 * c + 1 ∨ d = 2 * c + 2) → d < hi →
              key (ys.getI (first + d)) ≤ key (ys.getI (first + p)) := by
          intro p hp hpc d hd hdh
          have hpr : p = root := by omega
          rw [hpr, e1, e3 (first + d) (by omega) (by omega)]
          exact h1 c (by omega) hch (by omega) d hd hdh
        obtain ⟨zs, hz, hw2, hheap⟩ := ih c ys (by omega) (by omega) (by rw [hw.1]; exact hlen)
          k1 k2
        refine ⟨zs, ?_, within_trans hw hw2, hheap⟩
        simp only [if_true, hs, Option.some_bind]
        exact hz

/-- In a heap the root is not less than any element. -/
theorem heap_root_max {α κ : Type} [Inhabited α] [LinearOrder κ] (key : α → κ) (xs : List α)
    (first hi : ℕ) (h : ∀ r, r < hi → HeapAt key xs first hi r) :
    ∀ r, r < hi → key (xs.getI (first + r)) ≤ key (xs.getI (first + 0)) := by
  intro r
  induction r using Nat.strong_induction_on with
  | _ r ih =>
    intro hr
    by_cases h0 : r = 0
    · rw [h0]
    · have hp : (r - 1) / 2 < r := by omega
      have := h ((r - 1) / 2) (by omega) r (by omega) hr
      exact le_trans this (ih _ hp (by omega))

theorem heapSort_build_spec {α κ : Type} [Inhabited α] [LinearOrder κ] (key : α → κ)
    (less : α → α → Bool) (hless : ∀ x y, less x y = true ↔ key x < key y)
    (hi first : ℕ) :
    ∀ (n : ℕ) (xs : List α), first + hi ≤ xs.length →
      (∀ r, n ≤ r → r < hi → HeapAt key xs first hi r) →
      ∃ ys, heapSort_build less hi first n xs = some ys ∧ Within first (first + hi) xs ys ∧
        ∀ r, r < hi → HeapAt key ys first hi r := by
  intro n
  induction n with
  | zero =>
    intro xs _ h
    exact ⟨xs, rfl, within_refl _ _ _, fun r hr => h r (Nat.zero_le _) hr⟩
  | succ n ih =>
    intro xs hlen h
    obtain ⟨ys, hy, hw, hh⟩ := siftDown_spec key less hless hi first n (hi + 1) n xs (by omega)
      (le_refl _) hlen (fun r hr hrh hrn => h r (by omega) hrh)
      (fun p hp hpn => by omega)
    obtain ⟨zs, hz, hw2, hh2⟩ := ih ys (by rw [hw.1]; exact hlen) hh
    refine ⟨zs, ?_, within_trans (within_mono hw (by omega) (le_refl _)) hw2, hh2⟩
    unfold heapSort_build
    simp only [hy, Option.some_bind]
    exact hz

theorem heapSort_pop_spec {α κ : Type} [Inhabited α] [LinearOrder κ] (key : α → κ)
    (less : α → α → Bool) (hless : ∀ x y, less x y = true ↔ key x < key y)
    (first hi : ℕ) :
    ∀ (n : ℕ) (xs : List α), n ≤ hi → first + hi ≤ xs.length →
      (∀ r, r < n → HeapAt key xs first n r) →
      SortedOn key xs (first + n) (first + hi) →
      (∀ r s, r < n → n ≤ s → s < hi →
        key (xs.getI (first + r)) ≤ key (xs.getI (first + s))) →
      ∃ ys, heapSort_pop less first n xs = some ys ∧ Within first (first + hi) xs ys ∧
        SortedOn key ys first (first + hi) := by
  intro n
  induction n with
  | zero =>
    intro xs _ _ _ hs _
    exact ⟨xs, rfl, within_refl _ _ _, by simpa using hs⟩
  | succ n ih =>
    intro xs hn hlen hheap hs hle
    obtain ⟨ys, hy, hw, e1, e2, e3⟩ :=
      swapAt_within xs first (first + hi) first (first + n) hlen (le_refl _) (by omega)
        (by omega) (by omega)
    have hmax := heap_root_max key xs first (n + 1) hheap
    have k1 : ∀ r, 0 ≤ r → r < n → r ≠ 0 → HeapAt key ys first n r := by
      intro r _ hr hr0 c hc hcn
      rw [e3 (first + c) (by omega) (by omega), e3 (first + r) (by omega) (by omega)]
      exact hheap r (by omega) c hc (by omega)
    obtain ⟨zs, hz, hw2, hheap2⟩ := siftDown_spec key less hless n first 0 (n + 1) 0 ys
      (by omega) (le_refl _) (by rw [hw.1]; omega) k1 (fun p _ hp => by omega)
    have hw2b : Within first (first + n) ys zs := by simpa using hw2
    have zout : ∀ s, n ≤ s → zs.getI (first + s) = ys.getI (first + s) :=
      fun s hs => hw2b.2.2.1 (first + s) (by omega)
    have yin : ∀ r, r < n + 1 → key (ys.getI (first + r)) ≤ key (xs.getI (first + 0)) := by
      intro r hr
      by_cases hr0 : r = 0
      · rw [hr0, Nat.add_zero, e1]
        exact hmax n (by omega)
      · by_cases hrn : r = n
        · rw [hrn, e2]
          exact le_refl _
        · rw [e3 (first + r) (by omega) (by omega)]
          exact hmax r hr
    have yle : ∀ r s, r < n + 1 → n + 1 ≤ s → s < hi →
        key (ys.getI (first + r)) ≤ key (xs.getI (first + s)) := by
      intro r s hr hs1 hs2
      by_cases hr0 : r = 0
      · rw [hr0, Nat.add_zero, e1]
        exact hle n s (by omega) hs1 hs2
      · by_cases hrn : r = n
        · rw [hrn, e2]
          exact hle 0 s (by omega) hs1 hs2
        · rw [e3 (first + r) (by omega) (by omega)]
          exact hle r s hr hs1 hs2
    have zin : ∀ r, r < n → ∃ r2, r2 < n ∧ zs.getI (first + r) = ys.getI (first + r2) := by
      intro r hr
      obtain ⟨j, hj1, hj2, e⟩ := hw2b.2.2.2 (first + r) (by omega) (by omega)
      exact ⟨j - first, by omega, by rw [e]; congr 1; omega⟩
    have k3 : SortedOn key zs (first + n) (first + hi) := by
      intro i j hi1 hij hj
      by_cases hin : i = first + n
      · by_cases hjn : j = first + n
        · rw [hin, hjn]
        · rw [hin, zout n (le_refl _), e2]
          have ej : j = first + (j - first) := by omega
          rw [ej, zout (j - first) (by omega), e3 (first + (j - first)) (by omega) (by omega)]
          exact hle 0 (j - first) (by omega) (by omega) (by omega)
      · have ei : i = first + (i - first) := by omega
        have ej : j = first + (j - first) := by omega
        rw [ei, ej, zout (i - first) (by omega), zout (j - first) (by omega),
          e3 (first + (i - first)) (by omega) (by omega),
          e3 (first + (j - first)) (by omega) (by omega)]
        exact hs _ _ (by omega) (by omega) (by omega)
    have k4 : ∀ r s, r < n → n ≤ s → s < hi →
        key (zs.getI (first + r)) ≤ key (zs.getI (first + s)) := by
      intro r s hr hs1 hs2
      obtain ⟨r2, hr2, e⟩ := zin r hr
      rw [e, zout s hs1]
      by_cases hsn : s = n
      · rw [hsn, e2]
        have := yin r2 (by omega)
        simpa using this
      · rw [e3 (first + s) (by omega) (by omega)]
        exact yle r2 s (by omega) (by omega) hs2
    obtain ⟨ws, hwz, hw3, hsorted⟩ := ih zs (by omega)
      (by rw [hw2.1, hw.1]; exact hlen) (fun r hr => hheap2 r (Nat.zero_le _) hr) k3 k4
    refine ⟨ws, ?_, within_trans hw (within_trans (within_mono hw2b (le_refl _) (by omega)) hw3),
      hsorted⟩
    unfold heapSort_pop
    simp only [hy, Option.some_bind, hz]
    exact hwz

/-- The function `heapSort_func` sorts `data[a:b]`. -/
theorem heapSort_func_spec {α κ : Type} [Inhabited α] [LinearOrder κ] (key : α → κ)
    (less : α → α → Bool) (hless : ∀ x y, less x y = true ↔ key x < key y)
    (xs : List α) (a b : ℕ) (hab : a ≤ b) (hb : b ≤ xs.length) :
    ∃ ys, heapSort_func less xs a b = some ys ∧ Within a b xs ys ∧ SortedOn key ys a b := by
  have e : a + (b - a) = b := by omega
  obtain ⟨ys, hy, hw, hheap⟩ := heapSort_build_spec key less hless (b - a) a
    ((b - a - 1) / 2 + 1) xs (by omega)
    (by
      intro r hr hrh c hc hch
      omega)
  obtain ⟨zs, hz, hw2, hs⟩ := heapSort_pop_spec key less hless a (b - a) (b - a) ys (le_refl _)
    (by rw [hw.1]; omega) hheap
    (by
      intro i j hi hij hj
      omega)
    (by
      intro r s hr hs1 hs2
      omega)
  rw [e] at hw hw2 hs
  refine ⟨zs, ?_, within_trans hw hw2, hs⟩
  unfold heapSort_func
  simp only [hy, Option.some_bind]
  exact hz

/-! ### sort.Slice: the partitions -/

theorem partition_up_spec {α κ : Type} [Inhabited α] [LinearOrder κ] (key : α → κ)
    (less : α → α → Bool) (hless : ∀ x y, less x y = true ↔ key x < key y)
    (xs : List α) (a j : ℕ) (ha : a < xs.length) (hj : j < xs.length) :
    ∀ (fuel i : ℕ), j + 1 - i < fuel → i ≤ j + 1 →
      ∃ i2, partition_up less xs a j fuel i = some i2 ∧ i ≤ i2 ∧ i2 ≤ j + 1 ∧
        (∀ k, i ≤ k → k < i2 → key (xs.getI k) < key (xs.getI a)) ∧
        (i2 ≤ j → key (xs.getI a) ≤ key (xs.getI i2)) := by
  intro fuel
  induction fuel with
  | zero => intro i h; omega
  | succ fuel ih =>
    intro i hf hi
    unfold partition_up
    by_cases hij : i ≤ j
    · rw [if_pos hij, lessAt_eq less xs i a (by omega) ha]
      simp only [Option.some_bind]
      cases hl : less (xs.getI i) (xs.getI a) with
      | true =>
        obtain ⟨i2, h1, h2, h3, h4, h5⟩ := ih (i + 1) (by omega) (by omega)
        refine ⟨i2, by simpa using h1, by omega, h3, ?_, h5⟩
        intro k hk hk2
        by_cases hki : k = i
        · rw [hki]; exact (hless _ _).mp hl
        · exact h4 k (by omega) hk2
      | false =>
        refine ⟨i, by simp, le_refl _, hi, fun k h1 h2 => by omega, ?_⟩
        intro _
        exact (less_false_iff key less hless _ _).mp hl
    · rw [if_neg hij]
      exact ⟨i, rfl, le_refl _, hi, fun k h1 h2 => by omega, fun h => by omega⟩

theorem partition_down_spec {α κ : Type} [Inhabited α] [LinearOrder κ] (key : α → κ)
    (less : α → α → Bool) (hless : ∀ x y, less x y = true ↔ key x < key y)
    (xs : List α) (a i : ℕ) (ha : a < xs.length) (hi : 1 ≤ i) :
    ∀ (fuel j : ℕ), j + 1 - i < fuel → i ≤ j + 1 → j < xs.length →
      ∃ j2, partition_down less xs a i fuel j = some j2 ∧ j2 ≤ j ∧ i ≤ j2 + 1 ∧
        (∀ k, j2 < k → k ≤ j → key (xs.getI a) ≤ key (xs.getI k)) ∧
        (i ≤ j2 → key (xs.getI j2) < key (xs.getI a)) := by
  intro fuel
  induction fuel with
  | zero => intro j h; omega
  | succ fuel ih =>
    intro j hf hij1 hj
    unfold partition_down
    by_cases hij : i ≤ j
    · rw [if_pos hij, lessAt_eq less xs j a hj ha]
      simp only [Option.some_bind]
      cases hl : less (xs.getI j) (xs.getI a) with
      | true =>
        refine ⟨j, by simp, le_refl _, hij1, fun k h1 h2 => by omega, ?_⟩
        intro _
        exact (hless _ _).mp hl
      | false =>
        obtain ⟨j2, h1, h2, h3, h4, h5⟩ := ih (j - 1) (by omega) (by omega) (by omega)
        refine ⟨j2, by simpa using h1, by omega, h3, ?_, h5⟩
        intro k hk hk2
        by_cases hkj : k = j
        · rw [hkj]; exact (less_false_iff key less hless _ _).mp hl
        · exact h4 k hk (by omega)
    · rw [if_neg hij]
      exact ⟨j, rfl, le_refl _, hij1, fun k h1 h2 => by omega, fun h => by omega⟩

theorem partition_loop_spec {α κ : Type} [Inhabited α] [LinearOrder κ] (key : α → κ)
    (less : α → α → Bool) (hless : ∀ x y, less x y = true ↔ key x < key y)
    (a b : ℕ) :
    ∀ (fuel : ℕ) (xs : List α) (i j : ℕ), j + 1 - i < fuel → a + 1 ≤ i → i ≤ j + 1 → j < b →
      b ≤ xs.length →
      (∀ k, a < k → k < i → key (xs.getI k) < key (xs.getI a)) →
      (∀ k, j < k → k < b → key (xs.getI a) ≤ key (xs.getI k)) →
      ∃ ys mid, partition_loop less a b fuel xs i j = some (ys, mid) ∧
        Within (a + 1) b xs ys ∧ a ≤ mid ∧ mid < b ∧
        (∀ k, a < k → k ≤ mid → key (ys.getI k) < key (ys.getI a)) ∧
        (∀ k, mid < k → k < b → key (ys.getI a) ≤ key (ys.getI k)) := by
  intro fuel
  induction fuel with
  | zero => intro xs i j h; omega
  | succ fuel ih =>
    intro xs i j hf hai hij hjb hb hlo hhi
    obtain ⟨i2, u1, u2, u3, u4, u5⟩ := partition_up_spec key less hless xs a j (by omega)
      (by omega) (b + 1) i (by omega) hij
    obtain ⟨j2, d1, d2, d3, d4, d5⟩ := partition_down_spec key less hless xs a i2 (by omega)
      (by omega) (b + 1) j (by omega) u3 (by omega)
    unfold partition_loop
    simp only [u1, d1, Option.some_bind]
    by_cases hji : j2 < i2
    · rw [if_pos hji]
      refine ⟨xs, j2, rfl, within_refl _ _ _, by omega, by omega, ?_, ?_⟩
      · intro k hk hk2
        by_cases hki : k < i
        · exact hlo k hk hki
        · exact u4 k (by omega) (by omega)
      · intro k hk hk2
        by_cases hkj : k ≤ j
        · exact d4 k hk hkj
        · exact hhi k (by omega) hk2
    · rw [if_neg hji]
      have hlt2 : key (xs.getI j2) < key (xs.getI a) := d5 (by omega)
      have hge2 : key (xs.getI a) ≤ key (xs.getI i2) := u5 (by omega)
      have hne : i2 ≠ j2 := by
        intro e
        rw [e] at hge2
        exact absurd hlt2 (not_lt.mpr hge2)
      obtain ⟨ys, hs, hw, e1, e2, e3⟩ :=
        swapAt_within xs (a + 1) b i2 j2 hb (by omega) (by omega) (by omega) (by omega)
      have ea : ys.getI a = xs.getI a := e3 a (by omega) (by omega)
      obtain ⟨zs, mid, hz, hw2, m1, m2, m3, m4⟩ := ih ys (i2 + 1) (j2 - 1) (by omega) (by omega)
        (by omega) (by omega) (by rw [hw.1]; exact hb)
        (by
          intro k hk hk2
          rw [ea]
          by_cases hki : k = i2
          · rw [hki, e1]; exact hlt2
          · rw [e3 k hki (by omega)]
            by_cases hki : k < i
            · exact hlo k hk hki
            · exact u4 k (by omega) (by omega))
        (by
          intro k hk hk2
          rw [ea]
          by_cases hkj : k = j2
          · rw [hkj, e2]; exact hge2
          · rw [e3 k (by omega) hkj]
            by_cases hkj2 : k ≤ j
            · exact d4 k (by omega) hkj2
            · exact hhi k (by omega) hk2)
      refine ⟨zs, mid, ?_, within_trans hw hw2, m1, m2, m3, m4⟩
      simp only [hs, Option.some_bind]
      exact hz

/-- The function `partition_func` puts the elements less than the pivot before it and the
others after it. -/
theorem partition_func_spec {α κ : Type} [Inhabited α] [LinearOrder κ] (key : α → κ)
    (less : α → α → Bool) (hless : ∀ x y, less x y = true ↔ key x < key y)
    (xs : List α) (a b pivot : ℕ) (hap : a ≤ pivot) (hpb : pivot < b) (hb : b ≤ xs.length) :
    ∃ ys mid ap, partition_func less xs a b pivot = some (ys, mid, ap) ∧ Within a b xs ys ∧
      a ≤ mid ∧ mid < b ∧
      (∀ k, a ≤ k → k < mid → key (ys.getI k) < key (ys.getI mid)) ∧
      (∀ k, mid < k → k < b → key (ys.getI mid) ≤ key (ys.getI k)) := by
  obtain ⟨xs1, hs1, hw1, _, _, _⟩ :=
    swapAt_within xs a b a pivot hb (le_refl _) (by omega) hap hpb
  have hb1 : b ≤ xs1.length := by rw [hw1.1]; exact hb
  obtain ⟨zs, mid, ap, hz, hw2, m1, m2, m3, m4⟩ : ∃ zs mid ap,
      ((partition_up less xs1 a (b - 1) (b + 1) (a + 1)).bind (fun i =>
        (partition_down less xs1 a i (b + 1) (b - 1)).bind (fun j =>
          if j < i then some (xs1, j, true)
          else
            (swapAt xs1 i j).bind (fun xs2 =>
              (partition_loop less a b (b + 1) xs2 (i + 1) (j - 1)).map (fun r =>
                (r.1, r.2, false))))) = some (zs, mid, ap)) ∧
      Within (a + 1) b xs1 zs ∧ a ≤ mid ∧ mid < b ∧
      (∀ k, a < k → k ≤ mid → key (zs.getI k) < key (zs.getI a)) ∧
      (∀ k, mid < k → k < b → key (zs.getI a) ≤ key (zs.getI k)) := by
    obtain ⟨i2, u1, u2, u3, u4, u5⟩ := partition_up_spec key less hless xs1 a (b - 1) (by omega)
      (by omega) (b + 1) (a + 1) (by omega) (by omega)
    obtain ⟨j2, d1, d2, d3, d4, d5⟩ := partition_down_spec key less hless xs1 a i2 (by omega)
      (by omega) (b + 1) (b - 1) (by omega) (by omega) (by omega)
    simp only [u1, d1, Option.some_bind]
    by_cases hji : j2 < i2
    · rw [if_pos hji]
      refine ⟨xs1, j2, true, rfl, within_refl _ _ _, by omega, by omega, ?_, ?_⟩
      · intro k hk hk2
        exact u4 k (by omega) (by omega)
      · intro k hk hk2
        exact d4 k hk (by omega)
    · rw [if_neg hji]
      have hlt2 : key (xs1.getI j2) < key (xs1.getI a) := d5 (by omega)
      have hge2 : key (xs1.getI a) ≤ key (xs1.getI i2) := u5 (by omega)
      have hne : i2 ≠ j2 := by
        intro e
        rw [e] at hge2
        exact absurd hlt2 (not_lt.mpr hge2)
      obtain ⟨ys, hs, hw, e1, e2, e3⟩ :=
        swapAt_within xs1 (a + 1) b i2 j2 hb1 (by omega) (by omega) (by omega) (by omega)
      have ea : ys.getI a = xs1.getI a := e3 a (by omega) (by omega)
      obtain ⟨zs, mid, hz, hw2, m1, m2, m3, m4⟩ := partition_loop_spec key less hless a b
        (b + 1) ys (i2 + 1) (j2 - 1) (by omega) (by omega)
        (by omega) (by omega) (by rw [hw.1]; exact hb1)
        (by
          intro k hk hk2
          rw [ea]
          by_cases hki : k = i2
          · rw [hki, e1]; exact hlt2
          · rw [e3 k hki (by omega)]
            exact u4 k (by omega) (by omega))
        (by
          intro k hk hk2
          rw [ea]
          by_cases hkj : k = j2
          · rw [hkj, e2]; exact hge2
          · rw [e3 k (by omega) hkj]
            exact d4 k (by omega) (by omega))
      refine ⟨zs, mid, false, ?_, within_trans hw hw2, m1, m2, m3, m4⟩
      simp only [hs, Option.some_bind, hz, Option.map_some']
  obtain ⟨ws, hs3, hw3, f1, f2, f3⟩ :=
    swapAt_within zs a b mid a (by rw [hw2.1]; exact hb1) m1 m2 (le_refl _) (by omega)
  refine ⟨ws, mid, ap, ?_, within_trans hw1 (within_trans (within_mono hw2 (by omega)
    (le_refl _)) hw3), m1, m2, ?_, ?_⟩
  · unfold partition_func
    simp only [hs1, Option.some_bind]
    revert hz
    cases hu : partition_up less xs1 a (b - 1) (b + 1) (a + 1) with
    | none => intro hz; simp at hz
    | some i =>
      simp only [Option.some_bind]
      cases hd : partition_down less xs1 a i (b + 1) (b - 1) with
      | none => intro hz; simp at hz
      | some j =>
        simp only [Option.some_bind]
        by_cases hji : j < i
        · simp only [if_pos hji]
          intro hz
          simp only [Option.some.injEq, Prod.mk.injEq] at hz
          obtain ⟨hz1, hz2, hz3⟩ := hz
          subst hz1; subst hz2; subst hz3
          simp only [hs3, Option.map_some']
        · simp only [if_neg hji]
          cases hsw : swapAt xs1 i j with
          | none => intro hz; simp at hz
          | some xs2 =>
            simp only [Option.some_bind]
            cases hlp : partition_loop less a b (b + 1) xs2 (i + 1) (j - 1) with
            | none => intro hz; simp at hz
            | some r =>
              simp only [Option.map_some', Option.some_bind]
              intro hz
              simp only [Option.some.injEq, Prod.mk.injEq] at hz
              obtain ⟨hz1, hz2, hz3⟩ := hz
              rw [hz1, hz2, hs3, ← hz3]
              simp
  · intro k hk hk2
    rw [f1]
    by_cases hka : k = a
    · rw [hka, f2]
      exact m3 mid (by omega) (le_refl _)
    · rw [f3 k (by omega) hka]
      exact m3 k (by omega) (by omega)
  · intro k hk hk2
    rw [f1, f3 k (by omega) (by omega)]
    exact m4 k hk hk2

/-! ### sort.Slice: the partition of the elements equal to the pivot -/

theorem partitionEqual_up_spec {α κ : Type} [Inhabited α] [LinearOrder κ] (key : α → κ)
    (less : α → α → Bool) (hless : ∀ x y, less x y = true ↔ key x < key y)
    (xs : List α) (a j : ℕ) (ha : a < xs.length) (hj : j < xs.length) :
    ∀ (fuel i : ℕ), j + 1 - i < fuel → i ≤ j + 1 →
      ∃ i2, partitionEqual_up less xs a j fuel i = some i2 ∧ i ≤ i2 ∧ i2 ≤ j + 1 ∧
        (∀ k, i ≤ k → k < i2 → key (xs.getI k) ≤ key (xs.getI a)) ∧
        (i2 ≤ j → key (xs.getI a) < key (xs.getI i2)) := by
  intro fuel
  induction fuel with
  | zero => intro i h; omega
  | succ fuel ih =>
    intro i hf hi
    unfold partitionEqual_up
    by_cases hij : i ≤ j
    · rw [if_pos hij, lessAt_eq less xs a i ha (by omega)]
      simp only [Option.some_bind]
      cases hl : less (xs.getI a) (xs.getI i) with
      | false =>
        obtain ⟨i2, h1, h2, h3, h4, h5⟩ := ih (i + 1) (by omega) (by omega)
        refine ⟨i2, by simpa using h1, by omega, h3, ?_, h5⟩
        intro k hk hk2
        by_cases hki : k = i
        · rw [hki]; exact (less_false_iff key less hless _ _).mp hl
        · exact h4 k (by omega) hk2
      | true =>
        refine ⟨i, by simp, le_refl _, hi, fun k h1 h2 => by omega, ?_⟩
        intro _
        exact (hless _ _).mp hl
    · rw [if_neg hij]
      exact ⟨i, rfl, le_refl _, hi, fun k h1 h2 => by omega, fun h => by omega⟩

theorem partitionEqual_down_spec {α κ : Type} [Inhabited α] [LinearOrder κ] (key : α → κ)
    (less : α → α → Bool) (hless : ∀ x y, less x y = true ↔ key x < key y)
    (xs : List α) (a i : ℕ) (ha : a < xs.length) (hi : 1 ≤ i) :
    ∀ (fuel j : ℕ), j + 1 - i < fuel → i ≤ j + 1 → j < xs.length →
      ∃ j2, partitionEqual_down less xs a i fuel j = some j2 ∧ j2 ≤ j ∧ i ≤ j2 + 1 ∧
        (∀ k, j2 < k → k ≤ j → key (xs.getI a) < key (xs.getI k)) ∧
        (i ≤ j2 → key (xs.getI j2) ≤ key (xs.getI a)) := by
  intro fuel
  induction fuel with
  | zero => intro j h; omega
  | succ fuel ih =>
    intro j hf hij1 hj
    unfold partitionEqual_down
    by_cases hij : i ≤ j
    · rw [if_pos hij, lessAt_eq less xs a j ha hj]
      simp only [Option.some_bind]
      cases hl : less (xs.getI a) (xs.getI j) with
      | false =>
        refine ⟨j, by simp, le_refl _, hij1, fun k h1 h2 => by omega, ?_⟩
        intro _
        exact (less_false_iff key less hless _ _).mp hl
      | true =>
        obtain ⟨j2, h1, h2, h3, h4, h5⟩ := ih (j - 1) (by omega) (by omega) (by omega)
        refine ⟨j2, by simpa using h1, by omega, h3, ?_, h5⟩
        intro k hk hk2
        by_cases hkj : k = j
        · rw [hkj]; exact (hless _ _).mp hl
        · exact h4 k hk (by omega)
    · rw [if_neg hij]
      exact ⟨j, rfl, le_refl _, hij1, fun k h1 h2 => by omega, fun h => by omega⟩

theorem partitionEqual_loop_spec {α κ : Type} [Inhabited α] [LinearOrder κ] (key : α → κ)
    (less : α → α → Bool) (hless : ∀ x y, less x y = true ↔ key x < key y)
    (a b : ℕ) :
    ∀ (fuel : ℕ) (xs : List α) (i j : ℕ), j + 1 - i < fuel → a + 1 ≤ i → i ≤ j + 1 → j < b →
      b ≤ xs.length →
      (∀ k, a < k → k < i → key (xs.getI k) ≤ key (xs.getI a)) →
      (∀ k, j < k → k < b → key (xs.getI a) < key (xs.getI k)) →
      ∃ ys mid, partitionEqual_loop less a b fuel xs i j = some (ys, mid) ∧
        Within (a + 1) b xs ys ∧ a < mid ∧ mid ≤ b ∧
        (∀ k, a < k → k < mid → key (ys.getI k) ≤ key (ys.getI a)) ∧
        (∀ k, mid ≤ k → k < b → key (ys.getI a) < key (ys.getI k)) := by
  intro fuel
  induction fuel with
  | zero => intro xs i j h; omega
  | succ fuel ih =>
    intro xs i j hf hai hij hjb hb hlo hhi
    obtain ⟨i2, u1, u2, u3, u4, u5⟩ := partitionEqual_up_spec key less hless xs a j (by omega)
      (by omega) (b + 1) i (by omega) hij
    obtain ⟨j2, d1, d2, d3, d4, d5⟩ := partitionEqual_down_spec key less hless xs a i2
      (by omega) (by omega) (b + 1) j (by omega) u3 (by omega)
    unfold partitionEqual_loop
    simp only [u1, d1, Option.some_bind]
    by_cases hji : j2 < i2
    · rw [if_pos hji]
      refine ⟨xs, i2, rfl, within_refl _ _ _, by omega, by omega, ?_, ?_⟩
      · intro k hk hk2
        by_cases hki : k < i
        · exact hlo k hk hki
        · exact u4 k (by omega) (by omega)
      · intro k hk hk2
        by_cases hkj : k ≤ j
        · exact d4 k (by omega) hkj
        · exact hhi k (by omega) hk2
    · rw [if_neg hji]
      have hle2 : key (xs.getI j2) ≤ key (xs.getI a) := d5 (by omega)
      have hgt2 : key (xs.getI a) < key (xs.getI i2) := u5 (by omega)
      have hne : i2 ≠ j2 := by
        intro e
        rw [e] at hgt2
        exact absurd hgt2 (not_lt.mpr hle2)
      obtain ⟨ys, hs, hw, e1, e2, e3⟩ :=
        swapAt_within xs (a + 1) b i2 j2 hb (by omega) (by omega) (by omega) (by omega)
      have ea : ys.getI a = xs.getI a := e3 a (by omega) (by omega)
      obtain ⟨zs, mid, hz, hw2, m1, m2, m3, m4⟩ := ih ys (i2 + 1) (j2 - 1) (by omega) (by omega)
        (by omega) (by omega) (by rw [hw.1]; exact hb)
        (by
          intro k hk hk2
          rw [ea]
          by_cases hki : k = i2
          · rw [hki, e1]; exact hle2
          · rw [e3 k hki (by omega)]
            by_cases hki : k < i
            · exact hlo k hk hki
            · exact u4 k (by omega) (by omega))
        (by
          intro k hk hk2
          rw [ea]
          by_cases hkj : k = j2
          · rw [hkj, e2]; exact hgt2
          · rw [e3 k (by omega) hkj]
            by_cases hkj2 : k ≤ j
            · exact d4 k (by omega) hkj2
            · exact hhi k (by omega) hk2)
      refine ⟨zs, mid, ?_, within_trans hw hw2, m1, m2, m3, m4⟩
      simp only [hs, Option.some_bind]
      exact hz

/-- The function `partitionEqual_func` puts the elements not greater than the pivot before
the index it returns and the greater ones from it on. -/
theorem partitionEqual_func_spec {α κ : Type} [Inhabited α] [LinearOrder κ] (key : α → κ)
    (less : α → α → Bool) (hless : ∀ x y, less x y = true ↔ key x < key y)
    (xs : List α) (a b pivot : ℕ) (hap : a ≤ pivot) (hpb : pivot < b) (hb : b ≤ xs.length) :
    ∃ ys mid, partitionEqual_func less xs a b pivot = some (ys, mid) ∧ Within a b xs ys ∧
      a < mid ∧ mid ≤ b ∧
      (∀ k, a ≤ k → k < mid → key (ys.getI k) ≤ key (xs.getI pivot)) ∧
      (∀ k, mid ≤ k → k < b → key (xs.getI pivot) < key (ys.getI k)) := by
  obtain ⟨xs1, hs1, hw1, g1, _, _⟩ :=
    swapAt_within xs a b a pivot hb (le_refl _) (by omega) hap hpb
  have hb1 : b ≤ xs1.length := by rw [hw1.1]; exact hb
  obtain ⟨zs, mid, hz, hw2, m1, m2, m3, m4⟩ := partitionEqual_loop_spec key less hless a b
    (b + 1) xs1 (a + 1) (b - 1) (by omega) (le_refl _) (by omega) (by omega) hb1
    (fun k h1 h2 => by omega) (fun k h1 h2 => by omega)
  have ea : zs.getI a = xs.getI pivot := by
    rw [hw2.2.2.1 a (by omega), g1]
  refine ⟨zs, mid, ?_, within_trans hw1 (within_mono hw2 (by omega) (le_refl _)), m1, m2, ?_, ?_⟩
  · unfold partitionEqual_func
    simp only [hs1, Option.some_bind]
    exact hz
  · intro k hk hk2
    by_cases hka : k = a
    · rw [hka, ea]
    · rw [← ea]
      exact m3 k (by omega) hk2
  · intro k hk hk2
    rw [← ea]
    exact m4 k hk hk2

/-! ### sort.Slice: the pivot, the patterns and the partial insertion sort -/

theorem leftBounded_within {α κ : Type} [Inhabited α] [LinearOrder κ] (key : α → κ)
    {xs ys : List α} {a b : ℕ} (h : LeftBounded key xs a b) (hw : Within a b xs ys) :
    LeftBounded key ys a b := by
  rcases h with h | h
  · exact Or.inl h
  · by_cases ha : a = 0
    · exact Or.inl ha
    · right
      rw [hw.2.2.1 (a - 1) (by omega)]
      exact within_forall hw (fun x => key (xs.getI (a - 1)) ≤ key x) h

theorem reverseRange_loop_spec {α : Type} [Inhabited α] (a b : ℕ) :
    ∀ (fuel i j : ℕ) (xs : List α), j - i < fuel → a ≤ i → (i < j → j < b) →
      b ≤ xs.length → ∃ ys, reverseRange_loop fuel i j xs = some ys ∧ Within a b xs ys := by
  intro fuel
  induction fuel with
  | zero => intro i j xs h; omega
  | succ fuel ih =>
    intro i j xs hf hai hjb hb
    unfold reverseRange_loop
    by_cases hij : i < j
    · rw [if_pos hij]
      have := hjb hij
      obtain ⟨ys, hs, hw, _, _, _⟩ :=
        swapAt_within xs a b i j hb hai (by omega) (by omega) (by omega)
      obtain ⟨zs, hz, hw2⟩ := ih (i + 1) (j - 1) ys (by omega) (by omega) (by omega)
        (by rw [hw.1]; exact hb)
      refine ⟨zs, ?_, within_trans hw hw2⟩
      simp only [hs, Option.some_bind]
      exact hz
    · rw [if_neg hij]
      exact ⟨xs, rfl, within_refl _ _ _⟩

/-- The function `reverseRange_func` exchanges elements of `data[a:b]`. -/
theorem reverseRange_func_spec {α : Type} [Inhabited α] (xs : List α) (a b : ℕ)
    (hb : b ≤ xs.length) :
    ∃ ys, reverseRange_func xs a b = some ys ∧ Within a b xs ys := by
  unfold reverseRange_func
  exact reverseRange_loop_spec a b (b + 1) a (b - 1) xs (by omega) (le_refl _)
    (fun h => by omega) hb

theorem nextPowerOfTwo_le (l : ℕ) (hl : 0 < l) : nextPowerOfTwo l ≤ 2 * l := by
  unfold nextPowerOfTwo bitsLen
  rw [if_neg (by omega), pow_succ]
  have := (natLog2_spec l hl).1
  omega

theorem breakPatterns_other_lt (l r : ℕ) (hl : 0 < l) :
    (if l ≤ r &&& (nextPowerOfTwo l - 1) then (r &&& (nextPowerOfTwo l - 1)) - l
      else r &&& (nextPowerOfTwo l - 1)) < l := by
  have h1 : r &&& (nextPowerOfTwo l - 1) ≤ nextPowerOfTwo l - 1 := Nat.and_le_right
  have h2 := nextPowerOfTwo_le l hl
  split_ifs with h
  · omega
  · omega

theorem breakPatterns_loop_spec {α : Type} [Inhabited α] (a b idx : ℕ) (hl : 0 < b - a)
    (hidx1 : a + 1 ≤ idx) (hidx2 : idx + 2 ≤ b) :
    ∀ (n i random : ℕ) (xs : List α), i + n ≤ 3 → b ≤ xs.length →
      ∃ ys, breakPatterns_loop a (b - a) idx n i random xs = some ys ∧ Within a b xs ys := by
  intro n
  induction n with
  | zero =>
    intro i random xs _ _
    exact ⟨xs, rfl, within_refl _ _ _⟩
  | succ n ih =>
    intro i random xs hin hb
    have ho := breakPatterns_other_lt (b - a) (xorshift_Next random) hl
    obtain ⟨ys, hs, hw, _, _, _⟩ :=
      swapAt_within xs a b (idx - 1 + i)
        (a + (if b - a ≤ xorshift_Next random &&& (nextPowerOfTwo (b - a) - 1)
          then (xorshift_Next random &&& (nextPowerOfTwo (b - a) - 1)) - (b - a)
          else xorshift_Next random &&& (nextPowerOfTwo (b - a) - 1)))
        hb (by omega) (by omega) (by omega) (by omega)
    obtain ⟨zs, hz, hw2⟩ := ih (i + 1) (xorshift_Next random) ys (by omega)
      (by rw [hw.1]; exact hb)
    refine ⟨zs, ?_, within_trans hw hw2⟩
    unfold breakPatterns_loop
    simp only [hs, Option.some_bind]
    exact hz

/-- The function `breakPatterns_func` exchanges elements of `data[a:b]`. -/
theorem breakPatterns_func_spec {α : Type} [Inhabited α] (xs : List α) (a b : ℕ)
    (hb : b ≤ xs.length) :
    ∃ ys, breakPatterns_func xs a b = some ys ∧ Within a b xs ys := by
  unfold breakPatterns_func
  by_cases h : 8 ≤ b - a
  · rw [if_pos h]
    exact breakPatterns_loop_spec a b (a + (b - a) / 4 * 2 - 1) (by omega) (by omega) (by omega)
      3 0 (b - a) xs (by omega) hb
  · rw [if_neg h]
    exact ⟨xs, rfl, within_refl _ _ _⟩

theorem order2_func_spec {α : Type} [Inhabited α] (less : α → α → Bool) (xs : List α)
    (lo hi a b swaps : ℕ) (hhi : hi ≤ xs.length) (ha : lo ≤ a ∧ a < hi) (hb : lo ≤ b ∧ b < hi) :
    ∃ r, order2_func less xs a b swaps = some r ∧ (lo ≤ r.1 ∧ r.1 < hi) ∧
      (lo ≤ r.2.1 ∧ r.2.1 < hi) := by
  unfold order2_func
  rw [lessAt_eq less xs b a (by omega) (by omega)]
  cases less (xs.getI b) (xs.getI a) with
  | true => exact ⟨_, rfl, hb, ha⟩
  | false => exact ⟨_, rfl, ha, hb⟩

theorem median_func_spec {α : Type} [Inhabited α] (less : α → α → Bool) (xs : List α)
    (lo hi a b c swaps : ℕ) (hhi : hi ≤ xs.length) (ha : lo ≤ a ∧ a < hi)
    (hb : lo ≤ b ∧ b < hi) (hc : lo ≤ c ∧ c < hi) :
    ∃ r, median_func less xs a b c swaps = some r ∧ lo ≤ r.1 ∧ r.1 < hi := by
  obtain ⟨r1, h1, p1, q1⟩ := order2_func_spec less xs lo hi a b swaps hhi ha hb
  obtain ⟨r2, h2, p2, q2⟩ := order2_func_spec less xs lo hi r1.2.1 c r1.2.2 hhi q1 hc
  obtain ⟨r3, h3, p3, q3⟩ := order2_func_spec less xs lo hi r1.1 r2.1 r2.2.2 hhi p1 p2
  refine ⟨(r3.2.1, r3.2.2), ?_, q3⟩
  unfold median_func
  simp only [h1, h2, h3, Option.some_bind, Option.map_some']

/-- The function `choosePivot_func` returns an index of `data[a:b]`. -/
theorem choosePivot_func_spec {α : Type} [Inhabited α] (less : α → α → Bool) (xs : List α)
    (a b : ℕ) (hab : a < b) (hb : b ≤ xs.length) :
    ∃ p h, choosePivot_func less xs a b = some (p, h) ∧ a ≤ p ∧ p < b := by
  have hmain : ∃ r : ℕ × ℕ,
      ((if 8 ≤ b - a then
        (if 50 ≤ b - a then
            (medianAdjacent_func less xs (a + (b - a) / 4 * 1) 0).bind (fun ri =>
              (medianAdjacent_func less xs (a + (b - a) / 4 * 2) ri.2).bind (fun rj =>
                (medianAdjacent_func less xs (a + (b - a) / 4 * 3) rj.2).map (fun rk =>
                  (ri.1, rj.1, rk.1, rk.2))))
          else some (a + (b - a) / 4 * 1, a + (b - a) / 4 * 2, a + (b - a) / 4 * 3, 0)).bind
          (fun r => median_func less xs r.1 r.2.1 r.2.2.1 r.2.2.2)
      else some (a + (b - a) / 4 * 2, 0)) : Option (ℕ × ℕ)) = some r ∧ a ≤ r.1 ∧ r.1 < b := by
    by_cases h8 : 8 ≤ b - a
    · rw [if_pos h8]
      have hthree : ∃ t : ℕ × ℕ × ℕ × ℕ,
          (if 50 ≤ b - a then
            (medianAdjacent_func less xs (a + (b - a) / 4 * 1) 0).bind (fun ri =>
              (medianAdjacent_func less xs (a + (b - a) / 4 * 2) ri.2).bind (fun rj =>
                (medianAdjacent_func less xs (a + (b - a) / 4 * 3) rj.2).map (fun rk =>
                  (ri.1, rj.1, rk.1, rk.2))))
          else some (a + (b - a) / 4 * 1, a + (b - a) / 4 * 2, a + (b - a) / 4 * 3, 0)) = some t ∧
          (a ≤ t.1 ∧ t.1 < b) ∧ (a ≤ t.2.1 ∧ t.2.1 < b) ∧ (a ≤ t.2.2.1 ∧ t.2.2.1 < b) := by
        by_cases h50 : 50 ≤ b - a
        · rw [if_pos h50]
          obtain ⟨ri, hi1, hi2⟩ := median_func_spec less xs a b (a + (b - a) / 4 * 1 - 1)
            (a + (b - a) / 4 * 1) (a + (b - a) / 4 * 1 + 1) 0 hb (by omega) (by omega) (by omega)
          obtain ⟨rj, hj1, hj2⟩ := median_func_spec less xs a b (a + (b - a) / 4 * 2 - 1)
            (a + (b - a) / 4 * 2) (a + (b - a) / 4 * 2 + 1) ri.2 hb (by omega) (by omega)
            (by omega)
          obtain ⟨rk, hk1, hk2⟩ := median_func_spec less xs a b (a + (b - a) / 4 * 3 - 1)
            (a + (b - a) / 4 * 3) (a + (b - a) / 4 * 3 + 1) rj.2 hb (by omega) (by omega)
            (by omega)
          refine ⟨(ri.1, rj.1, rk.1, rk.2), ?_, hi2, hj2, hk2⟩
          unfold medianAdjacent_func
          simp only [hi1, hj1, hk1, Option.some_bind, Option.map_some']
        · rw [if_neg h50]
          refine ⟨_, rfl, ⟨?_, ?_⟩, ⟨?_, ?_⟩, ⟨?_, ?_⟩⟩
          · show a ≤ a + (b - a) / 4 * 1
            omega
          · show a + (b - a) / 4 * 1 < b
            omega
          · show a ≤ a + (b - a) / 4 * 2
            omega
          · show a + (b - a) / 4 * 2 < b
            omega
          · show a ≤ a + (b - a) / 4 * 3
            omega
          · show a + (b - a) / 4 * 3 < b
            omega
      obtain ⟨t, ht, t1, t2, t3⟩ := hthree
      rw [ht]
      simp only [Option.some_bind]
      obtain ⟨r, hr, hr2⟩ := median_func_spec less xs a b t.1 t.2.1 t.2.2.1 t.2.2.2 hb t1 t2 t3
      exact ⟨r, hr, hr2⟩
    · rw [if_neg h8]
      exact ⟨_, rfl, by show a ≤ a + (b - a) / 4 * 2; omega,
        by show a + (b - a) / 4 * 2 < b; omega⟩
  obtain ⟨r, hr, hr1, hr2⟩ := hmain
  unfold choosePivot_func
  rw [hr]
  simp only [Option.map_some']
  split_ifs
  · exact ⟨_, _, rfl, hr1, hr2⟩
  · exact ⟨_, _, rfl, hr1, hr2⟩
  · exact ⟨_, _, rfl, hr1, hr2⟩

/-! ### sort.Slice: the partial insertion sort -/

theorem sortedOn_succ {α κ : Type} [Inhabited α] [LinearOrder κ] (key : α → κ) (xs : List α)
    (a i : ℕ) (hai : a + 1 ≤ i) (hs : SortedOn key xs a i)
    (hle : key (xs.getI (i - 1)) ≤ key (xs.getI i)) : SortedOn key xs a (i + 1) := by
  intro p q hp hpq hq
  by_cases hqi : q = i
  · by_cases hpi : p = i
    · rw [hqi, hpi]
    · rw [hqi]
      exact le_trans (hs p (i - 1) hp (by omega) (by omega)) hle
  · exact hs p q hp hpq (by omega)

theorem sortedOn_congr {α κ : Type} [Inhabited α] [LinearOrder κ] (key : α → κ)
    {xs ys : List α} {a b : ℕ} (hs : SortedOn key xs a b)
    (he : ∀ k, a ≤ k → k < b → ys.getI k = xs.getI k) : SortedOn key ys a b := by
  intro p q hp hpq hq
  rw [he p hp (by omega), he q (by omega) hq]
  exact hs p q hp hpq hq

theorem partialInsertionSort_scan_spec {α κ : Type} [Inhabited α] [LinearOrder κ]
    (key : α → κ) (less : α → α → Bool) (hless : ∀ x y, less x y = true ↔ key x < key y)
    (xs : List α) (a b : ℕ) (hb : b ≤ xs.length) :
    ∀ (fuel i : ℕ), b - i < fuel → a + 1 ≤ i → i ≤ b → SortedOn key xs a i →
      ∃ i2, partialInsertionSort_scan less xs b fuel i = some i2 ∧ i ≤ i2 ∧ i2 ≤ b ∧
        SortedOn key xs a i2 := by
  intro fuel
  induction fuel with
  | zero => intro i h; omega
  | succ fuel ih =>
    intro i hf hai hib hs
    unfold partialInsertionSort_scan
    by_cases hlt : i < b
    · rw [if_pos hlt, lessAt_eq less xs i (i - 1) (by omega) (by omega)]
      simp only [Option.some_bind]
      cases hl : less (xs.getI i) (xs.getI (i - 1)) with
      | true => exact ⟨i, by simp, le_refl _, hib, hs⟩
      | false =>
        have hle := (less_false_iff key less hless _ _).mp hl
        obtain ⟨i2, h1, h2, h3, h4⟩ := ih (i + 1) (by omega) (by omega) (by omega)
          (sortedOn_succ key xs a i hai hs hle)
        exact ⟨i2, by simpa using h1, by omega, h3, h4⟩
    · rw [if_neg hlt]
      exact ⟨i, rfl, le_refl _, hib, hs⟩

/-- Below an element that is not greater than those of the range, the loop that shifts to
the left stops where the inner loop of the insertion sort stops. -/
theorem partialInsertionSort_left_eq {α κ : Type} [Inhabited α] [LinearOrder κ]
    (key : α → κ) (less : α → α → Bool) (hless : ∀ x y, less x y = true ↔ key x < key y)
    (a i : ℕ) :
    ∀ (j : ℕ) (xs : List α), a ≤ j → j ≤ i → i < xs.length →
      (a = 0 ∨ ∀ k, a ≤ k → k ≤ i → key (xs.getI (a - 1)) ≤ key (xs.getI k)) →
      partialInsertionSort_left less j xs = insertionSort_inner less a j xs := by
  intro j
  induction j with
  | zero => intro xs _ _ _ _; rfl
  | succ j ih =>
    intro xs haj hji hlen hlb
    unfold partialInsertionSort_left insertionSort_inner
    rw [lessAt_eq less xs (j + 1) j (by omega) (by omega)]
    simp only [Option.some_bind]
    by_cases ha : a < j + 1
    · rw [if_pos ha]
      cases hl : less (xs.getI (j + 1)) (xs.getI j) with
      | false => simp
      | true =>
        simp only [if_true]
        obtain ⟨ys, hs, hw, _, _, _⟩ :=
          swapAt_within xs a (i + 1) (j + 1) j (by omega) (by omega) (by omega) (by omega)
            (by omega)
        rw [hs]
        simp only [Option.some_bind]
        apply ih ys (by omega) (by omega) (by rw [hw.1]; exact hlen)
        rcases hlb with hlb | hlb
        · exact Or.inl hlb
        · by_cases ha0 : a = 0
          · exact Or.inl ha0
          · right
            rw [hw.2.2.1 (a - 1) (by omega)]
            intro k hk hki
            exact within_forall hw (fun x => key (xs.getI (a - 1)) ≤ key x)
              (fun k hk hk2 => hlb k hk (by omega)) k hk (by omega)
    · rw [if_neg ha]
      have haj2 : a = j + 1 := by omega
      rcases hlb with hlb | hlb
      · omega
      · have h := hlb (j + 1) (by omega) hji
        have e : a - 1 = j := by omega
        rw [e] at h
        have : less (xs.getI (j + 1)) (xs.getI j) = false :=
          (less_false_iff key less hless _ _).mpr h
        rw [this]
        simp

theorem partialInsertionSort_right_spec {α : Type} [Inhabited α] (less : α → α → Bool)
    (lo b : ℕ) :
    ∀ (n j : ℕ) (xs : List α), lo + 1 ≤ j → j + n ≤ b → b ≤ xs.length →
      ∃ ys, partialInsertionSort_right less n j xs = some ys ∧ Within lo b xs ys := by
  intro n
  induction n with
  | zero =>
    intro j xs _ _ _
    exact ⟨xs, rfl, within_refl _ _ _⟩
  | succ n ih =>
    intro j xs hj hjn hb
    unfold partialInsertionSort_right
    rw [lessAt_eq less xs j (j - 1) (by omega) (by omega)]
    simp only [Option.some_bind]
    cases less (xs.getI j) (xs.getI (j - 1)) with
    | false => exact ⟨xs, by simp, within_refl _ _ _⟩
    | true =>
      obtain ⟨ys, hs, hw, _, _, _⟩ :=
        swapAt_within xs lo b j (j - 1) hb (by omega) (by omega) (by omega) (by omega)
      obtain ⟨zs, hz, hw2⟩ := ih (j + 1) ys (by omega) (by omega) (by rw [hw.1]; exact hb)
      refine ⟨zs, ?_, within_trans hw hw2⟩
      simp only [if_true, hs, Option.some_bind]
      exact hz

theorem partialInsertionSort_loop_spec {α κ : Type} [Inhabited α] [LinearOrder κ]
    (key : α → κ) (less : α → α → Bool) (hless : ∀ x y, less x y = true ↔ key x < key y)
    (a b : ℕ) :
    ∀ (n i : ℕ) (xs : List α), a + 1 ≤ i → i ≤ b → b ≤ xs.length → SortedOn key xs a i →
      LeftBounded key xs a b →
      ∃ ys d, partialInsertionSort_loop less a b n i xs = some (ys, d) ∧ Within a b xs ys ∧
        (d = true → SortedOn key ys a b) := by
  intro n
  induction n with
  | zero =>
    intro i xs _ _ _ _ _
    exact ⟨xs, false, rfl, within_refl _ _ _, fun h => by cases h⟩
  | succ n ih =>
    intro i xs hai hib hb hs hlb
    obtain ⟨i2, c1, c2, c3, c4⟩ := partialInsertionSort_scan_spec key less hless xs a b hb
      (b + 1) i (by omega) hai hib hs
    unfold partialInsertionSort_loop
    simp only [c1, Option.some_bind]
    by_cases hi2 : i2 = b
    · rw [if_pos hi2]
      refine ⟨xs, true, rfl, within_refl _ _ _, fun _ => ?_⟩
      rw [← hi2]
      exact c4
    · rw [if_neg hi2]
      by_cases h50 : b - a < 50
      · rw [if_pos h50]
        exact ⟨xs, false, rfl, within_refl _ _ _, fun h => by cases h⟩
      · rw [if_neg h50]
        obtain ⟨xs1, hs1, hw1, _, _, e3⟩ :=
          swapAt_within xs a b i2 (i2 - 1) hb (by omega) (by omega) (by omega) (by omega)
        have hb1 : b ≤ xs1.length := by rw [hw1.1]; exact hb
        have hlb1 := leftBounded_within key hlb hw1
        have hs1s : SortedOn key xs1 a (i2 - 1) :=
          sortedOn_congr key (fun p q hp hpq hq => c4 p q hp hpq (by omega))
            (fun k hk hk2 => e3 k (by omega) (by omega))
        obtain ⟨xs2, hs2, hw2, hsorted2⟩ : ∃ xs2,
            (if 2 ≤ i2 - a then partialInsertionSort_left less (i2 - 1) xs1 else some xs1) =
              some xs2 ∧ Within a i2 xs1 xs2 ∧ SortedOn key xs2 a i2 := by
          by_cases h2 : 2 ≤ i2 - a
          · rw [if_pos h2, partialInsertionSort_left_eq key less hless a (i2 - 1) (i2 - 1) xs1
              (by omega) (le_refl _) (by omega)
              (by
                rcases hlb1 with h | h
                · exact Or.inl h
                · exact Or.inr (fun k hk hk2 => h k hk (by omega)))]
            obtain ⟨ys, hy, hw, hso⟩ := insertionSort_inner_spec key less hless a (i2 - 1)
              (i2 - 1) xs1 (by omega) (le_refl _) (by omega)
              (fun p q hp hpq hq hpi hqi => hs1s p q hp hpq (by omega))
              (fun q h1 h2 => absurd h1 (by omega))
            have e : i2 - 1 + 1 = i2 := by omega
            rw [e] at hw hso
            exact ⟨ys, hy, hw, hso⟩
          · rw [if_neg h2]
            refine ⟨xs1, rfl, within_refl _ _ _, ?_⟩
            intro p q hp hpq hq
            have : p = q := by omega
            rw [this]
        have hb2 : b ≤ xs2.length := by rw [hw2.1]; exact hb1
        obtain ⟨xs3, hs3, hw3⟩ : ∃ xs3,
            (if 2 ≤ b - i2 then partialInsertionSort_right less (b - (i2 + 1)) (i2 + 1) xs2
              else some xs2) = some xs3 ∧ Within i2 b xs2 xs3 := by
          by_cases h2 : 2 ≤ b - i2
          · rw [if_pos h2]
            exact partialInsertionSort_right_spec less i2 b (b - (i2 + 1)) (i2 + 1) xs2
              (le_refl _) (by omega) hb2
          · rw [if_neg h2]
            exact ⟨xs2, rfl, within_refl _ _ _⟩
        have hw13 : Within a b xs xs3 :=
          within_trans hw1 (within_trans (within_mono hw2 (le_refl _) (by omega))
            (within_mono hw3 (by omega) (le_refl _)))
        have hsorted3 : SortedOn key xs3 a i2 :=
          sortedOn_congr key hsorted2 (fun k hk hk2 => hw3.2.2.1 k (by omega))
        obtain ⟨ys, d, hy, hwy, hd⟩ := ih i2 xs3 (by omega) c3
          (by rw [hw3.1]; exact hb2) hsorted3 (leftBounded_within key hlb hw13)
        refine ⟨ys, d, ?_, within_trans hw13 hwy, hd⟩
        simp only [hs1, Option.some_bind, hs2, hs3]
        exact hy

/-- The function `partialInsertionSort_func` exchanges elements of `data[a:b]`, and the
range is sorted when it returns true. -/
theorem partialInsertionSort_func_spec {α κ : Type} [Inhabited α] [LinearOrder κ]
    (key : α → κ) (less : α → α → Bool) (hless : ∀ x y, less x y = true ↔ key x < key y)
    (xs : List α) (a b : ℕ) (hab : a < b) (hb : b ≤ xs.length)
    (hlb : LeftBounded key xs a b) :
    ∃ ys d, partialInsertionSort_func less xs a b = some (ys, d) ∧ Within a b xs ys ∧
      (d = true → SortedOn key ys a b) := by
  unfold partialInsertionSort_func
  apply partialInsertionSort_loop_spec key less hless a b 5 (a + 1) xs (le_refl _) (by omega)
    hb _ hlb
  intro p q hp hpq hq
  have : p = q := by omega
  rw [this]

/-! ### sort.Slice: pattern-defeating quicksort -/

theorem sortedOn_of_parts {α κ : Type} [Inhabited α] [LinearOrder κ] (key : α → κ)
    (ws : List α) (a mid b : ℕ)
    (h1 : SortedOn key ws a mid) (h2 : SortedOn key ws (mid + 1) b)
    (h3 : ∀ k, a ≤ k → k < mid → key (ws.getI k) ≤ key (ws.getI mid))
    (h4 : ∀ k, mid < k → k < b → key (ws.getI mid) ≤ key (ws.getI k)) :
    SortedOn key ws a b := by
  intro i j hi hij hj
  by_cases hjm : j < mid
  · exact h1 i j hi hij hjm
  · by_cases hjm2 : j = mid
    · by_cases him : i = mid
      · rw [hjm2, him]
      · rw [hjm2]
        exact h3 i hi (by omega)
    · by_cases him : i < mid
      · exact le_trans (h3 i hi him) (h4 j (by omega) hj)
      · by_cases him2 : i = mid
        · rw [him2]
          exact h4 j (by omega) hj
        · exact h2 i j (by omega) hij hj

theorem pdqsort_func_spec {α κ : Type} [Inhabited α] [LinearOrder κ]
    (key : α → κ) (less : α → α → Bool) (hless : ∀ x y, less x y = true ↔ key x < key y) :
    ∀ (fuel : ℕ) (xs : List α) (a b limit : ℕ) (wb wp : Bool), b - a < fuel → a ≤ b →
      b ≤ xs.length → LeftBounded key xs a b →
      ∃ ys, pdqsort_func less fuel xs a b limit wb wp = some ys ∧ Within a b xs ys ∧
        SortedOn key ys a b := by
  intro fuel
  induction fuel with
  | zero => intro xs a b limit wb wp h; omega
  | succ fuel ih =>
    intro xs a b limit wb wp hf hab hb hlb
    unfold pdqsort_func
    by_cases h12 : b - a ≤ 12
    · rw [if_pos h12]
      exact insertionSort_func_spec key less hless xs a b hab hb
    · rw [if_neg h12]
      by_cases hlim : limit = 0
      · rw [if_pos hlim]
        exact heapSort_func_spec key less hless xs a b hab hb
      · rw [if_neg hlim]
        obtain ⟨s1, e1, w1⟩ : ∃ s1 : List α × ℕ,
            (if wb = true then some (xs, limit)
              else (breakPatterns_func xs a b).map (fun ys => (ys, limit - 1))) = some s1 ∧
            Within a b xs s1.1 := by
          cases wb with
          | true => exact ⟨(xs, limit), by simp, within_refl _ _ _⟩
          | false =>
            obtain ⟨ys, hy, hw⟩ := breakPatterns_func_spec xs a b hb
            exact ⟨(ys, limit - 1), by simp [hy], hw⟩
        rw [e1]
        simp only [Option.some_bind]
        have hb1 : b ≤ s1.1.length := by rw [w1.1]; exact hb
        obtain ⟨p, h, e2, hp1, hp2⟩ := choosePivot_func_spec less s1.1 a b (by omega) hb1
        rw [e2]
        simp only [Option.some_bind]
        obtain ⟨s2, e3, w2, hq1, hq2⟩ : ∃ s2 : List α × ℕ × sortedHint,
            (if h = sortedHint.decreasingHint then
              (reverseRange_func s1.1 a b).map
                (fun ys => (ys, b - 1 - (p - a), sortedHint.increasingHint))
              else some (s1.1, p, h)) = some s2 ∧
            Within a b s1.1 s2.1 ∧ a ≤ s2.2.1 ∧ s2.2.1 < b := by
          by_cases hd : h = sortedHint.decreasingHint
          · rw [if_pos hd]
            obtain ⟨ys, hy, hw⟩ := reverseRange_func_spec s1.1 a b hb1
            refine ⟨(ys, b - 1 - (p - a), sortedHint.increasingHint), by simp [hy], hw, ?_, ?_⟩
            · show a ≤ b - 1 - (p - a)
              omega
            · show b - 1 - (p - a) < b
              omega
          · rw [if_neg hd]
            exact ⟨(s1.1, p, h), rfl, within_refl _ _ _, hp1, hp2⟩
        rw [e3]
        simp only [Option.some_bind]
        have w12 := within_trans w1 w2
        have hb2 : b ≤ s2.1.length := by rw [w2.1]; exact hb1
        have hlb2 := leftBounded_within key hlb w12
        obtain ⟨s3, e4, w3, hsd⟩ : ∃ s3 : List α × Bool,
            (if (wb && wp && decide (s2.2.2 = sortedHint.increasingHint)) = true then
                partialInsertionSort_func less s2.1 a b
              else some (s2.1, false)) = some s3 ∧
            Within a b s2.1 s3.1 ∧ (s3.2 = true → SortedOn key s3.1 a b) := by
          by_cases hc : (wb && wp && decide (s2.2.2 = sortedHint.increasingHint)) = true
          · rw [if_pos hc]
            obtain ⟨ys, d, hy, hw, hd⟩ :=
              partialInsertionSort_func_spec key less hless s2.1 a b (by omega) hb2 hlb2
            exact ⟨(ys, d), hy, hw, hd⟩
          · rw [if_neg hc]
            exact ⟨(s2.1, false), rfl, within_refl _ _ _, fun h => by cases h⟩
        rw [e4]
        simp only [Option.some_bind]
        have w13 := within_trans w12 w3
        by_cases hdone : s3.2 = true
        · rw [if_pos hdone]
          exact ⟨s3.1, rfl, w13, hsd hdone⟩
        · rw [if_neg hdone]
          have hb3 : b ≤ s3.1.length := by rw [w3.1]; exact hb2
          have hlb3 := leftBounded_within key hlb w13
          obtain ⟨eq, e5, heq⟩ : ∃ eq : Bool,
              (if 0 < a then (lessAt less s3.1 (a - 1) s2.2.1).map (fun lt => !lt)
                else some false) = some eq ∧
              (eq = true → 0 < a ∧ key (s3.1.getI s2.2.1) ≤ key (s3.1.getI (a - 1))) := by
            by_cases ha : 0 < a
            · rw [if_pos ha, lessAt_eq less s3.1 (a - 1) s2.2.1 (by omega) (by omega)]
              refine ⟨!less (s3.1.getI (a - 1)) (s3.1.getI s2.2.1), rfl, ?_⟩
              intro hh
              refine ⟨ha, ?_⟩
              apply (less_false_iff key less hless _ _).mp
              simpa using hh
            · rw [if_neg ha]
              exact ⟨false, rfl, fun h => by cases h⟩
          rw [e5]
          simp only [Option.some_bind]
          by_cases hq : eq = true
          · rw [if_pos hq]
            obtain ⟨ha, hle⟩ := heq hq
            obtain ⟨ys, mid, ey, wy, m1, m2, m3, m4⟩ :=
              partitionEqual_func_spec key less hless s3.1 a b s2.2.1 hq1 hq2 hb3
            rw [ey]
            simp only [Option.some_bind]
            have hlow : ∀ k, a ≤ k → k < b → key (s3.1.getI (a - 1)) ≤ key (ys.getI k) := by
              rcases hlb3 with h0 | h0
              · omega
              · exact within_forall wy (fun x => key (s3.1.getI (a - 1)) ≤ key x) h0
            have heqk : ∀ k, a ≤ k → k < mid → key (ys.getI k) = key (s3.1.getI s2.2.1) :=
              fun k hk hk2 => le_antisymm (m3 k hk hk2) (le_trans hle (hlow k hk (by omega)))
            have hlbm : LeftBounded key ys mid b := by
              right
              intro k hk hk2
              rw [heqk (mid - 1) (by omega) (by omega)]
              exact le_of_lt (m4 k hk hk2)
            obtain ⟨zs, ez, wz, sz⟩ := ih ys mid b s1.2 wb wp (by omega) m2
              (by rw [wy.1]; exact hb3) hlbm
            refine ⟨zs, ez, within_trans w13 (within_trans wy (within_mono wz (by omega)
              (le_refl _))), ?_⟩
            intro i j hi hij hj
            by_cases hjm : j < mid
            · rw [wz.2.2.1 i (by omega), wz.2.2.1 j (by omega), heqk i hi (by omega),
                heqk j (by omega) hjm]
            · by_cases him : i < mid
              · rw [wz.2.2.1 i (by omega), heqk i hi him]
                exact within_forall wz (fun x => key (s3.1.getI s2.2.1) ≤ key x)
                  (fun k hk hk2 => le_of_lt (m4 k hk hk2)) j (by omega) hj
              · exact sz i j (by omega) hij hj
          · rw [if_neg hq]
            obtain ⟨ys, mid, ap, ey, wy, m1, m2, m3, m4⟩ :=
              partition_func_spec key less hless s3.1 a b s2.2.1 hq1 hq2 hb3
            rw [ey]
            simp only [Option.some_bind]
            have wxy := within_trans w13 wy
            have hby : b ≤ ys.length := by rw [wy.1]; exact hb3
            have hlby := leftBounded_within key hlb wxy
            have hlbl : ∀ zs : List α, (∀ k, k < mid → zs.getI k = ys.getI k) →
                LeftBounded key zs a mid := by
              intro zs hz
              rcases hlby with h0 | h0
              · exact Or.inl h0
              · by_cases ha0 : a = 0
                · exact Or.inl ha0
                · right
                  intro k hk hk2
                  rw [hz (a - 1) (by omega), hz k hk2]
                  exact h0 k hk (by omega)
            have hlbr : ∀ zs : List α, (∀ k, mid ≤ k → zs.getI k = ys.getI k) →
                LeftBounded key zs (mid + 1) b := by
              intro zs hz
              right
              intro k hk hk2
              rw [Nat.add_sub_cancel, hz mid (le_refl _), hz k (by omega)]
              exact m4 k (by omega) hk2
            by_cases hside : mid - a < b - mid
            · rw [if_pos hside]
              obtain ⟨z1, ez1, wz1, sz1⟩ := ih ys a mid s1.2 true true (by omega) m1 (by omega)
                (hlbl ys (fun _ _ => rfl))
              rw [ez1]
              simp only [Option.some_bind]
              obtain ⟨z2, ez2, wz2, sz2⟩ := ih z1 (mid + 1) b s1.2
                (decide ((b - a) / 8 ≤ mid - a)) ap (by omega) (by omega)
                (by rw [wz1.1]; exact hby) (hlbr z1 (fun k hk => wz1.2.2.1 k (by omega)))
              refine ⟨z2, ez2, within_trans wxy (within_trans (within_mono wz1 (le_refl _)
                (by omega)) (within_mono wz2 (by omega) (le_refl _))), ?_⟩
              apply sortedOn_of_parts key z2 a mid b
              · exact sortedOn_congr key sz1 (fun k _ hk2 => wz2.2.2.1 k (by omega))
              · exact sz2
              · intro k hk hk2
                rw [wz2.2.2.1 k (by omega), wz2.2.2.1 mid (by omega), wz1.2.2.1 mid (by omega)]
                exact le_of_lt (within_forall wz1 (fun x => key x < key (ys.getI mid)) m3 k hk hk2)
              · intro k hk hk2
                rw [wz2.2.2.1 mid (by omega), wz1.2.2.1 mid (by omega)]
                exact within_forall wz2 (fun x => key (ys.getI mid) ≤ key x)
                  (fun k hk hk2 => by
                    rw [wz1.2.2.1 k (by omega)]
                    exact m4 k (by omega) hk2) k (by omega) hk2
            · rw [if_neg hside]
              obtain ⟨z1, ez1, wz1, sz1⟩ := ih ys (mid + 1) b s1.2 true true (by omega) (by omega)
                hby (hlbr ys (fun _ _ => rfl))
              rw [ez1]
              simp only [Option.some_bind]
              obtain ⟨z2, ez2, wz2, sz2⟩ := ih z1 a mid s1.2
                (decide ((b - a) / 8 ≤ b - mid)) ap (by omega) m1
                (by rw [wz1.1]; omega) (hlbl z1 (fun k hk => wz1.2.2.1 k (by omega)))
              refine ⟨z2, ez2, within_trans wxy (within_trans (within_mono wz1 (by omega)
                (le_refl _)) (within_mono wz2 (le_refl _) (by omega))), ?_⟩
              apply sortedOn_of_parts key z2 a mid b
              · exact sz2
              · exact sortedOn_congr key sz1 (fun k hk _ => wz2.2.2.1 k (by omega))
              · intro k hk hk2
                rw [wz2.2.2.1 mid (by omega), wz1.2.2.1 mid (by omega)]
                exact le_of_lt (within_forall wz2 (fun x => key x < key (ys.getI mid))
                  (fun k hk hk2 => by
                    rw [wz1.2.2.1 k (by omega)]
                    exact m3 k hk hk2) k hk hk2)
              · intro k hk hk2
                rw [wz2.2.2.1 k (by omega), wz2.2.2.1 mid (by omega), wz1.2.2.1 mid (by omega)]
                exact within_forall wz1 (fun x => key (ys.getI mid) ≤ key x)
                  (fun k hk hk2 => m4 k (by omega) hk2) k (by omega) hk2

/-! ### sort.Slice sorts, and the order of the report -/

/-- The function `sort.Slice` does not panic, and the slice after the call is a permutation
of the slice before it, in non-decreasing order of the keys. -/
theorem Slice_sorts {α κ : Type} [LinearOrder κ] (key : α → κ) (less : α → α → Bool)
    (hless : ∀ x y, less x y = true ↔ key x < key y) (xs : List α) :
    ∃ ys, Slice less xs = some ys ∧ ys.Perm xs ∧ ys.Pairwise (fun x y => key x ≤ key y) := by
  cases xs with
  | nil => exact ⟨[], rfl, List.Perm.refl _, List.Pairwise.nil⟩
  | cons x t =>
    haveI : Inhabited α := ⟨x⟩
    obtain ⟨ys, hy, hw, hs⟩ := pdqsort_func_spec key less hless ((x :: t).length + 1) (x :: t) 0
      (x :: t).length (bitsLen (x :: t).length) true true (by omega) (Nat.zero_le _) (le_refl _)
      (Or.inl rfl)
    refine ⟨ys, hy, hw.2.1, ?_⟩
    rw [List.pairwise_iff_getElem]
    intro i j hi hj hij
    have h := hs i j (Nat.zero_le _) (le_of_lt hij) (by rw [← hw.1]; exact hj)
    rw [List.getI_eq_getElem ys hi, List.getI_eq_getElem ys hj] at h
    exact h

theorem startTimeLess_iff (x y : Result) :
    startTimeLess x y = true ↔ startTime x < startTime y := by
  unfold startTimeLess
  exact decide_eq_true_iff

theorem sortSliceGo_sorts (rs : List Result) :
    Slice startTimeLess rs = some (sortSliceGo startTimeLess rs) ∧
    (sortSliceGo startTimeLess rs).Perm rs ∧
    (sortSliceGo startTimeLess rs).Pairwise (fun x y => startTime x ≤ startTime y) := by
  obtain ⟨ys, hy, hp, hs⟩ := Slice_sorts startTime startTimeLess startTimeLess_iff rs
  have e : sortSliceGo startTimeLess rs = ys := by
    unfold sortSliceGo
    rw [hy]
    rfl
  rw [e]
  exact ⟨hy, hp, hs⟩

theorem filterMap_of_map_eq {α β : Type} (f : α → Option β) (l : List α) (more : List β)
    (h : l.map f = more.map some) : l.filterMap f = more ∧ ∀ a ∈ l, (f a).isSome = true := by
  induction l generalizing more with
  | nil =>
    cases more with
    | nil => exact ⟨rfl, fun a ha => by cases ha⟩
    | cons _ _ => simp at h
  | cons a l ih =>
    cases more with
    | nil => simp at h
    | cons m more =>
      simp only [List.map_cons, List.cons.injEq] at h
      obtain ⟨h1, h2⟩ := ih more h.2
      refine ⟨?_, ?_⟩
      · rw [List.filterMap_cons, h.1, h1]
      · intro x hx
        rcases List.mem_cons.mp hx with e | e
        · rw [e, h.1]; rfl
        · exact h2 x e

/-- The results that the loop of `main` collects are those of the files, in the order of
the arguments; there is a report exactly when every file is opened and analysed. -/
theorem collect_eq (trav : List (ℤ × ℕ) → List (ℤ × ℕ))
    (args : List (String × Option (List String))) (collected : List Result) :
    collect trav args [] = Outcome.report collected ↔
      (∀ a ∈ args, (resultOf trav a).isSome = true) ∧
        collected = args.filterMap (resultOf trav) := by
  rw [collect_report_iff]
  constructor
  · rintro ⟨more, h1, h2⟩
    obtain ⟨k1, k2⟩ := filterMap_of_map_eq _ _ _ h1
    refine ⟨k2, ?_⟩
    rw [h2, k1]
    rfl
  · rintro ⟨h1, h2⟩
    refine ⟨args.filterMap (resultOf trav), ?_, by rw [h2]; rfl⟩
    have := map_some_filterMap (args.map (resultOf trav)) (by
      intro x hx
      obtain ⟨a, ha, e⟩ := List.mem_map.mp hx
      rw [← e]
      exact h1 a ha)
    rw [List.filterMap_map] at this
    exact this

/-- C17. The function `sort.Slice` of the Go library (pattern-defeating quicksort), called
with the comparison of `main`, does not panic and leaves any list of results as a
permutation of it in which the values of `Table["Start Time"]` (the empty string for a
missing key) never decrease.  Hence `main` reports exactly when every file is opened and
analysed, and the report is the sorted list of the results of the files: a permutation of
them in non-decreasing order of the start times.  When the start times of a report are
distinct, the report is the same for every permutation of the arguments, and for every
sorting function that keeps the contract of `sort.Slice`.  In `batchLateFirst` the files
are given in the order late, early, without start time, and reported in the reverse
order. -/
theorem C17_report_sorted_by_start_time (trav : List (ℤ × ℕ) → List (ℤ × ℕ))
    (args : List (String × Option (List String))) :
    (∀ rs : List Result, Slice startTimeLess rs = some (sortSliceGo startTimeLess rs) ∧
      (sortSliceGo startTimeLess rs).Perm rs ∧
      (sortSliceGo startTimeLess rs).Pairwise (fun x y => startTime x ≤ startTime y)) ∧
    (∀ out, main trav sortSliceGo args = Outcome.report out →
      (∀ a ∈ args, (resultOf trav a).isSome = true) ∧
      out = sortSliceGo startTimeLess (args.filterMap (resultOf trav)) ∧
      out.Perm (args.filterMap (resultOf trav)) ∧
      out.Pairwise (fun x y => startTime x ≤ startTime y)) ∧
    ((∀ a ∈ args, (resultOf trav a).isSome = true) →
      main trav sortSliceGo args =
        Outcome.report (sortSliceGo startTimeLess (args.filterMap (resultOf trav)))) ∧
    (∀ out, main trav sortSliceGo args = Outcome.report out → (out.map startTime).Nodup →
      (∀ args2 : List (String × Option (List String)), args2.Perm args →
        main trav sortSliceGo args2 = Outcome.report out) ∧
      (∀ sortSlice : (Result → Result → Bool) → List Result → List Result,
        SortsByStartTime sortSlice → main trav sortSlice args = Outcome.report out)) ∧
    main id sortSliceGo batchLateFirst =
      Outcome.report
        [{ tripSlowResult with Path := "none.kml" }, { tripTenResult with Path := "early.kml" },
          { tripSlowResult with Path := "late.kml", Table := [("Start Time", "09:00")] }] := by
  have hrep : ∀ out, main trav sortSliceGo args = Outcome.report out →
      (∀ a ∈ args, (resultOf trav a).isSome = true) ∧
      out = sortSliceGo startTimeLess (args.filterMap (resultOf trav)) := by
    intro out h
    rw [main_report_iff] at h
    obtain ⟨c, hc, e⟩ := h
    rw [collect_eq] at hc
    exact ⟨hc.1, by rw [e, hc.2]⟩
  refine ⟨sortSliceGo_sorts, ?_, ?_, ?_, by decide!⟩
  · intro out h
    obtain ⟨h1, h2⟩ := hrep out h
    refine ⟨h1, h2, ?_, ?_⟩
    · rw [h2]; exact (sortSliceGo_sorts _).2.1
    · rw [h2]; exact (sortSliceGo_sorts _).2.2
  · intro hall
    rw [main_report_iff]
    exact ⟨_, (collect_eq trav args _).mpr ⟨hall, rfl⟩, rfl⟩
  · intro out h hnd
    obtain ⟨h1, h2⟩ := hrep out h
    have hperm : out.Perm (args.filterMap (resultOf trav)) := by
      rw [h2]; exact (sortSliceGo_sorts _).2.1
    have hsorted : out.Pairwise (fun x y => startTime x ≤ startTime y) := by
      rw [h2]; exact (sortSliceGo_sorts _).2.2
    constructor
    · intro args2 hp
      have hall2 : ∀ a ∈ args2, (resultOf trav a).isSome = true :=
        fun a ha => h1 a (hp.mem_iff.mp ha)
      rw [main_report_iff]
      refine ⟨_, (collect_eq trav args2 _).mpr ⟨hall2, rfl⟩, ?_⟩
      have hp2 : (sortSliceGo startTimeLess (args2.filterMap (resultOf trav))).Perm out :=
        ((sortSliceGo_sorts _).2.1.trans (hp.filterMap _)).trans hperm.symm
      exact (sorted_unique hp2 hnd (sortSliceGo_sorts _).2.2 hsorted).symm
    · intro sortSlice hsort
      rw [main_report_iff]
      refine ⟨_, (collect_eq trav args _).mpr ⟨h1, rfl⟩, ?_⟩
      have hp2 : (sortSlice startTimeLess (args.filterMap (resultOf trav))).Perm out :=
        (hsort _).1.trans hperm.symm
      have hs2 : (sortSlice startTimeLess (args.filterMap (resultOf trav))).Pairwise
          (fun x y => startTime x ≤ startTime y) :=
        (hsort _).2.imp (fun {a b} h => (startTimeLess_false_iff a b).mp h)
      exact (sorted_unique hp2 hnd hs2 hsorted).symm

end KmlSpeed
